import Mathlib

set_option maxRecDepth 8000

/-!
Shallow embedding of the zeebo/go-tdigest repository (files `fen.go`,
`tdigest.go`, `serialization.go` and the summary source in
`src/unnamed/part_002`) together with proofs about the claims on it.

Modelling conventions:
* Go `uint32` values are `ℕ` with every arithmetic operation reduced
  explicitly modulo `2^32` (`add32`, `sub32`).
* Go `float64` values are modelled as `Option ℚ`: `none` plays the role of
  NaN (comparisons with it are false, arithmetic propagates it), `some q`
  is a finite value with exact rational arithmetic.  Rounding of IEEE
  doubles is the one idealization of this embedding.
* Go loops are translated as fuel-indexed structural recursions; every
  entry point fixes the fuel at a value that dominates the number of
  iterations of the corresponding Go loop, so the embedding is executable
  and kernel-reducible.
* The source of randomness (`math/rand`) is an explicit oracle: an
  arbitrary function `ℕ → ℕ` together with a cursor; `rand.Intn n` reads
  the next oracle value reduced mod `n`.
* Panics are explicit result constructors.
-/

namespace TD

/-- A structurally evaluating decidable equality for `ℚ` (numerator and
denominator comparison); the derived instance reduces poorly in the
kernel.  Installed before the model so every derived instance below picks
it up. -/
instance (priority := 2000) fastRatDecEq : DecidableEq ℚ := fun a b =>
  decidable_of_iff (a.num = b.num ∧ a.den = b.den)
    (Iff.intro (fun h => Rat.ext h.1 h.2) (fun h => by subst h; exact ⟨rfl, rfl⟩))

/-! ### Machine integers -/

def M32 : ℕ := 4294967296

/-- Go `uint32` addition (`a + b` with wraparound). -/
def add32 (a b : ℕ) : ℕ := (a + b) % M32

/-- Go `uint32` subtraction (`a - b` with wraparound). -/
def sub32 (a b : ℕ) : ℕ := (a + (M32 - b % M32)) % M32

/-! ### float64 model: `Option ℚ`, `none` = NaN -/

abbrev F := Option ℚ

def fnan : F := none

def fadd : F → F → F
  | some a, some b => some (Rat.add a b)
  | _, _ => none

def fsub : F → F → F
  | some a, some b => some (Rat.sub a b)
  | _, _ => none

def fmul : F → F → F
  | some a, some b => some (Rat.mul a b)
  | _, _ => none

def fdiv : F → F → F
  | some a, some b => some (Rat.div a b)
  | _, _ => none

/-- Go `<` on float64: false whenever an operand is NaN. -/
def flt : F → F → Bool
  | some a, some b => decide (a < b)
  | _, _ => false

/-- Go `==` on float64: false whenever an operand is NaN. -/
def feq : F → F → Bool
  | some a, some b => decide (a = b)
  | _, _ => false

/-- Go `math.Abs`. -/
def fabs : F → F
  | some a => some (if decide (a < 0) then Rat.neg a else a)
  | none => none

/-- Go `math.IsNaN`. -/
def fIsNaN : F → Bool
  | none => true
  | some _ => false

/-- Go `math.Min` on float64 (both finite here; NaN propagates). -/
def fmin : F → F → F
  | some a, some b => some (if decide (a < b) then a else b)
  | _, _ => none

/-- Go conversion `uint32(x)` of a nonnegative float64: truncation. -/
def fToUint32 : F → ℕ
  | some a => a.floor.toNat % M32
  | none => 0

/-- The rational value of a natural number, built directly (shallow kernel
reduction, unlike the unary `Nat.cast` path). -/
def nq (n : ℕ) : ℚ := Rat.ofInt (Int.ofNat n)

/-- Go conversion `float64(n)` of a uint32 (exact below 2^53). -/
def uf (n : ℕ) : F := some (nq n)

/-! ### `fen.go`: the Fenwick / binary-indexed tree -/

/--
Go `lsb(i) = i & -i`, the lowest set bit of a nonnegative `int` (0 for 0).
`lsbF` is the fuel-indexed worker recursing on the binary representation;
`lsb n` runs it with fuel `n`, which dominates the number of halvings.
-/
def lsbF : ℕ → ℕ → ℕ
  | 0, _ => 0
  | _ + 1, n =>
    if n = 0 then 0
    else if n % 2 = 1 then 1
    else 2 * lsbF (n / 2) (n / 2)

def lsb (n : ℕ) : ℕ := lsbF n n

structure Fen where
  buf : List ℕ
deriving Repr, DecidableEq

/-- Go `fen.accomodate(i)`: zero-filled growth to length `i+1` when
`len(buf) <= i`.  The Go index is a (possibly negative) `int`. -/
def accomodate (f : Fen) (i : ℤ) : Fen :=
  if (f.buf.length : ℤ) ≤ i then
    ⟨f.buf ++ List.replicate ((i + 1).toNat - f.buf.length) 0⟩
  else f

/-- The update loop of Go `fen.Add`: `for i < len(buf) { buf[i] += delta; i += lsb(i+1) }`.
Fuel dominates the iteration count (the index strictly increases). -/
def fenAddLoop : ℕ → List ℕ → ℕ → ℕ → List ℕ
  | 0, buf, _, _ => buf
  | fuel + 1, buf, i, delta =>
    if i < buf.length then
      fenAddLoop fuel (buf.set i (add32 (buf.getD i 0) delta)) (i + lsb (i + 1)) delta
    else buf

/-- Go `fen.Add(i, delta)`. -/
def fenAdd (f : Fen) (i : ℕ) (delta : ℕ) : Fen :=
  let f := accomodate f i
  ⟨fenAddLoop f.buf.length f.buf i delta⟩

/-- The descending loop of Go `fen.Sum`: `for i > 0 { sum += buf[i-1]; i -= lsb(i) }`.
Fuel dominates the iteration count (the index strictly decreases). -/
def fenSumLoop : ℕ → List ℕ → ℕ → ℕ → ℕ
  | 0, _, _, acc => acc
  | fuel + 1, buf, i, acc =>
    if i > 0 then
      fenSumLoop fuel buf (i - lsb i) (add32 acc (buf.getD (i - 1) 0))
    else acc

/-- Go `fen.Sum(i)` (the receiver may grow via `accomodate(i-1)`). -/
def fenSum (f : Fen) (i : ℕ) : Fen × ℕ :=
  let f := accomodate f ((i : ℤ) - 1)
  (f, fenSumLoop i f.buf i 0)

/-- First loop of Go `fen.Range`: `for j > i { sum += buf[j-1]; j -= lsb(j) }`. -/
def fenRangeDown : ℕ → List ℕ → ℕ → ℕ → ℕ → ℕ × ℕ
  | 0, _, _, j, acc => (j, acc)
  | fuel + 1, buf, i, j, acc =>
    if j > i then
      fenRangeDown fuel buf i (j - lsb j) (add32 acc (buf.getD (j - 1) 0))
    else (j, acc)

/-- Second loop of Go `fen.Range`: `for i > j { sum -= buf[i-1]; i -= lsb(i) }`. -/
def fenRangeSub : ℕ → List ℕ → ℕ → ℕ → ℕ → ℕ
  | 0, _, _, _, acc => acc
  | fuel + 1, buf, j, i, acc =>
    if i > j then
      fenRangeSub fuel buf j (i - lsb i) (sub32 acc (buf.getD (i - 1) 0))
    else acc

/-- Go `fen.Range(i, j)` (the receiver may grow via `accomodate(j-1)`). -/
def fenRange (f : Fen) (i j : ℕ) : Fen × ℕ :=
  let f := accomodate f ((j : ℤ) - 1)
  let (j', acc) := fenRangeDown j f.buf i j 0
  (f, fenRangeSub i f.buf j' i acc)

/-- Go `fen.Get(i) = Range(i, i+1)`. -/
def fenGet (f : Fen) (i : ℕ) : Fen × ℕ := fenRange f i (i + 1)

/-- Go `fen.Set(i, value)`: `delta := value - Range(i, i+1); Add(i, delta)`. -/
def fenSet (f : Fen) (i : ℕ) (value : ℕ) : Fen :=
  let (f, cur) := fenRange f i (i + 1)
  fenAdd f i (sub32 value cur)

/-- Fenwick node `k` (0-based) covers array position `p`:
node `k` stores the sum over `[k+1-lsb(k+1), k+1)`. -/
def cover (k p : ℕ) : Prop := p ≤ k ∧ k + 1 - lsb (k + 1) ≤ p

/-- The Fenwick node invariant: node `k` holds the wrapped sum of the
abstract array `a` over its covered interval. -/
def fenInv (buf : List ℕ) (a : ℕ → ℕ) : Prop :=
  ∀ k, k < buf.length →
    buf.getD k 0 = (∑ j ∈ Finset.Ico (k + 1 - lsb (k + 1)) (k + 1), a j) % M32

/-- The abstract array determined by a list of `(position, delta)` Add
operations: the wrapped-free total at position `j`. -/
def aOf (ops : List (ℕ × ℕ)) (j : ℕ) : ℕ :=
  ((ops.filter (fun op => op.1 = j)).map Prod.snd).sum

/-- Folding a list of `fen.Add` calls over a tree. -/
def applyAdds (f : Fen) (ops : List (ℕ × ℕ)) : Fen :=
  ops.foldl (fun g op => fenAdd g op.1 op.2) f

instance (k p : ℕ) : Decidable (cover k p) := by
  unfold cover; infer_instance


/-! ### The summary (centroid store), from `src/unnamed/part_002` -/

structure Centroid where
  mean : F
  count : ℕ
  index : ℤ
deriving Repr, DecidableEq

/-- Go `(c centroid) isValid()`. -/
def Centroid.isValid (c : Centroid) : Bool := !fIsNaN c.mean && decide (0 < c.count)

/-- Go `invalidCentroid` (`index` gets the zero value). -/
def invalidCentroid : Centroid := ⟨fnan, 0, 0⟩

/-- Go `(c *centroid) Update(x, weight)`: the count is bumped first and the
incremental weighted-mean formula uses the updated count. -/
def centroidUpdate (c : Centroid) (x : F) (weight : ℕ) : Centroid :=
  let count := add32 c.count weight
  { mean := fadd c.mean (fdiv (fmul (uf weight) (fsub x c.mean)) (uf count))
    count := count
    index := c.index }

/-- Go `a > b` on float64. -/
def fgt (a b : F) : Bool := flt b a

structure Summary where
  keys : List F
  counts : List ℕ
  fen : Fen
deriving Repr, DecidableEq

/-- Go `newSummary(initialCapacity)`; the fen starts as a zero slice of
that length. -/
def newSummary (initialCapacity : ℕ) : Summary :=
  ⟨[], [], ⟨List.replicate initialCapacity 0⟩⟩

def sLen (s : Summary) : ℕ := s.keys.length

/-- Binary-search loop of Go `summary.FindIndex`:
`for i < j { h := (i+j)/2; if keys[h] < x { i = h+1 } else { j = h } }`. -/
def findIndexLoop : ℕ → List F → F → ℕ → ℕ → ℕ
  | 0, _, _, i, _ => i
  | fuel + 1, keys, x, i, j =>
    if i < j then
      let h := (i + j) / 2
      if flt (keys.getD h fnan) x then findIndexLoop fuel keys x (h + 1) j
      else findIndexLoop fuel keys x i h
    else i

/-- Go `summary.FindIndex(x)`. -/
def sFindIndex (keys : List F) (x : F) : ℕ :=
  findIndexLoop (keys.length + 1) keys x 0 keys.length

/-- Go `summary.meanAtIndexIs(index, mean)`. -/
def meanAtIndexIs (keys : List F) (index : ℕ) (mean : F) : Bool :=
  decide (index < keys.length) && feq (keys.getD index fnan) mean

/-- Go `summary.At(index)` (`index` is an `int`; out of range gives the
invalid sentinel). -/
def sAt (s : Summary) (index : ℤ) : Centroid :=
  if (s.keys.length : ℤ) - 1 < index ∨ index < 0 then invalidCentroid
  else ⟨s.keys.getD index.toNat fnan, s.counts.getD index.toNat 0, index⟩

def sMin (s : Summary) : Centroid := sAt s 0

def sMax (s : Summary) : Centroid := sAt s ((s.keys.length : ℤ) - 1)

/-- Go `summary.Find(x)`. -/
def sFind (s : Summary) (x : F) : Centroid :=
  let idx := sFindIndex s.keys x
  if decide (idx < sLen s) && feq (s.keys.getD idx fnan) x then
    ⟨x, s.counts.getD idx 0, idx⟩
  else invalidCentroid

/-- Go `summary.Data()` (via `Iterate`): the centroids in store order. -/
def sData (s : Summary) : List Centroid :=
  (List.range s.keys.length).map fun i => ⟨s.keys.getD i fnan, s.counts.getD i 0, i⟩

/-- Go `summary.successorAndPredecessorItems(mean)`. -/
def succAndPred (s : Summary) (mean : F) : Centroid × Centroid :=
  let idx := sFindIndex s.keys mean
  (sAt s ((idx : ℤ) + 1), sAt s ((idx : ℤ) - 1))

/-- Go `summary.ceilingAndFloorItems(mean)`. -/
def ceilingAndFloor (s : Summary) (mean : F) : Centroid × Centroid :=
  let idx := sFindIndex s.keys mean
  if idx = sLen s then (invalidCentroid, sMax s)
  else
    let item := sAt s idx
    if item.isValid && feq mean item.mean then (item, item)
    else if idx = 0 then (sMin s, invalidCentroid)
    else (item, sAt s ((idx : ℤ) - 1))

/-- Go `summary.sumUntilMean(mean)` (threads the fen, whose `accomodate`
may grow it). -/
def sumUntilMean (s : Summary) (mean : F) : Summary × ℕ :=
  let (f, v) := fenSum s.fen (sFindIndex s.keys mean)
  ({ s with fen := f }, v)

/-- Swap of two adjacent entries, as the Go parallel assignment does. -/
def swapAt (l : List F) (c : List ℕ) (a b : ℕ) : List F × List ℕ :=
  ((l.set a (l.getD b fnan)).set b (l.getD a fnan),
   (c.set a (c.getD b 0)).set b (c.getD a 0))

/-- Bubble loop of Go `summary.adjustRight`:
`for i := index+1; i < len(keys) && keys[i-1] > keys[i]; i++ { swap; amount++ }`. -/
def adjustRightLoop : ℕ → List F → List ℕ → ℕ → ℕ → List F × List ℕ × ℕ
  | 0, keys, counts, _, amount => (keys, counts, amount)
  | fuel + 1, keys, counts, i, amount =>
    if decide (i < keys.length) && fgt (keys.getD (i - 1) fnan) (keys.getD i fnan) then
      let (keys', counts') := swapAt keys counts (i - 1) i
      adjustRightLoop fuel keys' counts' (i + 1) (amount + 1)
    else (keys, counts, amount)

/-- Go `summary.adjustRight(index)`: bubble rightwards, then re-`Set` the
fen at positions `index+1 .. index+amount` (note: not at `index` itself). -/
def adjustRight (s : Summary) (index : ℕ) : Summary :=
  let (keys', counts', amount) := adjustRightLoop s.keys.length s.keys s.counts (index + 1) 0
  let fen' := (List.range amount).foldl
    (fun f k => fenSet f (index + k + 1) (counts'.getD (index + k + 1) 0)) s.fen
  ⟨keys', counts', fen'⟩

/-- Bubble loop of Go `summary.adjustLeft`:
`for i := index-1; i >= 0 && keys[i] > keys[i+1]; i-- { swap; amount++ }`.
Structural recursion on the descending index. -/
def adjustLeftLoop (keys : List F) (counts : List ℕ) (i : ℕ) (amount : ℕ) :
    List F × List ℕ × ℕ :=
  if fgt (keys.getD i fnan) (keys.getD (i + 1) fnan) then
    let (keys', counts') := swapAt keys counts i (i + 1)
    match i with
    | 0 => (keys', counts', amount + 1)
    | i' + 1 => adjustLeftLoop keys' counts' i' (amount + 1)
  else (keys, counts, amount)

/-- Go `summary.adjustLeft(index)`: bubble leftwards, then re-`Set` the fen
at positions `index-1 .. index-amount` (note: not at `index` itself).
For `index = 0` the Go loop starts at `i = -1` and never runs. -/
def adjustLeft (s : Summary) (index : ℕ) : Summary :=
  if index = 0 then s
  else
    let (keys', counts', amount) := adjustLeftLoop s.keys s.counts (index - 1) 0
    let fen' := (List.range amount).foldl
      (fun f k => fenSet f (index - k - 1) (counts'.getD (index - k - 1) 0)) s.fen
    ⟨keys', counts', fen'⟩

/-- Go `summary.updateAt(index, mean, count)`. -/
def updateAt (s : Summary) (index : ℕ) (mean : F) (count : ℕ) : Summary :=
  let old_key := s.keys.getD index fnan
  let old_count := s.counts.getD index 0
  let c := centroidUpdate ⟨old_key, old_count, index⟩ mean count
  let s' : Summary :=
    ⟨s.keys.set index c.mean, s.counts.set index c.count,
     fenAdd s.fen index (sub32 c.count old_count)⟩
  if fgt c.mean old_key then adjustRight s' index
  else if flt c.mean old_key then adjustLeft s' index
  else s'

/-- The Go slice insertion `append` + `copy` shifting in `summary.Add`:
appends `z`, then copies `l[idx:]` one slot to the right; position `idx`
still holds its old value afterwards. -/
def shiftIns {α : Type} (l : List α) (idx : ℕ) (z : α) : List α :=
  let l1 := l ++ [z]
  l1.take (idx + 1) ++ (l1.drop idx).take (l.length - idx)

/-- Go `summary.Add(key, value)`. -/
def summaryAdd (s : Summary) (key : F) (value : ℕ) : Except String Summary :=
  if fIsNaN key then .error "Key must not be NaN"
  else if value = 0 then .error "Count must be >0"
  else
    let idx := sFindIndex s.keys key
    if meanAtIndexIs s.keys idx key then .ok (updateAt s idx key value)
    else
      let keys2 := shiftIns s.keys idx (some 0)
      let counts2 := shiftIns s.counts idx 0
      let fen2 := (List.range (s.keys.length - idx)).foldl
        (fun f k => fenSet f (idx + 1 + k) (counts2.getD (idx + 1 + k) 0)) s.fen
      .ok ⟨keys2.set idx key, counts2.set idx value, fenSet fen2 idx value⟩

/-- Modelled from the spec: `summary.Remove(mean)` is called by the digest
engine's `addCentroid` (src/tdigest.go line 204) but its definition is not
among the source files.  Per the spec (§3 lifecycle: centroids are
"removed and replaced by update-in-place during compression/merge
rebuilds") it deletes the centroid with the given mean from the store,
re-pointing the order-statistics index for the shifted trailing positions,
and returns the removed centroid (the invalid sentinel when absent). -/
def sRemove (s : Summary) (mean : F) : Centroid × Summary :=
  let idx := sFindIndex s.keys mean
  if meanAtIndexIs s.keys idx mean then
    let c : Centroid := ⟨s.keys.getD idx fnan, s.counts.getD idx 0, idx⟩
    let keys' := s.keys.eraseIdx idx
    let counts' := s.counts.eraseIdx idx
    let fen' := (List.range (keys'.length - idx)).foldl
      (fun f k => fenSet f (idx + k) (counts'.getD (idx + k) 0)) s.fen
    (c, ⟨keys', counts', fen'⟩)
  else (invalidCentroid, s)

/-! ### The digest engine, from `src/tdigest.go` -/

/-- The `math/rand` source as an explicit oracle: an arbitrary stream of
naturals with a cursor. -/
structure Rng where
  g : ℕ → ℕ
  k : ℕ

/-- `rand.Intn(n)`: next oracle value reduced mod `n` (call sites have
`n ≥ 1`). -/
def randIntn (r : Rng) (n : ℕ) : ℕ × Rng := (r.g r.k % n, ⟨r.g, r.k + 1⟩)

/-- Result of an operation that can panic. -/
inductive Res (α : Type) where
  | panic : String → Res α
  | ok : α → Res α
deriving Repr

structure TDigest where
  summary : Summary
  compression : ℚ
  count : ℕ
deriving Repr, DecidableEq

/-- Result of Go `TDigest.Add`: a panic, an error return, or the updated
digest (with the advanced random cursor). -/
inductive AddR where
  | panic : String → AddR
  | error : String → AddR
  | ok : TDigest → Rng → AddR

/-- Go `estimateCapacity(compression) = uint(compression) * 10`. -/
def estimateCapacity (compression : ℚ) : ℕ := compression.floor.toNat * 10

/-- Go `New(compression)`. -/
def newT (compression : ℚ) : TDigest :=
  ⟨newSummary (estimateCapacity compression), compression, 0⟩

/-- Go `TDigest.threshold(q) = (4 * float64(t.count) * q * (1 - q)) / t.compression`. -/
def threshold (t : TDigest) (q : F) : F :=
  fdiv (fmul (fmul (fmul (some 4) (uf t.count)) q) (fsub (some 1) q)) (some t.compression)

/-- Go `TDigest.computeCentroidQuantile(c)` (threads the summary because
`sumUntilMean` may grow the fen). -/
def computeCentroidQuantile (t : TDigest) (c : Centroid) : TDigest × F :=
  let (s', cumSum) := sumUntilMean t.summary c.mean
  ({ t with summary := s' },
   fdiv (fadd (fdiv (uf c.count) (some 2)) (uf cumSum)) (uf t.count))

/-- Go `TDigest.findNearestCentroids(mean)` (panics on an empty tree). -/
def findNearestCentroids (s : Summary) (mean : F) : Res (List Centroid) :=
  let (ceil, floor) := ceilingAndFloor s mean
  if !ceil.isValid && !floor.isValid then
    .panic "findNearestCentroids called on an empty tree"
  else if !ceil.isValid then .ok [floor]
  else if !floor.isValid then .ok [ceil]
  else if flt (fabs (fsub floor.mean mean)) (fabs (fsub ceil.mean mean)) then .ok [floor]
  else if feq (fabs (fsub floor.mean mean)) (fabs (fsub ceil.mean mean))
        && !feq floor.mean ceil.mean then .ok [floor, ceil]
  else .ok [ceil]

/-- Go `TDigest.updateCentroid(c, mean, count)` (panics when the summary
does not hold `c.mean` where the binary search says it should). -/
def updateCentroid (t : TDigest) (c : Centroid) (mean : F) (count : ℕ) : Res TDigest :=
  let idx := sFindIndex t.summary.keys c.mean
  if !meanAtIndexIs t.summary.keys idx c.mean then
    .panic "Trying to update a centroid that doesn't exist"
  else .ok { t with summary := updateAt t.summary idx mean count }

/-- Go `TDigest.addCentroid(mean, count)`.  Note the source drops the error
returned by `summary.Add` / re-`Add` after `Remove`; the error paths of
`summary.Add` return before mutating, so the summary is kept unchanged. -/
def addCentroid (t : TDigest) (mean : F) (count : ℕ) : TDigest :=
  let current := sFind t.summary mean
  if current.isValid then
    let (removed, s1) := sRemove t.summary current.mean
    let removed := centroidUpdate removed mean count
    match summaryAdd s1 removed.mean removed.count with
    | .ok s2 => { t with summary := s2 }
    | .error _ => { t with summary := s1 }
  else
    match summaryAdd t.summary mean count with
    | .ok s2 => { t with summary := s2 }
    | .error _ => t

/-- The candidates loop of Go `TDigest.Add`
(`for len(candidates) > 0 && count > 0 { ... }`); each iteration removes
one candidate, so the candidate count bounds the fuel. -/
def addLoop : ℕ → TDigest → F → List Centroid → ℕ → Rng → Res (TDigest × ℕ × Rng)
  | 0, t, _, _, count, rng => .ok (t, count, rng)
  | fuel + 1, t, value, candidates, count, rng =>
    if 0 < candidates.length ∧ 0 < count then
      let (j, rng) := randIntn rng candidates.length
      let chosen := candidates.getD j invalidCentroid
      let (t, quantile) := computeCentroidQuantile t chosen
      if fgt (uf (add32 chosen.count count)) (threshold t quantile) then
        addLoop fuel t value (candidates.eraseIdx j) count rng
      else
        let deltaW := fmin (fsub (threshold t quantile) (uf chosen.count)) (uf count)
        match updateCentroid t chosen value (fToUint32 deltaW) with
        | .panic m => .panic m
        | .ok t' =>
          addLoop fuel t' value (candidates.eraseIdx j) (sub32 count (fToUint32 deltaW)) rng
    else .ok (t, count, rng)

/-- The swap loop of Go `shuffle` (`for i := len(data)-1; i > 1; i--`),
structural on the descending index. -/
def shuffleLoop : List Centroid → Rng → ℕ → List Centroid × Rng
  | data, rng, 0 => (data, rng)
  | data, rng, 1 => (data, rng)
  | data, rng, i + 2 =>
    let (o, rng') := randIntn rng (i + 3)
    let data' := (data.set o (data.getD (i + 2) invalidCentroid)).set (i + 2)
      (data.getD o invalidCentroid)
    shuffleLoop data' rng' (i + 1)

/-- Go `shuffle(data)`. -/
def shuffle (data : List Centroid) (rng : Rng) : List Centroid × Rng :=
  shuffleLoop data rng (data.length - 1)

/-- Requests of the mutually recursive `Add` / `Compress` pair. -/
inductive EngineIn where
  | add : TDigest → F → ℕ → Rng → EngineIn
  | compress : TDigest → Rng → EngineIn
  | replayNodes : TDigest → List Centroid → Rng → EngineIn

/--
The mutually recursive core of `src/tdigest.go`: `Add`, `Compress` and
`Compress`'s replay loop.  In Go the mutual recursion (`Add` may trigger
`Compress`, which re-enters `Add`) is unbounded; here one structural fuel
counter decreases on every internal call so the model is executable.  All
theorems either evaluate concrete runs with ample fuel or stay on paths
that never re-enter the engine, where the fuel is irrelevant.
-/
def engine : ℕ → EngineIn → AddR
  | 0, _ => .panic "model: engine fuel exhausted"
  | _ + 1, .add _ _ 0 _ => .error "Illegal datapoint"
  | fuel + 1, .add t value (count + 1) rng =>
    let count := count + 1
    let t : TDigest := { t with count := add32 t.count count }
    if sLen t.summary = 0 then
      .ok (addCentroid t value count) rng
    else
      match findNearestCentroids t.summary value with
      | .panic m => .panic m
      | .ok candidates =>
        match addLoop candidates.length t value candidates count rng with
        | .panic m => .panic m
        | .ok (t, count, rng) =>
          let t := if 0 < count then addCentroid t value count else t
          if fgt (uf (sLen t.summary)) (some (Rat.mul 20 t.compression)) then
            engine fuel (.compress t rng)
          else .ok t rng
  | fuel + 1, .compress t rng =>
    if sLen t.summary ≤ 1 then .ok t rng
    else
      let nodes := sData t.summary
      let t : TDigest := { t with summary := newSummary (estimateCapacity t.compression) }
      let (nodes, rng) := shuffle nodes rng
      engine fuel (.replayNodes t nodes rng)
  | _ + 1, .replayNodes t [] rng => .ok t rng
  | fuel + 1, .replayNodes t (item :: rest) rng =>
    match engine fuel (.add t item.mean item.count rng) with
    | .panic m => .panic m
    | .error _ => engine fuel (.replayNodes t rest rng)
    | .ok t' rng' => engine fuel (.replayNodes t' rest rng')

/-- Go `TDigest.Add(value, count)` (spec name: `insert_weighted`; the test
and serialization files call it `AddWeighted`).  `fuel` bounds only the
nested `Compress` recursion. -/
def tAdd (fuel : ℕ) (t : TDigest) (value : F) (count : ℕ) (rng : Rng) : AddR :=
  engine fuel (.add t value count rng)

/-- Go `TDigest.Compress()`. -/
def tCompress (fuel : ℕ) (t : TDigest) (rng : Rng) : AddR :=
  engine fuel (.compress t rng)

/-- Result of Go `TDigest.Quantile`: a panic or a float64. -/
inductive QRes where
  | panic : String → QRes
  | val : F → QRes
deriving Repr, DecidableEq

/-- The `Iterate` closure of Go `TDigest.Quantile`: walk the centroids
accumulating weight; `some` is the early-exit result. -/
def quantLoop : List (F × ℕ) → Summary → ℕ → ℕ → ℚ → ℚ → Option F
  | [], _, _, _, _, _ => none
  | (m, c) :: rest, s, len, i, total, qc =>
    if qc < Rat.add total (nq c) then
      if i = 0 ∨ i + 1 = len then some m
      else
        let (succ, pred) := succAndPred s m
        let delta := fdiv (fsub succ.mean pred.mean) (some 2)
        some (fadd m (fmul (some (Rat.sub (Rat.div (Rat.sub qc total) (nq c)) (1/2))) delta))
    else quantLoop rest s len (i + 1) (Rat.add total (nq c)) qc

/-- Go `TDigest.Quantile(q)`. -/
def tQuantile (t : TDigest) (q : ℚ) : QRes :=
  if q < 0 ∨ q > 1 then .panic "q must be between 0 and 1 (inclusive)"
  else if sLen t.summary = 0 then .val fnan
  else if sLen t.summary = 1 then .val (sMin t.summary).mean
  else
    let qc := Rat.mul q (nq t.count)
    match quantLoop (t.summary.keys.zip t.summary.counts) t.summary (sLen t.summary) 0 0 qc with
    | some r => .val r
    | none => .val (sMax t.summary).mean

/-! ### The binary codec, from `src/serialization.go`

Byte sequences are `List ℕ` with entries below 256.  The IEEE bit-level
conversions (`math.Float64bits` / `math.Float32bits` and their inverses)
are abstract codec parameters: the claims settled here do not depend on
the bit patterns, only on the lengths (8 and 4 bytes) and, for the
compression field, on the decode inverting the encode at the stored value.
-/

/-- Go `binary.BigEndian.PutUint32`. -/
def putU32 (n : ℕ) : List ℕ :=
  [n % M32 / 16777216, n % M32 / 65536 % 256, n % M32 / 256 % 256, n % 256]

/-- Go `binary.BigEndian.Uint32` of the first four bytes (callers check
the length; fewer than four bytes panics in Go). -/
def readU32 (b : List ℕ) : ℕ :=
  b.getD 0 0 * 16777216 + b.getD 1 0 * 65536 + b.getD 2 0 * 256 + b.getD 3 0

/-- The emission loop of Go `binary.PutUvarint` (little-endian 7-bit
groups, high bit marking continuation); fuel dominates the halvings. -/
def putUvarintF : ℕ → ℕ → List ℕ
  | 0, n => [n % 128]
  | fuel + 1, n => if n < 128 then [n] else (n % 128 + 128) :: putUvarintF fuel (n / 128)

def putUvarint (n : ℕ) : List ℕ := putUvarintF n n

/-- Go `encodeUint32(buf, n)`. -/
def encodeUint32 (buf : List ℕ) (n : ℕ) : List ℕ := buf ++ putUvarint n

/-- Go `binary.Uvarint`: returns the value and the number of bytes read;
`0` bytes when the buffer is exhausted mid-varint, a negative count on
64-bit overflow. -/
def uvarintLoop : List ℕ → ℕ → ℕ → ℕ → ℕ × ℤ
  | [], _, _, _ => (0, 0)
  | b :: rest, x, s, i =>
    if i = 10 then (0, -(i + 1 : ℤ))
    else if b < 128 then
      if i = 9 ∧ 1 < b then (0, -(i + 1 : ℤ))
      else (x + b * 2 ^ s, (i + 1 : ℤ))
    else uvarintLoop rest (x + b % 128 * 2 ^ s) (s + 7) (i + 1)

def uvarint (buf : List ℕ) : ℕ × ℤ := uvarintLoop buf 0 0 0

/-- Outcome of Go `decodeUint32`: the oversized-value error, the Go panic
of `buf[n:]` when `Uvarint` reports overflow with a negative count, or the
value with the remaining buffer. -/
inductive DecU where
  | panic : String → DecU
  | err : String → DecU
  | ok : ℕ → List ℕ → DecU

/-- Go `decodeUint32(buf)`. -/
def decodeUint32 (buf : List ℕ) : DecU :=
  let (v, n) := uvarint buf
  if 4294967295 < v then .err "value too large"
  else if n < 0 then .panic "slice bounds out of range"
  else .ok v (buf.drop n.toNat)

/-- Go `TDigest.Marshal(buf)`.  `enc64`/`enc32` stand for
`math.Float64bits`/`float32` delta encoding.  The per-centroid iteration
is `t.summary.ForEach`, which is not among the source files; modelled from
the spec: `for_each_centroid` visits centroids in ascending-mean order,
i.e. store order. -/
def marshal (enc64 : ℚ → List ℕ) (enc32 : F → List ℕ) (t : TDigest) (buf : List ℕ) :
    List ℕ :=
  let s := t.summary
  let buf := buf ++ putU32 2
  let buf := buf ++ enc64 t.compression
  let buf := buf ++ putU32 (sLen s)
  let buf := ((List.range (sLen s)).foldl
    (fun (p : List ℕ × F) i =>
      (p.1 ++ enc32 (fsub (s.keys.getD i fnan) p.2), s.keys.getD i fnan))
    (buf, some 0)).1
  (List.range (sLen s)).foldl (fun b i => encodeUint32 b (s.counts.getD i 0)) buf

/-- The means-decoding loop of Go `FromBytes`: `n` big-endian 4-byte
groups, each the float32 delta from the running mean. -/
def meansLoop (dec32 : List ℕ → F) : ℕ → List ℕ → F → Res (List F × List ℕ)
  | 0, buf, _ => .ok ([], buf)
  | n + 1, buf, x =>
    if buf.length < 4 then .panic "index out of range"
    else
      let x' := fadd x (dec32 (buf.take 4))
      match meansLoop dec32 n (buf.drop 4) x' with
      | .panic m => .panic m
      | .ok (ms, rest) => .ok (x' :: ms, rest)

/-- The weights-decoding loop of Go `FromBytes`: varint weights replayed
through `t.AddWeighted` (not among the source files; modelled from the
spec: decoding "replays each `(mean, weight)` pair through the normal
insertion path", i.e. `TDigest.Add` of src/tdigest.go). -/
def weightsLoop (fuel : ℕ) : TDigest → List F → List ℕ → Rng → AddR
  | t, [], _, rng => .ok t rng
  | t, m :: ms, buf, rng =>
    match decodeUint32 buf with
    | .panic msg => .panic msg
    | .err msg => .error msg
    | .ok w rest =>
      match tAdd fuel t m w rng with
      | .panic msg => .panic msg
      | .error msg => .error msg
      | .ok t' rng' => weightsLoop fuel t' ms rest rng'

/-- Go `FromBytes(buf)`.  Reads that overrun the buffer are the Go panics
the source's comment documents ("It will panic if the byte slice is not
large enough to decode"). -/
def fromBytes (dec64 : List ℕ → ℚ) (dec32 : List ℕ → F) (fuel : ℕ) (buf : List ℕ)
    (rng : Rng) : AddR :=
  if buf.length < 4 then .panic "index out of range"
  else
    let encoding := readU32 buf
    let buf := buf.drop 4
    if encoding ≠ 2 then .error "Unsupported encoding version"
    else if buf.length < 8 then .panic "index out of range"
    else
      let compression := dec64 (buf.take 8)
      let buf := buf.drop 8
      let t := newT compression
      if buf.length < 4 then .panic "index out of range"
      else
        let n := readU32 buf
        let buf := buf.drop 4
        if 2147483648 ≤ n ∨ 4194304 < n then
          .error "bad number of centroids in serialization"
        else
          match meansLoop dec32 n buf (some 0) with
          | .panic m => .panic m
          | .ok (means, rest) => weightsLoop fuel t means rest rng

/-! ### Projections and concrete runs used by the claim theorems -/

def arIsOk : AddR → Bool
  | .ok _ _ => true
  | _ => false

def arIsErr : AddR → Bool
  | .error _ => true
  | _ => false

def arPanicMsg : AddR → Option String
  | .panic m => some m
  | _ => none

def arErrMsg : AddR → Option String
  | .error m => some m
  | _ => none

def arDigest (fallback : TDigest) : AddR → TDigest
  | .ok t _ => t
  | _ => fallback

def arRng (fallback : Rng) : AddR → Rng
  | .ok _ r => r
  | _ => fallback

/-- The all-zero random oracle used for the concrete runs. -/
def rng0 : Rng := ⟨fun _ => 0, 0⟩

/-- C1 run: the summary `{1,2,3}` with weights `{10,20,30}` built by three
`summary.Add` calls, then `updateAt(0, mean 10, weight 100)`, which bubbles
the first centroid past both neighbours. -/
def c1chain : Except String Summary :=
  summaryAdd (newSummary 4) (some 1) 10 >>= fun s =>
  summaryAdd s (some 2) 20 >>= fun s =>
  summaryAdd s (some 3) 30 >>= fun s =>
  Except.ok (updateAt s 0 (some 10) 100)

def c1after : Summary :=
  match c1chain with
  | .ok s => s
  | .error _ => newSummary 4

/-- C2/C5 run: `New(1)`, `Add(1,1)`, `Add(2,1)` (both rejected by the
scale-function threshold into separate centroids), then `Compress()`. -/
def c2d1 : TDigest := arDigest (newT 1) (tAdd 100 (newT 1) (some 1) 1 rng0)

def c2rng1 : Rng := arRng rng0 (tAdd 100 (newT 1) (some 1) 1 rng0)

def c2d2 : TDigest := arDigest c2d1 (tAdd 100 c2d1 (some 2) 1 c2rng1)

def c2rng2 : Rng := arRng c2rng1 (tAdd 100 c2d1 (some 2) 1 c2rng1)

def c2d3 : TDigest := arDigest c2d2 (tCompress 100 c2d2 c2rng2)

/-- Concrete stand-ins for the abstract IEEE codecs, used in closed
counterexamples (the claims they settle do not depend on the bit
patterns). -/
def enc64c : ℚ → List ℕ := fun _ => [0, 0, 0, 0, 0, 0, 0, 0]

def dec64c : List ℕ → ℚ := fun _ => 1

def enc32c : F → List ℕ := fun _ => [0, 0, 0, 0]

def dec32c : List ℕ → F := fun _ => some 0

/-- C3 run: a buffer long enough for every slice read — version 2, an
8-byte compression field, centroid count 1, one 4-byte mean — whose
weights section is an over-long varint: eleven continuation bytes, on
which `binary.Uvarint` reports overflow with a negative byte count. -/
def bufOverlong : List ℕ :=
  putU32 2 ++ List.replicate 8 0 ++ putU32 1 ++ List.replicate 4 0 ++
    List.replicate 11 128

/-- C3 run: the same well-formed prefix, with the weights section
truncated in the middle of a varint (a lone continuation byte), on which
`binary.Uvarint` returns value 0 with 0 bytes read. -/
def bufTruncWeights : List ℕ :=
  putU32 2 ++ List.replicate 8 0 ++ putU32 1 ++ List.replicate 4 0 ++ [128]

/-- C6 run: `New(2)`, `Add(99,100)`, `Add(0,1)`, `Add(100,1)`; the
scale-function threshold rejects both later candidates, so the store ends
as `{0:1, 99:100, 100:1}`; all inserted values lie in `[0, 100]`. -/
def c6d1 : TDigest := arDigest (newT 2) (tAdd 10 (newT 2) (some 99) 100 rng0)

def c6rng1 : Rng := arRng rng0 (tAdd 10 (newT 2) (some 99) 100 rng0)

def c6d2 : TDigest := arDigest c6d1 (tAdd 10 c6d1 (some 0) 1 c6rng1)

def c6rng2 : Rng := arRng c6rng1 (tAdd 10 c6d1 (some 0) 1 c6rng1)

def c6d3 : TDigest := arDigest c6d2 (tAdd 10 c6d2 (some 100) 1 c6rng2)

/-- The literal value of `c6d3` (checked by the C6 theorem). -/
def c6lit : TDigest :=
  ⟨⟨[some 0, some 99, some 100], [1, 100, 1],
    ⟨[1, 101, 1, 102, 0, 0, 0, 102, 0, 0, 0, 0, 0, 0, 0, 102, 0, 0, 0, 0]⟩⟩, 2, 102⟩

/-- A single-centroid digest state (store `{mean 2/5, weight 1}`). -/
def c8single : TDigest := ⟨⟨[some (2/5)], [1], ⟨[]⟩⟩, 1, 1⟩

/-! ## Theorems -/

/-- The direct rational embedding of a natural agrees with the cast. -/
theorem nq_eq (n : ℕ) : nq n = (n : ℚ) :=
  Rat.ext (by simp [nq, Rat.ofInt]) (by simp [nq, Rat.ofInt])

/-- The core rational operations agree with the ordered-field operations
(the model calls them directly for kernel reducibility). -/
theorem ratAdd_eq (a b : ℚ) : Rat.add a b = a + b := rfl

theorem ratSub_eq (a b : ℚ) : Rat.sub a b = a - b := rfl

theorem ratMul_eq (a b : ℚ) : Rat.mul a b = a * b := rfl

theorem ratDiv_eq (a b : ℚ) : Rat.div a b = a / b := rfl

theorem ratNeg_eq (a : ℚ) : Rat.neg a = -a := rfl

theorem fadd_some (a b : ℚ) : fadd (some a) (some b) = some (a + b) := rfl

theorem fsub_some (a b : ℚ) : fsub (some a) (some b) = some (a - b) := rfl

theorem fmul_some (a b : ℚ) : fmul (some a) (some b) = some (a * b) := rfl

theorem fdiv_some (a b : ℚ) : fdiv (some a) (some b) = some (a / b) := rfl

theorem flt_some (a b : ℚ) : flt (some a) (some b) = decide (a < b) := rfl

theorem feq_some (a b : ℚ) : feq (some a) (some b) = decide (a = b) := rfl

/-- C1.  The claim is right and the code is wrong: after `updateAt(0, 10, 100)`
on the reachable summary `{1:10, 2:20, 3:30}`, the updated centroid
(mean 101/11, weight 110) bubbles past both neighbours, but
`adjustRight` re-`Set`s the order-statistics index only at positions
`index+1 .. index+amount`, never at the vacated position `index`; the
Fenwick prefix sum at 1 stays 110 while `counts[0]` is 20. -/
theorem c1_updateAt_desyncs_fen :
    c1chain.toOption = some c1after ∧
    c1after.keys = [some 2, some 3, some (101/11)] ∧
    c1after.counts = [20, 30, 110] ∧
    (fenSum c1after.fen 1).2 = 110 ∧
    ¬ (fenSum c1after.fen 1).2 = c1after.counts.getD 0 0 :=
  of_decide_eq_true (by with_unfolding_all rfl)

/-- C2.  The claim is right and the code is wrong: `Compress` replays every
centroid through `Add`, which increments `t.count`, but never resets
`t.count` first, so the total weight doubles (here 2 → 4 with the centroid
weights still summing to 2), contradicting the repository's own
`TestCompressDoesntChangeCount`. -/
theorem c2_compress_doubles_count :
    arIsOk (tAdd 100 (newT 1) (some 1) 1 rng0) = true ∧
    arIsOk (tAdd 100 c2d1 (some 2) 1 c2rng1) = true ∧
    c2d2.count = 2 ∧ c2d2.summary.counts = [1, 1] ∧
    arIsOk (tCompress 100 c2d2 c2rng2) = true ∧
    c2d3.count = 4 ∧ c2d3.summary.counts = [1, 1] :=
  of_decide_eq_true (by with_unfolding_all rfl)

/-- C3 counterexample.  Decoding the empty (truncated) buffer is a Go
panic (slice bounds), not a recoverable decode error, as the source's own
comment documents. -/
theorem c3_truncated_buffer_panics :
    arPanicMsg (fromBytes dec64c dec32c 100 [] rng0) = some "index out of range" :=
  of_decide_eq_true (by with_unfolding_all rfl)


/-- The means loop of `FromBytes` panics when the remaining buffer is
shorter than the `4 * n` bytes it reads. -/
theorem meansLoop_panics (dec32 : List ℕ → F) :
    ∀ (n : ℕ) (buf : List ℕ) (x : F), buf.length < 4 * n →
      meansLoop dec32 n buf x = .panic "index out of range" := by
  intro n
  induction n with
  | zero => intro buf x h; omega
  | succ k ih =>
    intro buf x h
    rw [meansLoop]
    by_cases h4 : buf.length < 4
    · rw [if_pos h4]
    · rw [if_neg h4]
      have hrec := ih (buf.drop 4) (fadd x (dec32 (buf.take 4)))
        (by simp [List.length_drop]; omega)
      simp only [hrec]

/-- C3 amended.  The failure modes of `FromBytes` on malformed input:
a buffer truncated in the fixed-size header (before 16 bytes) or in the
means section (before `16 + 4n` bytes, for an accepted version and
centroid count) makes `FromBytes` panic — the Go slice out-of-range abort
the source documents — rather than report a recoverable decode error, for
any IEEE codecs and any oracle; a buffer long enough for every read can
still crash: an over-long varint in the weights section drives
`decodeUint32` into the `buf[n:]` panic with a negative `n`; and a buffer
truncated in the middle of a weights varint is reported as a recoverable
error, because `binary.Uvarint` returns value 0 and the zero weight is
rejected by the replay as an illegal datapoint. -/
theorem c3_decode_failure_modes (dec64 : List ℕ → ℚ) (dec32 : List ℕ → F)
    (fuel : ℕ) (buf : List ℕ) (rng : Rng)
    (h : buf.length < 4 ∨
      (readU32 buf = 2 ∧ buf.length < 16) ∨
      (readU32 buf = 2 ∧ 16 ≤ buf.length ∧ readU32 (buf.drop 12) < 2147483648 ∧
        readU32 (buf.drop 12) ≤ 4194304 ∧ buf.length < 16 + 4 * readU32 (buf.drop 12))) :
    fromBytes dec64 dec32 fuel buf rng = .panic "index out of range" ∧
    arPanicMsg (fromBytes dec64c dec32c 1 bufOverlong rng0) =
      some "slice bounds out of range" ∧
    arErrMsg (fromBytes dec64c dec32c 1 bufTruncWeights rng0) =
      some "Illegal datapoint" := by
  refine ⟨?_, of_decide_eq_true (by with_unfolding_all rfl),
    of_decide_eq_true (by with_unfolding_all rfl)⟩
  rcases h with h1 | ⟨henc, hlen⟩ | ⟨henc, hlen, hn1, hn2, hmeans⟩
  · unfold fromBytes
    rw [if_pos h1]
  · unfold fromBytes
    by_cases h4 : buf.length < 4
    · rw [if_pos h4]
    · rw [if_neg h4]
      simp only [henc, ne_eq, not_true_eq_false, if_false]
      by_cases h12 : (buf.drop 4).length < 8
      · rw [if_pos h12]
      · rw [if_neg h12, if_pos (by simp only [List.length_drop] at h12 ⊢; omega)]
  · unfold fromBytes
    rw [if_neg (by omega)]
    simp only [henc, ne_eq, not_true_eq_false, if_false]
    rw [if_neg (by simp only [List.length_drop]; omega)]
    rw [if_neg (by simp only [List.length_drop]; omega)]
    have hd : (((buf.drop 4).drop 8)).drop 4 = buf.drop 16 := by
      simp [List.drop_drop]
    have hr : readU32 ((buf.drop 4).drop 8) = readU32 (buf.drop 12) := by
      rw [List.drop_drop]
    rw [if_neg (by rw [hr]; omega)]
    rw [hr, hd, meansLoop_panics dec32 _ _ _ (by simp [List.length_drop]; omega)]

/-- C3 amended witness: the truncation clause at the empty buffer, with
the two concrete weights-section failure modes alongside. -/
theorem c3_decode_failure_modes_witness :
    fromBytes dec64c dec32c 1 [] rng0 = .panic "index out of range" ∧
    arPanicMsg (fromBytes dec64c dec32c 1 bufOverlong rng0) =
      some "slice bounds out of range" ∧
    arErrMsg (fromBytes dec64c dec32c 1 bufTruncWeights rng0) =
      some "Illegal datapoint" :=
  c3_decode_failure_modes dec64c dec32c 1 [] rng0 (Or.inl (by simp))

/-- C4.  The claim is right and the code is wrong for the NaN half:
`Add(NaN, 1)` returns no error — `addCentroid` drops the store's
"Key must not be NaN" error — while the total weight is still incremented
with no centroid stored, corrupting the state; the zero-weight half does
error as claimed. -/
theorem c4_nan_add_silently_accepted :
    arIsErr (tAdd 100 (newT 1) (some 1) 0 rng0) = true ∧
    arIsOk (tAdd 100 (newT 1) fnan 1 rng0) = true ∧
    (arDigest (newT 1) (tAdd 100 (newT 1) fnan 1 rng0)).count = 1 ∧
    (arDigest (newT 1) (tAdd 100 (newT 1) fnan 1 rng0)).summary.keys = [] :=
  of_decide_eq_true (by with_unfolding_all rfl)

/-- C5 counterexample.  For the reachable digest `c2d3` (total weight 4
after the count-doubling `Compress`), serialize-then-deserialize succeeds
but returns total weight 2 (the true mass of the stored centroids), not 4;
the compression parameter does round-trip. -/
theorem c5_roundtrip_count_mismatch :
    c2d3.count = 4 ∧
    arIsOk (fromBytes dec64c dec32c 100 (marshal enc64c enc32c c2d3 []) rng0) = true ∧
    (arDigest (newT 1) (fromBytes dec64c dec32c 100
      (marshal enc64c enc32c c2d3 []) rng0)).count = 2 ∧
    (arDigest (newT 1) (fromBytes dec64c dec32c 100
      (marshal enc64c enc32c c2d3 []) rng0)).compression = c2d3.compression :=
  of_decide_eq_true (by with_unfolding_all rfl)

/-- `getD` of the `some`-lifted key list, in range. -/
theorem keys_getD (ks : List ℚ) (k : ℕ) (h : k < ks.length) :
    (ks.map some).getD k fnan = some (ks.getD k 0) := by
  rw [List.getD_eq_getElem _ _ (by simpa using h), List.getD_eq_getElem _ _ h]
  simp

theorem sorted_getD_lt (ks : List ℚ) (hs : ks.Chain' (· < ·)) {a b : ℕ}
    (hab : a < b) (hb : b < ks.length) : ks.getD a 0 < ks.getD b 0 := by
  have hp : ks.Pairwise (· < ·) := List.chain'_iff_pairwise.mp hs
  have ha : a < ks.length := lt_trans hab hb
  have := (List.pairwise_iff_getElem.mp hp) a b ha hb hab
  rwa [List.getD_eq_getElem ks 0 ha, List.getD_eq_getElem ks 0 hb]

theorem sorted_getD_le (ks : List ℚ) (hs : ks.Chain' (· < ·)) {a b : ℕ}
    (hab : a ≤ b) (hb : b < ks.length) : ks.getD a 0 ≤ ks.getD b 0 := by
  rcases lt_or_eq_of_le hab with h | h
  · exact le_of_lt (sorted_getD_lt ks hs h hb)
  · rw [h]

theorem findIndexLoop_step (fuel : ℕ) (keys : List F) (x : F) (i j : ℕ) (h : i < j) :
    findIndexLoop (fuel + 1) keys x i j =
    if flt (keys.getD ((i + j) / 2) fnan) x then findIndexLoop fuel keys x ((i + j) / 2 + 1) j
    else findIndexLoop fuel keys x i ((i + j) / 2) := by
  rw [findIndexLoop, if_pos h]

theorem findIndexLoop_spec (ks : List ℚ) (hs : ks.Chain' (· < ·)) (qx : ℚ) :
    ∀ (fuel i j : ℕ), i ≤ j → j ≤ ks.length → j - i ≤ fuel →
    (∀ k, k < i → ks.getD k 0 < qx) →
    (∀ k, j ≤ k → k < ks.length → ¬ ks.getD k 0 < qx) →
    i ≤ findIndexLoop fuel (ks.map some) (some qx) i j ∧
    findIndexLoop fuel (ks.map some) (some qx) i j ≤ j ∧
    (∀ k, k < findIndexLoop fuel (ks.map some) (some qx) i j → ks.getD k 0 < qx) ∧
    (∀ k, findIndexLoop fuel (ks.map some) (some qx) i j ≤ k → k < ks.length →
      ¬ ks.getD k 0 < qx) := by
  intro fuel
  induction fuel with
  | zero =>
    intro i j hij hjl hfuel hlo hhi
    have hij' : i = j := by omega
    subst hij'
    simp only [findIndexLoop]
    exact ⟨le_refl _, le_refl _, hlo, hhi⟩
  | succ fuel ih =>
    intro i j hij hjl hfuel hlo hhi
    by_cases hij2 : i < j
    · rw [findIndexLoop_step fuel (ks.map some) (some qx) i j hij2]
      have hh : (i + j) / 2 < ks.length := by omega
      rw [keys_getD ks _ hh]
      by_cases hcmp : ks.getD ((i + j) / 2) 0 < qx
      · rw [if_pos (by simpa [flt] using hcmp)]
        refine ih ((i + j) / 2 + 1) j (by omega) hjl (by omega) ?_ hhi |>.imp
          (fun h => by omega) (fun h => h)
        intro k hk
        rcases Nat.lt_or_ge k i with h | h
        · exact hlo k h
        · exact lt_of_le_of_lt (sorted_getD_le ks hs (by omega) hh) hcmp
      · rw [if_neg (by simpa [flt] using hcmp)]
        refine ih i ((i + j) / 2) (by omega) (by omega) (by omega) hlo ?_ |>.imp
          (fun h => h) (fun h => ⟨by omega, h.2⟩)
        intro k hk hkl hlt
        exact hcmp (lt_of_le_of_lt (sorted_getD_le ks hs hk hkl) hlt)
    · have hij' : i = j := by omega
      subst hij'
      simp only [findIndexLoop, if_neg (lt_irrefl i)]
      exact ⟨le_refl _, le_refl _, hlo, hhi⟩

/-- `FindIndex` of a key present in a strictly ascending store is its
position. -/
theorem sFindIndex_present (ks : List ℚ) (hs : ks.Chain' (· < ·)) (i : ℕ)
    (hi : i < ks.length) :
    sFindIndex (ks.map some) (some (ks.getD i 0)) = i := by
  obtain ⟨h0, hlen, hbelow, habove⟩ := findIndexLoop_spec ks hs (ks.getD i 0)
    (ks.length + 1) 0 ks.length (Nat.zero_le _) (le_refl _) (by omega)
    (fun k hk => absurd hk (Nat.not_lt_zero k))
    (fun k h1 h2 => absurd h2 (by omega))
  have hfi : sFindIndex (ks.map some) (some (ks.getD i 0)) =
      findIndexLoop (ks.length + 1) (ks.map some) (some (ks.getD i 0)) 0 ks.length := by
    simp [sFindIndex]
  rw [hfi]
  rcases Nat.lt_trichotomy
    (findIndexLoop (ks.length + 1) (ks.map some) (some (ks.getD i 0)) 0 ks.length) i
    with h | h | h
  · exact absurd (sorted_getD_lt ks hs h hi)
      (habove _ (le_refl _) (by omega))
  · exact h
  · exact absurd (hbelow i h) (lt_irrefl _)

/-- `At` on a store with finite sorted keys, at an in-range position. -/
theorem sAt_in_range (s : Summary) (ks : List ℚ) (hk : s.keys = ks.map some)
    (n : ℕ) (hn : n < ks.length) :
    sAt s (n : ℤ) = ⟨some (ks.getD n 0), s.counts.getD n 0, (n : ℤ)⟩ := by
  have hcond : ¬ ((s.keys.length : ℤ) - 1 < (n : ℤ) ∨ (n : ℤ) < 0) := by
    rw [hk]
    simp only [List.length_map]
    omega
  unfold sAt
  rw [if_neg hcond, hk]
  simp only [Int.toNat_ofNat]
  rw [keys_getD ks n hn]

/-- The neighbours returned by `successorAndPredecessorItems` for the key
at position `i` of a strictly ascending store. -/
theorem succAndPred_at (s : Summary) (ks : List ℚ) (hk : s.keys = ks.map some)
    (hs : ks.Chain' (· < ·)) (i : ℕ) (h1 : 1 ≤ i) (h2 : i + 1 < ks.length) :
    succAndPred s (some (ks.getD i 0)) =
      (⟨some (ks.getD (i + 1) 0), s.counts.getD (i + 1) 0, ((i + 1 : ℕ) : ℤ)⟩,
       ⟨some (ks.getD (i - 1) 0), s.counts.getD (i - 1) 0, ((i - 1 : ℕ) : ℤ)⟩) := by
  unfold succAndPred
  rw [hk, sFindIndex_present ks hs i (by omega)]
  show (sAt s ((i : ℤ) + 1), sAt s ((i : ℤ) - 1)) = _
  have e1 : ((i : ℤ) + 1) = ((i + 1 : ℕ) : ℤ) := by push_cast; ring
  have e2 : ((i : ℤ) - 1) = ((i - 1 : ℕ) : ℤ) := by omega
  rw [e1, e2, sAt_in_range s ks hk (i + 1) h2, sAt_in_range s ks hk (i - 1) (by omega)]

/-- Bounds for the scan loop of `Quantile` on a strictly ascending store
with positive weights: any early-exit value lies within the centroid-mean
range widened by a quarter of the spread on each side. -/
theorem quantLoop_bounds (s : Summary) (ks : List ℚ) (hk : s.keys = ks.map some)
    (hs : ks.Chain' (· < ·)) (hlen : s.counts.length = ks.length)
    (hpos : ∀ c ∈ s.counts, 0 < c) (qc : ℚ) :
    ∀ (n i : ℕ) (total : ℚ), i + n = ks.length → total ≤ qc →
    ∀ r, quantLoop ((s.keys.zip s.counts).drop i) s ks.length i total qc = some r →
    ∃ v : ℚ, r = some v ∧
      ks.getD 0 0 - (ks.getD (ks.length - 1) 0 - ks.getD 0 0) / 4 ≤ v ∧
      v ≤ ks.getD (ks.length - 1) 0 + (ks.getD (ks.length - 1) 0 - ks.getD 0 0) / 4 := by
  have hD : 0 ≤ ks.getD (ks.length - 1) 0 - ks.getD 0 0 → True := fun _ => trivial
  intro n
  induction n with
  | zero =>
    intro i total hin htq r hr
    rw [List.drop_eq_nil_of_le (by simp [hk, hlen]; omega)] at hr
    simp [quantLoop] at hr
  | succ m ih =>
    intro i total hin htq r hr
    have hi : i < ks.length := by omega
    have hιz : i < (s.keys.zip s.counts).length := by
      simp [hk, hlen]
      omega
    have hlo : 0 ≤ ks.getD (ks.length - 1) 0 - ks.getD 0 0 := by
      have := sorted_getD_le ks hs (Nat.zero_le (ks.length - 1)) (by omega)
      linarith
    have hmem : ks.getD 0 0 ≤ ks.getD i 0 ∧ ks.getD i 0 ≤ ks.getD (ks.length - 1) 0 :=
      ⟨sorted_getD_le ks hs (Nat.zero_le i) hi,
       sorted_getD_le ks hs (by omega) (by omega)⟩
    rw [List.drop_eq_getElem_cons hιz] at hr
    have hzi : (s.keys.zip s.counts)[i] = (some (ks.getD i 0), s.counts.getD i 0) := by
      have h2 : i < s.counts.length := by omega
      rw [List.getElem_zip]
      simp only [Prod.mk.injEq]
      refine ⟨?_, (List.getD_eq_getElem s.counts 0 h2).symm⟩
      have h1 : i < s.keys.length := by
        rw [hk, List.length_map]
        omega
      rw [List.getElem_of_eq hk, List.getElem_map, List.getD_eq_getElem ks 0 hi]
    rw [hzi] at hr
    rw [quantLoop] at hr
    rw [ratAdd_eq, nq_eq] at hr
    set c : ℕ := s.counts.getD i 0 with hc
    have hcpos : 0 < (c : ℚ) := by
      have hmemc : c ∈ s.counts := by
        rw [hc, List.getD_eq_getElem s.counts 0 (by omega)]
        exact List.getElem_mem _
      exact_mod_cast hpos c hmemc
    by_cases hfound : qc < total + (c : ℚ)
    · rw [if_pos hfound] at hr
      by_cases hedge : i = 0 ∨ i + 1 = ks.length
      · rw [if_pos hedge] at hr
        refine ⟨ks.getD i 0, by exact (Option.some.injEq _ _ ▸ hr.symm), ?_, ?_⟩ <;>
          linarith [hmem.1, hmem.2]
      · rw [if_neg hedge] at hr
        push_neg at hedge
        have h1 : 1 ≤ i := by omega
        have h2 : i + 1 < ks.length := by omega
        rw [succAndPred_at s ks hk hs i h1 h2] at hr
        simp only [fsub_some, fdiv_some, fmul_some, fadd_some, ratSub_eq, ratDiv_eq] at hr
        set x : ℚ := (qc - total) / (c : ℚ) with hx
        have hx0 : 0 ≤ x := div_nonneg (by linarith) (le_of_lt hcpos)
        have hx1 : x < 1 := (div_lt_one hcpos).mpr (by linarith)
        set D : ℚ := (ks.getD (i + 1) 0 - ks.getD (i - 1) 0) / 2 with hDdef
        have hD0 : 0 ≤ D := by
          have := sorted_getD_le ks hs (show i - 1 ≤ i + 1 by omega) h2
          rw [hDdef]
          linarith
        have hDle : D ≤ (ks.getD (ks.length - 1) 0 - ks.getD 0 0) / 2 := by
          have hup : ks.getD (i + 1) 0 ≤ ks.getD (ks.length - 1) 0 :=
            sorted_getD_le ks hs (by omega) (by omega)
          have hdn : ks.getD 0 0 ≤ ks.getD (i - 1) 0 :=
            sorted_getD_le ks hs (Nat.zero_le _) (by omega)
          rw [hDdef]
          linarith
        have hprod : -(D / 2) ≤ (x - 1/2) * D ∧ (x - 1/2) * D ≤ D / 2 := by
          constructor <;> nlinarith
        refine ⟨ks.getD i 0 + (x - 1/2) * D, ?_, ?_, ?_⟩
        · exact (Option.some.injEq _ _ ▸ hr.symm)
        · have := hprod.1
          have := hmem.1
          linarith
        · have := hprod.2
          have := hmem.2
          linarith
    · rw [if_neg hfound] at hr
      exact ih (i + 1) (total + (c : ℚ)) (by omega) (by linarith) r hr

theorem c6_quantile_weak_bounds (t : TDigest) (q : ℚ) (ks : List ℚ)
    (hk : t.summary.keys = ks.map some)
    (hs : ks.Chain' (· < ·))
    (hne : 0 < ks.length)
    (hlen : t.summary.counts.length = ks.length)
    (hpos : ∀ c ∈ t.summary.counts, 0 < c)
    (hq0 : 0 ≤ q) (hq1 : q ≤ 1) :
    ∃ v : ℚ, tQuantile t q = .val (some v) ∧
      ks.getD 0 0 - (ks.getD (ks.length - 1) 0 - ks.getD 0 0) / 4 ≤ v ∧
      v ≤ ks.getD (ks.length - 1) 0 + (ks.getD (ks.length - 1) 0 - ks.getD 0 0) / 4 := by
  have hcond : ¬ (q < 0 ∨ 1 < q) := by
    push_neg
    exact ⟨hq0, hq1⟩
  have hslen : sLen t.summary = ks.length := by
    simp [sLen, hk]
  have hDpos : 0 ≤ ks.getD (ks.length - 1) 0 - ks.getD 0 0 := by
    have := sorted_getD_le ks hs (Nat.zero_le (ks.length - 1)) (by omega)
    linarith
  have hz : ¬ sLen t.summary = 0 := by omega
  by_cases h1 : sLen t.summary = 1
  · have hl1 : ks.length = 1 := by omega
    have hmin : sMin t.summary = ⟨some (ks.getD 0 0), t.summary.counts.getD 0 0, 0⟩ := by
      unfold sMin
      have h0 : ((0 : ℕ) : ℤ) = (0 : ℤ) := rfl
      rw [← h0, sAt_in_range t.summary ks hk 0 (by omega)]
    have hT : tQuantile t q = .val (sMin t.summary).mean := by
      unfold tQuantile
      rw [if_neg hcond, if_neg hz, if_pos h1]
    refine ⟨ks.getD 0 0, ?_, ?_, ?_⟩
    · rw [hT, hmin]
    · rw [hl1]
      simp
    · rw [hl1]
      simp
  · have hT : tQuantile t q =
        (match quantLoop (t.summary.keys.zip t.summary.counts) t.summary
          (sLen t.summary) 0 0 (Rat.mul q (nq t.count)) with
        | some r => QRes.val r
        | none => QRes.val (sMax t.summary).mean) := by
      unfold tQuantile
      rw [if_neg hcond, if_neg hz, if_neg h1]
    have hmax : sMax t.summary =
        ⟨some (ks.getD (ks.length - 1) 0), t.summary.counts.getD (ks.length - 1) 0,
          ((ks.length - 1 : ℕ) : ℤ)⟩ := by
      unfold sMax
      have e : ((t.summary.keys.length : ℤ) - 1) = ((ks.length - 1 : ℕ) : ℤ) := by
        rw [hk, List.length_map]
        omega
      rw [e, sAt_in_range t.summary ks hk (ks.length - 1) (by omega)]
    have hqc0 : (0 : ℚ) ≤ Rat.mul q (nq t.count) := by
      rw [ratMul_eq, nq_eq]
      positivity
    rw [hT]
    cases hres : quantLoop (t.summary.keys.zip t.summary.counts) t.summary
        (sLen t.summary) 0 0 (Rat.mul q (nq t.count)) with
    | none =>
      refine ⟨ks.getD (ks.length - 1) 0, ?_, by linarith, by linarith⟩
      rw [hmax]
    | some r =>
      rw [hslen] at hres
      obtain ⟨v, hv, hb1, hb2⟩ := quantLoop_bounds t.summary ks hk hs hlen hpos
        (Rat.mul q (nq t.count)) ks.length 0 0 (by omega) hqc0 r
        (by rw [List.drop_zero]; exact hres)
      exact ⟨v, by rw [hv], hb1, hb2⟩


/-- C6 amended witness: the `c6lit` digest (means 0, 99, 100) at
`q = 0.99` answers within `[-25, 125]`. -/
theorem c6_quantile_weak_bounds_witness :
    ∃ v : ℚ, tQuantile c6lit (99/100) = .val (some v) ∧
      (0 : ℚ) - (100 - 0) / 4 ≤ v ∧ v ≤ 100 + (100 - 0) / 4 := by
  have h := c6_quantile_weak_bounds c6lit (99/100) [0, 99, 100] rfl
    (by norm_num [List.chain'_cons, List.chain'_singleton]) (by norm_num) rfl
    (by decide) (by norm_num) (by norm_num)
  simpa using h

/-- C6 counterexample.  The digest built by the successful insertions
`Add(99,100)`, `Add(0,1)`, `Add(100,1)` (all values in `[0,100]`) answers
`Quantile(0.99) = 123.99`, outside the closed interval of inserted
values. -/
theorem c6_quantile_overshoots_range :
    arIsOk (tAdd 10 (newT 2) (some 99) 100 rng0) = true ∧
    arIsOk (tAdd 10 c6d1 (some 0) 1 c6rng1) = true ∧
    arIsOk (tAdd 10 c6d2 (some 100) 1 c6rng2) = true ∧
    c6d3 = c6lit ∧
    tQuantile c6lit (99/100) = .val (some (12399/100)) ∧
    ¬ (12399 / 100 : ℚ) ≤ 100 := by
  refine ⟨of_decide_eq_true (by with_unfolding_all rfl),
    of_decide_eq_true (by with_unfolding_all rfl),
    of_decide_eq_true (by with_unfolding_all rfl),
    of_decide_eq_true (by with_unfolding_all rfl), ?_, by norm_num⟩
  rw [tQuantile]
  rw [if_neg (by norm_num)]
  norm_num [c6lit, sLen, quantLoop, succAndPred, sFindIndex, findIndexLoop, sAt, sMin, sMax,
    flt, fadd, fsub, fmul, fdiv, fnan, nq_eq, ratMul_eq, ratAdd_eq, ratSub_eq, ratDiv_eq,
    List.zip, List.zipWith, List.getD, decide_eq_true_eq, List.getElem?_cons_succ,
    List.getElem?_cons_zero, Option.getD_some, Int.toNat]

/-- C7.  `Quantile(q)` with `q < 0` or `q > 1` panics — the fatal
caller-contract rejection the claim describes — instead of returning a
numeric estimate, on every digest state. -/
theorem c7_quantile_rejects_out_of_range (t : TDigest) (q : ℚ)
    (h : q < 0 ∨ 1 < q) :
    tQuantile t q = .panic "q must be between 0 and 1 (inclusive)" := by
  unfold tQuantile
  exact if_pos h

/-- C7 witness at `q = 2` on a fresh digest. -/
theorem c7_quantile_rejects_out_of_range_witness :
    tQuantile (newT 1) 2 = .panic "q must be between 0 and 1 (inclusive)" :=
  c7_quantile_rejects_out_of_range (newT 1) 2 (Or.inr (by norm_num))

/-- C8.  For `q ∈ [0,1]`: `Quantile` on an empty store returns NaN, and on
a store holding exactly one centroid returns that centroid's mean,
regardless of `q`. -/
theorem c8_quantile_empty_and_single (t : TDigest) (q : ℚ)
    (h0 : 0 ≤ q) (h1 : q ≤ 1) :
    (t.summary.keys = [] → tQuantile t q = .val fnan) ∧
    (∀ m : F, t.summary.keys = [m] → tQuantile t q = .val m) := by
  have hcond : ¬ (q < 0 ∨ 1 < q) := by
    push_neg
    exact ⟨h0, h1⟩
  constructor
  · intro hk
    unfold tQuantile
    rw [if_neg hcond]
    simp [sLen, hk]
  · intro m hk
    unfold tQuantile
    rw [if_neg hcond]
    simp [sLen, hk, sMin, sAt]

/-- C8 witness: the empty digest answers NaN and a one-centroid store
answers its mean `2/5`, both at `q = 1/2`. -/
theorem c8_quantile_empty_and_single_witness :
    tQuantile (newT 1) (1/2) = .val fnan ∧
    tQuantile c8single (1/2) = .val (some (2/5)) :=
  ⟨(c8_quantile_empty_and_single (newT 1) (1/2) (by norm_num) (by norm_num)).1 rfl,
   (c8_quantile_empty_and_single c8single (1/2) (by norm_num) (by norm_num)).2
     (some (2/5)) rfl⟩

/-- Moving `t[j]` to the front while writing `x` into slot `j` permutes
`x :: t`. -/
theorem getD_cons_set_perm (t : List Centroid) (j : ℕ) (x : Centroid)
    (hj : j < t.length) :
    ((t.getD j invalidCentroid) :: t.set j x).Perm (x :: t) := by
  induction t generalizing j with
  | nil => simp at hj
  | cons y t ih =>
    cases j with
    | zero => simpa using List.Perm.swap x y t
    | succ k =>
      have hk : k < t.length := by simpa using hj
      have h1 : ((y :: t).getD (k + 1) invalidCentroid) :: (y :: t).set (k + 1) x
          = t.getD k invalidCentroid :: y :: t.set k x := by simp
      rw [h1]
      exact (List.Perm.swap y _ _).trans (((ih k hk).cons y).trans (List.Perm.swap x y t))

/-- The two-`set` swap of the Go `shuffle` body is a permutation. -/
theorem set_set_perm (l : List Centroid) (a b : ℕ)
    (ha : a < l.length) (hb : b < l.length) :
    ((l.set a (l.getD b invalidCentroid)).set b (l.getD a invalidCentroid)).Perm l := by
  induction l generalizing a b with
  | nil => simp at ha
  | cons x t ih =>
    cases a with
    | zero =>
      cases b with
      | zero => simp
      | succ j =>
        have hj : j < t.length := by simpa using hb
        simpa using getD_cons_set_perm t j x hj
    | succ i =>
      have hi : i < t.length := by simpa using ha
      cases b with
      | zero =>
        simpa using getD_cons_set_perm t i x hi
      | succ j =>
        have hj : j < t.length := by simpa using hb
        simpa using (ih i j hi hj).cons x

/-- The shuffle loop only permutes its input. -/
theorem shuffleLoop_perm (i : ℕ) :
    ∀ (data : List Centroid) (rng : Rng), i < data.length →
      ((shuffleLoop data rng i).1).Perm data := by
  induction i with
  | zero =>
    intro data rng _
    exact List.Perm.refl _
  | succ n ih =>
    cases n with
    | zero =>
      intro data rng _
      exact List.Perm.refl _
    | succ m =>
      intro data rng h
      simp only [shuffleLoop]
      have ho : rng.g rng.k % (m + 3) < data.length := by
        have : rng.g rng.k % (m + 3) < m + 3 := Nat.mod_lt _ (by omega)
        omega
      have hperm := set_set_perm data (rng.g rng.k % (m + 3)) (m + 2) ho h
      have hlen :
          ((data.set (rng.g rng.k % (m + 3))
            (data.getD (m + 2) invalidCentroid)).set (m + 2)
            (data.getD (rng.g rng.k % (m + 3)) invalidCentroid)).length
            = data.length := by simp
      simp only [randIntn]
      exact (ih _ _ (by rw [hlen]; omega)).trans hperm

/-- C10.  `shuffle` rearranges the slice in place into a permutation of
its input (so its length and multiset of elements are preserved), for
every input and every random oracle. -/
theorem c10_shuffle_perm (data : List Centroid) (rng : Rng) :
    ((shuffle data rng).1).Perm data ∧
    (shuffle data rng).1.length = data.length := by
  have hp : ((shuffle data rng).1).Perm data := by
    unfold shuffle
    rcases Nat.eq_zero_or_pos data.length with h | h
    · have hnil : data = [] := List.length_eq_zero.mp h
      subst hnil
      exact List.Perm.refl _
    · exact shuffleLoop_perm _ data rng (by omega)
  exact ⟨hp, hp.length_eq⟩


/-! ### Fenwick-tree correctness (C9) -/

/-- The single-step unfolding of `lsb` (the fuel is self-normalizing). -/
theorem lsb_eq (n : ℕ) :
    lsb n = if n = 0 then 0 else if n % 2 = 1 then 1 else 2 * lsb (n / 2) := by
  cases n with
  | zero => simp [lsb, lsbF]
  | succ k =>
    show lsbF (k + 1) (k + 1) = _
    rw [lsbF]
    simp [lsb]

/-- The value `lsb` of an odd multiple of a power of two is that power. -/
theorem lsb_odd_pow (a : ℕ) : ∀ m : ℕ, lsb ((2 * m + 1) * 2 ^ a) = 2 ^ a := by
  induction a with
  | zero =>
    intro m
    rw [lsb_eq]
    rw [if_neg (by omega), if_pos (by omega)]
    norm_num
  | succ b ih =>
    intro m
    rw [lsb_eq]
    rw [if_neg (by positivity), if_neg (by
      have : (2 * m + 1) * 2 ^ (b + 1) = 2 * ((2 * m + 1) * 2 ^ b) := by ring
      omega)]
    have hdiv : (2 * m + 1) * 2 ^ (b + 1) / 2 = (2 * m + 1) * 2 ^ b := by
      have : (2 * m + 1) * 2 ^ (b + 1) = ((2 * m + 1) * 2 ^ b) * 2 := by ring
      omega
    rw [hdiv, ih m]
    ring

/-- Every positive natural is an odd multiple of a power of two. -/
theorem odd_pow_decomp : ∀ n : ℕ, n ≠ 0 → ∃ a m : ℕ, n = (2 * m + 1) * 2 ^ a := by
  intro n
  induction n using Nat.strong_induction_on with
  | _ n ih =>
    intro hn
    rcases Nat.even_or_odd n with he | ho
    · obtain ⟨k, hk⟩ := he
      have hk2 : n = 2 * k := by omega
      have hkn : k < n := by omega
      have hk0 : k ≠ 0 := by omega
      obtain ⟨a, m, ham⟩ := ih k hkn hk0
      exact ⟨a + 1, m, by rw [hk2, ham]; ring⟩
    · obtain ⟨k, hk⟩ := ho
      exact ⟨0, k, by omega⟩

theorem lsb_pos {n : ℕ} (h : n ≠ 0) : 0 < lsb n := by
  obtain ⟨a, m, rfl⟩ := odd_pow_decomp n h
  rw [lsb_odd_pow]
  positivity

theorem lsb_le {n : ℕ} (h : n ≠ 0) : lsb n ≤ n := by
  obtain ⟨a, m, rfl⟩ := odd_pow_decomp n h
  rw [lsb_odd_pow]
  nlinarith [pow_pos (show 0 < 2 by omega) a]

/-- Going up one Fenwick level at least doubles the low bit. -/
theorem lsb_add_lsb {n : ℕ} (h : n ≠ 0) : 2 * lsb n ≤ lsb (n + lsb n) := by
  obtain ⟨a, m, rfl⟩ := odd_pow_decomp n h
  rw [lsb_odd_pow]
  have hsum : (2 * m + 1) * 2 ^ a + 2 ^ a = (m + 1) * 2 ^ (a + 1) := by ring
  rw [hsum]
  obtain ⟨b, m', hm'⟩ := odd_pow_decomp (m + 1) (by omega)
  rw [hm']
  have : (2 * m' + 1) * 2 ^ b * 2 ^ (a + 1) = (2 * m' + 1) * 2 ^ (b + (a + 1)) := by
    rw [pow_add]
    ring
  rw [this, lsb_odd_pow]
  have : 2 * 2 ^ a = 2 ^ (a + 1) := by ring
  rw [this]
  exact Nat.pow_le_pow_right (by omega) (by omega)

/-- Adding a multiple of a dominating power of two does not change `lsb`. -/
theorem lsb_mul_pow_add (A a r : ℕ) (h1 : 0 < r) (h2 : r < 2 ^ a) :
    lsb (A * 2 ^ a + r) = lsb r := by
  obtain ⟨b, m, rfl⟩ := odd_pow_decomp r (by omega)
  have hba : b < a := by
    by_contra hba
    push_neg at hba
    have : 2 ^ a ≤ 2 ^ b := Nat.pow_le_pow_right (by omega) hba
    nlinarith
  obtain ⟨c, rfl⟩ : ∃ c, a = c + 1 + b := ⟨a - b - 1, by omega⟩
  have hsplit : A * 2 ^ (c + 1 + b) + (2 * m + 1) * 2 ^ b
      = (2 * (A * 2 ^ c + m) + 1) * 2 ^ b := by
    rw [pow_add, pow_add]
    ring
  rw [hsplit, lsb_odd_pow, lsb_odd_pow]

theorem M32_pos : 0 < M32 := by norm_num [M32]

theorem getD_set_ne (l : List ℕ) (i k v : ℕ) (h : k ≠ i) :
    (l.set i v).getD k 0 = l.getD k 0 := by
  rw [List.getD_eq_getElem?_getD, List.getD_eq_getElem?_getD, List.getElem?_set]
  rw [if_neg (Ne.symm h)]

theorem getD_set_self (l : List ℕ) (i v : ℕ) (h : i < l.length) :
    (l.set i v).getD i 0 = v := by
  rw [List.getD_eq_getElem?_getD, List.getElem?_set_eq_of_lt v h]
  rfl

theorem cover_self (p : ℕ) : cover p p := by
  refine ⟨le_refl p, ?_⟩
  have := lsb_pos (n := p + 1) (by omega)
  omega

/-- Climbing from a covering node stays covering. -/
theorem cover_step {i p : ℕ} (h : cover i p) : cover (i + lsb (i + 1)) p := by
  obtain ⟨h1, h2⟩ := h
  have hpos := lsb_pos (n := i + 1) (by omega)
  have hL := lsb_add_lsb (n := i + 1) (by omega)
  have hle := lsb_le (n := (i + 1) + lsb (i + 1)) (by omega)
  constructor
  · omega
  · have he : i + lsb (i + 1) + 1 = (i + 1) + lsb (i + 1) := by omega
    rw [he]
    omega

/-- No covering node lies strictly between a covering node and its parent. -/
theorem cover_no_skip {i k p : ℕ} (hi : cover i p) (hk : cover k p) (hik : i < k) :
    i + lsb (i + 1) ≤ k := by
  by_contra hcon
  push_neg at hcon
  obtain ⟨a, m, hdecomp⟩ := odd_pow_decomp (i + 1) (by omega)
  have hlsb : lsb (i + 1) = 2 ^ a := by rw [hdecomp, lsb_odd_pow]
  set r := k + 1 - (i + 1) with hrdef
  have hr0 : 0 < r := by omega
  have hrlt : r < 2 ^ a := by omega
  have hkr : k + 1 = (2 * m + 1) * 2 ^ a + r := by rw [← hdecomp]; omega
  have hlsbk : lsb (k + 1) = lsb r := by
    rw [hkr]; exact lsb_mul_pow_add _ _ _ hr0 hrlt
  have hrle : lsb r ≤ r := lsb_le (by omega)
  have hk2 := hk.2
  rw [hlsbk] at hk2
  have hp := hi.1
  omega

/-- Loop correctness: `fenSumLoop` computes the wrapped prefix sum under the node invariant. -/
theorem fenSumLoop_eq (buf : List ℕ) (a : ℕ → ℕ) (hInv : fenInv buf a) :
    ∀ i, i ≤ buf.length → ∀ fuel, i ≤ fuel → ∀ acc, acc < M32 →
    fenSumLoop fuel buf i acc = (acc + ∑ j ∈ Finset.range i, a j) % M32 := by
  intro i
  induction i using Nat.strong_induction_on with
  | _ i ih =>
    intro hil fuel hfuel acc hacc
    match i, fuel with
    | 0, 0 =>
      simp [fenSumLoop, Nat.mod_eq_of_lt hacc]
    | 0, fuel + 1 =>
      simp [fenSumLoop, Nat.mod_eq_of_lt hacc]
    | i + 1, fuel + 1 =>
      rw [fenSumLoop, if_pos (by omega)]
      have hlsb_pos := lsb_pos (n := i + 1) (by omega)
      have hlsb_le := lsb_le (n := i + 1) (by omega)
      have hnode := hInv i (by omega)
      have hacc' : add32 acc (buf.getD i 0) < M32 := Nat.mod_lt _ M32_pos
      simp only [Nat.add_sub_cancel]
      rw [ih (i + 1 - lsb (i + 1)) (by omega) (by omega) fuel (by omega) _ hacc']
      rw [hnode]
      have hsplit : (∑ j ∈ Finset.range (i + 1 - lsb (i + 1)), a j)
          + (∑ j ∈ Finset.Ico (i + 1 - lsb (i + 1)) (i + 1), a j)
          = ∑ j ∈ Finset.range (i + 1), a j := by
        simp only [Finset.range_eq_Ico]
        exact Finset.sum_Ico_consecutive _ (by omega) (by omega)
      rw [add32]
      simp only [M32] at *
      omega

theorem fenAddLoop_length :
    ∀ fuel (buf : List ℕ) i δ, (fenAddLoop fuel buf i δ).length = buf.length := by
  intro fuel
  induction fuel with
  | zero => intro buf i δ; rfl
  | succ f ih =>
    intro buf i δ
    rw [fenAddLoop]
    by_cases hib : i < buf.length
    · rw [if_pos hib, ih]
      simp
    · rw [if_neg hib]

/-- What `fenAddLoop` does to each cell, when started at a node covering `p`
with enough fuel: it adds `δ` exactly at the covering nodes at or above the
start. -/
theorem fenAddLoop_getD (p δ : ℕ) :
    ∀ fuel (buf : List ℕ) i, buf.length ≤ i + fuel → cover i p →
    ∀ k, k < buf.length →
    (fenAddLoop fuel buf i δ).getD k 0 =
      if k < i then buf.getD k 0
      else if cover k p then add32 (buf.getD k 0) δ
      else buf.getD k 0 := by
  intro fuel
  induction fuel with
  | zero =>
    intro buf i hlen hcov k hk
    rw [show fenAddLoop 0 buf i δ = buf from rfl, if_pos (by omega)]
  | succ f ih =>
    intro buf i hlen hcov k hk
    rw [fenAddLoop]
    by_cases hib : i < buf.length
    · rw [if_pos hib]
      have hlsb1 : 0 < lsb (i + 1) := lsb_pos (by omega)
      have hstep := cover_step hcov
      have hlen' : (buf.set i (add32 (buf.getD i 0) δ)).length = buf.length := by simp
      have hrec := ih (buf.set i (add32 (buf.getD i 0) δ)) (i + lsb (i + 1))
        (by omega) hstep k (by omega)
      rw [hrec]
      by_cases hk_lt : k < i
      · rw [if_pos (by omega), if_pos hk_lt, getD_set_ne _ _ _ _ (by omega)]
      · by_cases hk_eq : k = i
        · subst hk_eq
          rw [if_pos (by omega), if_neg (by omega), if_pos hcov,
            getD_set_self _ _ _ hib]
        · by_cases hk_mid : k < i + lsb (i + 1)
          · have hnc : ¬ cover k p := fun hc =>
              absurd (cover_no_skip hcov hc (by omega)) (by omega)
            rw [if_pos hk_mid, if_neg (by omega), if_neg hnc,
              getD_set_ne _ _ _ _ (by omega)]
          · rw [if_neg hk_mid, getD_set_ne _ _ _ _ (show k ≠ i by omega),
              if_neg hk_lt]
    · rw [if_neg hib, if_pos (by omega)]

theorem accomodate_noop (f : Fen) (i : ℤ) (h : i < (f.buf.length : ℤ)) :
    accomodate f i = f := by
  unfold accomodate
  rw [if_neg (not_le.mpr h)]

theorem sum_if_update (s : Finset ℕ) (a : ℕ → ℕ) (p δ : ℕ) :
    (∑ j ∈ s, (if j = p then a j + δ else a j))
      = (∑ j ∈ s, a j) + (if p ∈ s then δ else 0) := by
  have h1 : ∀ j ∈ s, (if j = p then a j + δ else a j)
      = a j + (if j = p then δ else 0) := by
    intro j _
    by_cases h : j = p <;> simp [h]
  rw [Finset.sum_congr rfl h1, Finset.sum_add_distrib]
  congr 1
  exact Finset.sum_ite_eq' s p (fun _ => δ)

/-- In-capacity `fen.Add` keeps the length and updates the abstract array
at the one position. -/
theorem fenAdd_inv (buf : List ℕ) (a : ℕ → ℕ) (hInv : fenInv buf a) (p δ : ℕ)
    (hp : p < buf.length) :
    (fenAdd ⟨buf⟩ p δ).buf.length = buf.length ∧
    fenInv (fenAdd ⟨buf⟩ p δ).buf (fun j => if j = p then a j + δ else a j) := by
  have hno : accomodate ⟨buf⟩ (p : ℤ) = ⟨buf⟩ :=
    accomodate_noop _ _ (by exact_mod_cast hp)
  have hlen : (fenAdd ⟨buf⟩ p δ).buf = fenAddLoop buf.length buf p δ := by
    simp only [fenAdd, hno]
  rw [hlen]
  refine ⟨fenAddLoop_length _ _ _ _, ?_⟩
  intro k hk
  rw [fenAddLoop_length] at hk
  rw [fenAddLoop_getD p δ buf.length buf p (by omega) (cover_self p) k hk]
  have hnode := hInv k hk
  have hmem : p ∈ Finset.Ico (k + 1 - lsb (k + 1)) (k + 1) ↔ cover k p := by
    rw [Finset.mem_Ico]
    unfold cover
    omega
  rw [sum_if_update]
  by_cases hc : cover k p
  · rw [if_neg (show ¬ k < p from by have := hc.1; omega), if_pos hc, hnode,
      if_pos (hmem.mpr hc), add32]
    simp only [M32]
    omega
  · have hL : (if k < p then buf.getD k 0
        else if cover k p then add32 (buf.getD k 0) δ else buf.getD k 0)
        = buf.getD k 0 := by
      by_cases hkp : k < p
      · rw [if_pos hkp]
      · rw [if_neg hkp, if_neg hc]
    rw [hL, hnode, if_neg (fun h => hc (hmem.mp h))]
    simp

theorem fenInv_congr (buf : List ℕ) {a b : ℕ → ℕ} (hab : ∀ j, a j = b j) :
    fenInv buf a → fenInv buf b := by
  intro h k hk
  rw [h k hk]
  congr 1
  exact Finset.sum_congr rfl (fun j _ => hab j)

theorem aOf_cons (op : ℕ × ℕ) (rest : List (ℕ × ℕ)) (j : ℕ) :
    aOf (op :: rest) j = (if op.1 = j then op.2 else 0) + aOf rest j := by
  by_cases h : op.1 = j <;> simp [aOf, List.filter_cons, h]

/-- Replaying in-capacity Adds keeps the length and establishes the
invariant for the accumulated abstract array. -/
theorem applyAdds_inv :
    ∀ (ops : List (ℕ × ℕ)) (f : Fen) (a : ℕ → ℕ), fenInv f.buf a →
    (∀ op ∈ ops, op.1 < f.buf.length) →
    (applyAdds f ops).buf.length = f.buf.length ∧
    fenInv (applyAdds f ops).buf (fun j => a j + aOf ops j) := by
  intro ops
  induction ops with
  | nil =>
    intro f a hInv _
    refine ⟨rfl, fenInv_congr _ (fun j => by simp [aOf]) hInv⟩
  | cons op rest ih =>
    intro f a hInv hops
    have hop : op.1 < f.buf.length := hops op (by simp)
    obtain ⟨hlen1, hInv1⟩ := fenAdd_inv f.buf a hInv op.1 op.2 hop
    have hlen1' : (fenAdd f op.1 op.2).buf.length = f.buf.length := hlen1
    have hInv1' : fenInv (fenAdd f op.1 op.2).buf
        (fun j => if j = op.1 then a j + op.2 else a j) := hInv1
    have hstep : applyAdds f (op :: rest) = applyAdds (fenAdd f op.1 op.2) rest := by
      simp [applyAdds]
    obtain ⟨hlen2, hInv2⟩ := ih (fenAdd f op.1 op.2) _ hInv1'
      (fun o ho => by rw [hlen1']; exact hops o (by simp [ho]))
    rw [hstep]
    refine ⟨by rw [hlen2, hlen1'], ?_⟩
    refine fenInv_congr _ (fun j => ?_) hInv2
    simp only [aOf_cons]
    by_cases h : op.1 = j
    · simp only [if_pos h, if_pos h.symm]
      omega
    · simp only [if_neg h, if_neg (fun hh : j = op.1 => h hh.symm)]
      omega

theorem sum_aOf (i : ℕ) (ops : List (ℕ × ℕ)) :
    (∑ j ∈ Finset.range i, aOf ops j)
      = ((ops.filter (fun op => op.1 < i)).map Prod.snd).sum := by
  induction ops with
  | nil => simp [aOf]
  | cons op rest ih =>
    simp only [aOf_cons, Finset.sum_add_distrib, ih, List.filter_cons]
    have hone : (∑ j ∈ Finset.range i, if op.1 = j then op.2 else 0)
        = if op.1 < i then op.2 else 0 := by
      rw [Finset.sum_ite_eq (Finset.range i) op.1 (fun _ => op.2)]
      simp [Finset.mem_range]
    rw [hone]
    by_cases h : op.1 < i <;> simp [h]

theorem replicate_inv (N : ℕ) : fenInv (List.replicate N 0) (fun _ => 0) := by
  intro k hk
  rw [List.length_replicate] at hk
  simp [List.getD_eq_getElem?_getD, List.getElem?_replicate, hk]

/-- Correctness of `fen.Sum` after replaying in-capacity Adds over a pre-grown zero buffer. -/
theorem fenSum_applyAdds (N : ℕ) (ops : List (ℕ × ℕ))
    (hops : ∀ op ∈ ops, op.1 < N) (i : ℕ) (hi : i ≤ N) :
    (fenSum (applyAdds ⟨List.replicate N 0⟩ ops) i).2
      = ((ops.filter (fun op => op.1 < i)).map Prod.snd).sum % M32 := by
  obtain ⟨hlen, hInv⟩ := applyAdds_inv ops ⟨List.replicate N 0⟩ _ (replicate_inv N)
    (fun op ho => by simpa using hops op ho)
  rw [List.length_replicate] at hlen
  have hnoop : accomodate (applyAdds ⟨List.replicate N 0⟩ ops) ((i : ℤ) - 1)
      = applyAdds ⟨List.replicate N 0⟩ ops := by
    apply accomodate_noop
    rw [hlen]
    omega
  simp only [fenSum, hnoop]
  rw [fenSumLoop_eq _ _ hInv i (by omega) i le_rfl 0 M32_pos]
  rw [show (∑ j ∈ Finset.range i, (fun j => (fun _ => 0) j + aOf ops j) j)
      = ∑ j ∈ Finset.range i, aOf ops j from Finset.sum_congr rfl (fun j _ => by simp)]
  rw [sum_aOf, Nat.zero_add]

/-- The first `Range` loop runs exactly once for `Range(i, i+1)`. -/
theorem fenRangeDown_one (buf : List ℕ) (i acc : ℕ) :
    fenRangeDown (i + 1) buf i (i + 1) acc
      = (i + 1 - lsb (i + 1), add32 acc (buf.getD i 0)) := by
  have hstop : ∀ fuel j acc', j ≤ i → fenRangeDown fuel buf i j acc' = (j, acc') := by
    intro fuel j acc' hj
    cases fuel with
    | zero => rfl
    | succ f => rw [fenRangeDown, if_neg (by omega)]
  rw [fenRangeDown, if_pos (by omega)]
  simp only [Nat.add_sub_cancel]
  apply hstop
  have := lsb_pos (n := i + 1) (by omega)
  omega

/-- The second `Range` loop, descending from `jstar + s` with
`jstar` a multiple of a power of two dominating `s`, subtracts exactly
the sum over `[jstar, jstar + s)`. -/
theorem fenRangeSub_exact (buf : List ℕ) (a : ℕ → ℕ) (hInv : fenInv buf a)
    (jstar A e : ℕ) (hA : jstar = A * 2 ^ e) :
    ∀ s, s < 2 ^ e → jstar + s ≤ buf.length → ∀ fuel, s ≤ fuel → ∀ acc, acc < M32 →
    fenRangeSub fuel buf jstar (jstar + s) acc
      = (((acc : ℤ) - ((∑ j ∈ Finset.Ico jstar (jstar + s), a j : ℕ) : ℤ))
          % ((M32 : ℕ) : ℤ)).toNat := by
  intro s
  induction s using Nat.strong_induction_on with
  | _ s ih =>
    intro hse hlen fuel hfuel acc hacc
    match s, fuel with
    | 0, fuel =>
      have hret : fenRangeSub fuel buf jstar (jstar + 0) acc = acc := by
        cases fuel with
        | zero => rfl
        | succ f => rw [fenRangeSub, if_neg (by omega)]
      rw [hret]
      simp only [Nat.add_zero, Finset.Ico_self, Finset.sum_empty, M32] at *
      omega
    | s + 1, fuel + 1 =>
      rw [fenRangeSub, if_pos (by omega)]
      have hl1 := lsb_pos (n := s + 1) (by omega)
      have hl2 := lsb_le (n := s + 1) (by omega)
      have hlsbm : lsb (jstar + (s + 1)) = lsb (s + 1) := by
        rw [hA]
        exact lsb_mul_pow_add A e (s + 1) (by omega) hse
      have hidx : jstar + (s + 1) - lsb (jstar + (s + 1))
          = jstar + (s + 1 - lsb (s + 1)) := by
        rw [hlsbm]
        omega
      have hidx1 : jstar + (s + 1) - 1 = jstar + s := by omega
      rw [hidx, hidx1]
      have hnode : buf.getD (jstar + s) 0
          = (∑ j ∈ Finset.Ico (jstar + (s + 1) - lsb (jstar + (s + 1)))
              (jstar + (s + 1)), a j) % M32 := hInv (jstar + s) (by omega)
      rw [hidx] at hnode
      have hacc2 : sub32 acc (buf.getD (jstar + s) 0) < M32 := Nat.mod_lt _ M32_pos
      rw [ih (s + 1 - lsb (s + 1)) (by omega) (by omega) (by omega) fuel (by omega)
        _ hacc2]
      have hsplit : (∑ j ∈ Finset.Ico jstar (jstar + (s + 1 - lsb (s + 1))), a j)
          + (∑ j ∈ Finset.Ico (jstar + (s + 1 - lsb (s + 1))) (jstar + (s + 1)), a j)
          = ∑ j ∈ Finset.Ico jstar (jstar + (s + 1)), a j :=
        Finset.sum_Ico_consecutive _ (by omega) (by omega)
      rw [hnode]
      simp only [sub32, M32] at *
      omega

/-- Under the node invariant, `fen.Get` returns the wrapped cell value. -/
theorem fenGet_inv (buf : List ℕ) (a : ℕ → ℕ) (hInv : fenInv buf a)
    (i : ℕ) (hi : i < buf.length) :
    (fenGet ⟨buf⟩ i).2 = a i % M32 := by
  have hnoop : accomodate ⟨buf⟩ ((↑(i + 1) : ℤ) - 1) = ⟨buf⟩ :=
    accomodate_noop _ _ (by push_cast; omega)
  have hred : (fenGet ⟨buf⟩ i).2
      = fenRangeSub i buf (i + 1 - lsb (i + 1)) i (add32 0 (buf.getD i 0)) := by
    simp only [fenGet, fenRange, hnoop, fenRangeDown_one]
  rw [hred]
  obtain ⟨e, m, hdm⟩ := odd_pow_decomp (i + 1) (by omega)
  have hlsb : lsb (i + 1) = 2 ^ e := by rw [hdm, lsb_odd_pow]
  have hepos : 0 < 2 ^ e := pow_pos (by omega) e
  have hll := lsb_le (n := i + 1) (by omega)
  set jstar := i + 1 - lsb (i + 1) with hjs
  have hjsA : jstar = (2 * m) * 2 ^ e := by
    have hexp : (2 * m + 1) * 2 ^ e = 2 * m * 2 ^ e + 2 ^ e := by ring
    rw [hjs, hlsb, hdm]
    omega
  set s := i - jstar with hsdef
  have hs : jstar + s = i := by omega
  have hslt : s < 2 ^ e := by omega
  have hacc : add32 0 (buf.getD i 0) < M32 := Nat.mod_lt _ M32_pos
  have hmain := fenRangeSub_exact buf a hInv jstar (2 * m) e hjsA s hslt
    (by omega) i (by omega) (add32 0 (buf.getD i 0)) hacc
  rw [hs] at hmain
  rw [hmain]
  have hnode : buf.getD i 0
      = (∑ j ∈ Finset.Ico (i + 1 - lsb (i + 1)) (i + 1), a j) % M32 := hInv i hi
  rw [← hjs] at hnode
  have hsucc : (∑ j ∈ Finset.Ico jstar (i + 1), a j)
      = (∑ j ∈ Finset.Ico jstar i, a j) + a i :=
    Finset.sum_Ico_succ_top (by omega) a
  rw [hnode]
  simp only [add32, M32] at *
  omega

theorem fenGet_applyAdds (N : ℕ) (ops : List (ℕ × ℕ))
    (hops : ∀ op ∈ ops, op.1 < N) (i : ℕ) (hi : i < N) :
    (fenGet (applyAdds ⟨List.replicate N 0⟩ ops) i).2
      = ((ops.filter (fun op => op.1 = i)).map Prod.snd).sum % M32 := by
  obtain ⟨hlen, hInv⟩ := applyAdds_inv ops ⟨List.replicate N 0⟩ _ (replicate_inv N)
    (fun op ho => by simpa using hops op ho)
  rw [List.length_replicate] at hlen
  have h : (fenGet (applyAdds ⟨List.replicate N 0⟩ ops) i).2
      = ((fun j => (fun _ => 0) j + aOf ops j) i) % M32 :=
    fenGet_inv _ _ hInv i (by omega)
  rw [h]
  simp [aOf]

/-- C9 (amended): with all Adds inside the pre-grown zero-filled capacity
`N`, the Fenwick tree is correct: `Sum i` is the wrapped total of the deltas
at positions below `i`, and `Get i` the wrapped total at exactly `i`. -/
theorem c9_fenwick_correct (N : ℕ) (ops : List (ℕ × ℕ))
    (hops : ∀ op ∈ ops, op.1 < N) (i : ℕ) :
    (i ≤ N → (fenSum (applyAdds ⟨List.replicate N 0⟩ ops) i).2
      = ((ops.filter (fun op => op.1 < i)).map Prod.snd).sum % M32) ∧
    (i < N → (fenGet (applyAdds ⟨List.replicate N 0⟩ ops) i).2
      = ((ops.filter (fun op => op.1 = i)).map Prod.snd).sum % M32) :=
  ⟨fun hi => fenSum_applyAdds N ops hops i hi,
   fun hi => fenGet_applyAdds N ops hops i hi⟩

/-- Concrete instance of `c9_fenwick_correct`: capacity 4,
Adds (0,+5) and (2,+7); `Sum 2 = 5` and `Get 2 = 7`. -/
theorem c9_fenwick_correct_witness :
    (fenSum (applyAdds ⟨List.replicate 4 0⟩ [(0, 5), (2, 7)]) 2).2 = 5 ∧
    (fenGet (applyAdds ⟨List.replicate 4 0⟩ [(0, 5), (2, 7)]) 2).2 = 7 := by
  obtain ⟨h1, h2⟩ := c9_fenwick_correct 4 [(0, 5), (2, 7)] (by decide) 2
  constructor
  · rw [h1 (by omega)]
    decide
  · rw [h2 (by omega)]
    decide

/-- C9, the false half of the original claim: growth on demand loses
previously stored mass.  `Add(0,5)` on an empty tree, then `Sum 2`
(which zero-grows the buffer past a power-of-two boundary) returns 0,
although `Sum 1` still sees the 5. -/
theorem c9_growth_loses_sums :
    (fenSum (fenAdd ⟨[]⟩ 0 5) 2).2 = 0 ∧ (fenSum (fenAdd ⟨[]⟩ 0 5) 1).2 = 5 :=
  of_decide_eq_true (by with_unfolding_all rfl)


/-! ### List helpers for the store invariant (C5) -/

theorem getD_set_of_ne {α : Type} (l : List α) (d : α) (i k : ℕ) (v : α) (h : k ≠ i) :
    (l.set i v).getD k d = l.getD k d := by
  rw [List.getD_eq_getElem?_getD, List.getD_eq_getElem?_getD, List.getElem?_set]
  rw [if_neg (Ne.symm h)]

theorem getD_set_eq {α : Type} (l : List α) (d : α) (i : ℕ) (v : α) (h : i < l.length) :
    (l.set i v).getD i d = v := by
  rw [List.getD_eq_getElem?_getD, List.getElem?_set_eq_of_lt v h]
  rfl

theorem chainLe_getD_le (ks : List ℚ) (hs : ks.Chain' (· ≤ ·)) {a b : ℕ}
    (hab : a ≤ b) (hb : b < ks.length) : ks.getD a 0 ≤ ks.getD b 0 := by
  rcases lt_or_eq_of_le hab with h | h
  · have hp : ks.Pairwise (· ≤ ·) := List.chain'_iff_pairwise.mp hs
    have ha : a < ks.length := lt_trans h hb
    have := (List.pairwise_iff_getElem.mp hp) a b ha hb h
    rwa [List.getD_eq_getElem ks 0 ha, List.getD_eq_getElem ks 0 hb]
  · rw [h]

theorem chainLe_of_adjacent (ks : List ℚ)
    (h : ∀ a, a + 1 < ks.length → ks.getD a 0 ≤ ks.getD (a + 1) 0) :
    ks.Chain' (· ≤ ·) := by
  have key : ∀ d i, i + d < ks.length → ks.getD i 0 ≤ ks.getD (i + d) 0 := by
    intro d
    induction d with
    | zero => intro i _; exact le_refl _
    | succ dd ih =>
      intro i hi
      have h1 := ih i (by omega)
      have h2 := h (i + dd) (by omega)
      calc ks.getD i 0 ≤ ks.getD (i + dd) 0 := h1
        _ ≤ ks.getD (i + dd + 1) 0 := h2
        _ = ks.getD (i + (dd + 1)) 0 := by rw [show i + dd + 1 = i + (dd + 1) from rfl]
  rw [List.chain'_iff_pairwise, List.pairwise_iff_getElem]
  intro i j hi hj hij
  have := key (j - i) i (by omega)
  rw [List.getD_eq_getElem ks 0 hi, List.getD_eq_getElem ks 0 (show i + (j - i) < ks.length by omega)] at this
  simpa [show i + (j - i) = j by omega] using this

theorem sum_set_nat (cs : List ℕ) (i : ℕ) (v : ℕ) (h : i < cs.length) :
    (cs.set i v).sum + cs.getD i 0 = cs.sum + v := by
  induction cs generalizing i with
  | nil => simp at h
  | cons c t ih =>
    cases i with
    | zero => simp [List.getD_cons_zero]; omega
    | succ k =>
      have hk : k < t.length := by simpa using h
      have := ih k hk
      simp only [List.set_cons_succ, List.sum_cons, List.getD_cons_succ]
      omega

theorem sum_insertIdx_nat (cs : List ℕ) (i v : ℕ) (h : i ≤ cs.length) :
    (cs.insertIdx i v).sum = cs.sum + v := by
  induction cs generalizing i with
  | nil =>
    have : i = 0 := by simpa using h
    subst this
    simp
  | cons c t ih =>
    cases i with
    | zero => simp [List.insertIdx]; omega
    | succ k =>
      have hk : k ≤ t.length := by simpa using h
      have := ih k hk
      simp only [List.insertIdx_succ_cons, List.sum_cons, this]
      omega

theorem sum_eraseIdx_nat (cs : List ℕ) (i : ℕ) (h : i < cs.length) :
    (cs.eraseIdx i).sum + cs.getD i 0 = cs.sum := by
  induction cs generalizing i with
  | nil => simp at h
  | cons c t ih =>
    cases i with
    | zero => simp; omega
    | succ k =>
      have hk : k < t.length := by simpa using h
      have := ih k hk
      simp only [List.eraseIdx_cons_succ, List.sum_cons, List.getD_cons_succ]
      omega

theorem map_insertIdx_some (ks : List ℚ) (i : ℕ) (v : ℚ) :
    (ks.insertIdx i v).map some = (ks.map some).insertIdx i (some v) := by
  induction ks generalizing i with
  | nil => cases i <;> simp [List.insertIdx]
  | cons k t ih =>
    cases i with
    | zero => simp [List.insertIdx]
    | succ j => simp [List.insertIdx_succ_cons, ih]

theorem getD_cons_set_permA {α : Type} (d : α) (t : List α) (j : ℕ) (x : α)
    (hj : j < t.length) :
    ((t.getD j d) :: t.set j x).Perm (x :: t) := by
  induction t generalizing j with
  | nil => simp at hj
  | cons y t ih =>
    cases j with
    | zero => simpa using List.Perm.swap x y t
    | succ k =>
      have hk : k < t.length := by simpa using hj
      have h1 : ((y :: t).getD (k + 1) d) :: (y :: t).set (k + 1) x
          = t.getD k d :: y :: t.set k x := by simp
      rw [h1]
      exact (List.Perm.swap y _ _).trans (((ih k hk).cons y).trans (List.Perm.swap x y t))

theorem set_swap_perm {α : Type} (d : α) (l : List α) (a b : ℕ)
    (ha : a < l.length) (hb : b < l.length) :
    ((l.set a (l.getD b d)).set b (l.getD a d)).Perm l := by
  induction l generalizing a b with
  | nil => simp at ha
  | cons x t ih =>
    cases a with
    | zero =>
      cases b with
      | zero => simp
      | succ j =>
        have hj : j < t.length := by simpa using hb
        simpa using getD_cons_set_permA d t j x hj
    | succ i =>
      have hi : i < t.length := by simpa using ha
      cases b with
      | zero =>
        simpa using getD_cons_set_permA d t i x hi
      | succ j =>
        have hj : j < t.length := by simpa using hb
        simpa using (ih i j hi hj).cons x

theorem getD_range_map (l : List ℕ) :
    (List.range l.length).map (fun i => l.getD i 0) = l := by
  apply List.ext_getElem
  · simp
  · intro i h1 h2
    simp [List.getElem_map, List.getElem_range, List.getD_eq_getElem?_getD,
      List.getElem?_eq_getElem h2]

/-- Binary-search loop invariant over a weakly ascending store. -/
theorem findIndexLoopW_spec (ks : List ℚ) (hs : ks.Chain' (· ≤ ·)) (qx : ℚ) :
    ∀ (fuel i j : ℕ), i ≤ j → j ≤ ks.length → j - i ≤ fuel →
    (∀ k, k < i → ks.getD k 0 < qx) →
    (∀ k, j ≤ k → k < ks.length → ¬ ks.getD k 0 < qx) →
    i ≤ findIndexLoop fuel (ks.map some) (some qx) i j ∧
    findIndexLoop fuel (ks.map some) (some qx) i j ≤ j ∧
    (∀ k, k < findIndexLoop fuel (ks.map some) (some qx) i j → ks.getD k 0 < qx) ∧
    (∀ k, findIndexLoop fuel (ks.map some) (some qx) i j ≤ k → k < ks.length →
      ¬ ks.getD k 0 < qx) := by
  intro fuel
  induction fuel with
  | zero =>
    intro i j hij hjl hfuel hlo hhi
    have hij' : i = j := by omega
    subst hij'
    simp only [findIndexLoop]
    exact ⟨le_refl _, le_refl _, hlo, hhi⟩
  | succ fuel ih =>
    intro i j hij hjl hfuel hlo hhi
    by_cases hij2 : i < j
    · rw [findIndexLoop_step fuel (ks.map some) (some qx) i j hij2]
      have hh : (i + j) / 2 < ks.length := by omega
      rw [keys_getD ks _ hh]
      by_cases hcmp : ks.getD ((i + j) / 2) 0 < qx
      · rw [if_pos (by simpa [flt] using hcmp)]
        refine ih ((i + j) / 2 + 1) j (by omega) hjl (by omega) ?_ hhi |>.imp
          (fun h => by omega) (fun h => h)
        intro k hk
        rcases Nat.lt_or_ge k i with h | h
        · exact hlo k h
        · exact lt_of_le_of_lt (chainLe_getD_le ks hs (by omega) hh) hcmp
      · rw [if_neg (by simpa [flt] using hcmp)]
        refine ih i ((i + j) / 2) (by omega) (by omega) (by omega) hlo ?_ |>.imp
          (fun h => h) (fun h => ⟨by omega, h.2⟩)
        intro k hk hkl hlt
        exact hcmp (lt_of_le_of_lt (chainLe_getD_le ks hs hk hkl) hlt)
    · have hij' : i = j := by omega
      subst hij'
      simp only [findIndexLoop, if_neg (lt_irrefl i)]
      exact ⟨le_refl _, le_refl _, hlo, hhi⟩

/-- `FindIndex` on a weakly ascending store: lands at the first key not
below the probe. -/
theorem sFindIndexW (ks : List ℚ) (hs : ks.Chain' (· ≤ ·)) (qx : ℚ) :
    sFindIndex (ks.map some) (some qx) ≤ ks.length ∧
    (∀ k, k < sFindIndex (ks.map some) (some qx) → ks.getD k 0 < qx) ∧
    (∀ k, sFindIndex (ks.map some) (some qx) ≤ k → k < ks.length →
      qx ≤ ks.getD k 0) := by
  have h := findIndexLoopW_spec ks hs qx (ks.length + 1) 0 ks.length (by omega)
    (by simp) (by omega) (by omega) (fun k hk hkl => by omega)
  simp only [sFindIndex, List.length_map]
  exact ⟨h.2.1, h.2.2.1, fun k h1 h2 => not_lt.mp (h.2.2.2 k h1 h2)⟩

/-- `FindIndex` of a present key on a weakly ascending store finds (the
first occurrence of) that key. -/
theorem sFindIndexW_present (ks : List ℚ) (hs : ks.Chain' (· ≤ ·)) (p : ℕ)
    (hp : p < ks.length) :
    sFindIndex (ks.map some) (some (ks.getD p 0)) < ks.length ∧
    ks.getD (sFindIndex (ks.map some) (some (ks.getD p 0))) 0 = ks.getD p 0 := by
  obtain ⟨h1, h2, h3⟩ := sFindIndexW ks hs (ks.getD p 0)
  set idx := sFindIndex (ks.map some) (some (ks.getD p 0)) with hidx
  have hip : idx ≤ p := by
    by_contra hc
    exact absurd (h2 p (by omega)) (lt_irrefl _)
  have hlt : idx < ks.length := by omega
  have hge := h3 idx (le_refl _) hlt
  have hle := chainLe_getD_le ks hs hip hp
  exact ⟨hlt, le_antisymm hle hge⟩


/-- Decoding a `PutUvarint` image: the value and byte count come back
exactly (for values fitting well below the 10-byte overflow guards). -/
theorem uvarint_core : ∀ (f : ℕ), ∀ (n : ℕ) (rest : List ℕ) (x s i : ℕ),
    n < 128 ^ (f + 1) → n < 128 ^ (9 - i) → i ≤ 8 →
    uvarintLoop (putUvarintF f n ++ rest) x s i
      = (x + n * 2 ^ s, ((i : ℤ) + (putUvarintF f n).length)) := by
  intro f
  induction f with
  | zero =>
    intro n rest x s i h1 h2 h3
    have hn : n < 128 := by simpa using h1
    have hmod : n % 128 = n := Nat.mod_eq_of_lt hn
    show uvarintLoop (n % 128 :: rest) x s i = _
    rw [uvarintLoop]
    rw [if_neg (by omega), if_pos (by omega), if_neg (by omega)]
    simp only [putUvarintF, List.length_cons, List.length_nil, hmod, Prod.mk.injEq]
    constructor <;> push_cast <;> omega
  | succ f ih =>
    intro n rest x s i h1 h2 h3
    by_cases hn : n < 128
    · have hmod : n % 128 = n := Nat.mod_eq_of_lt hn
      show uvarintLoop ((putUvarintF (f + 1) n) ++ rest) x s i = _
      rw [show putUvarintF (f + 1) n = [n] from by rw [putUvarintF, if_pos hn]]
      show uvarintLoop (n :: rest) x s i = _
      rw [uvarintLoop]
      rw [if_neg (by omega), if_pos (by omega), if_neg (by omega)]
      simp only [List.length_cons, List.length_nil, Prod.mk.injEq]
      constructor <;> push_cast <;> omega
    · have hnine : 2 ≤ 9 - i := by
        by_contra hc
        push_neg at hc
        have : 128 ^ (9 - i) ≤ 128 ^ 1 := Nat.pow_le_pow_right (by norm_num) (by omega)
        simp at this
        omega
      rw [show putUvarintF (f + 1) n = (n % 128 + 128) :: putUvarintF f (n / 128) from by
        rw [putUvarintF, if_neg hn]]
      show uvarintLoop ((n % 128 + 128) :: (putUvarintF f (n / 128) ++ rest)) x s i = _
      rw [uvarintLoop]
      rw [if_neg (by omega), if_neg (by omega)]
      have hd1 : n / 128 < 128 ^ (f + 1) := by
        rw [Nat.div_lt_iff_lt_mul (by norm_num)]
        calc n < 128 ^ (f + 1 + 1) := h1
          _ = 128 ^ (f + 1) * 128 := by rw [pow_succ]
      have hd2 : n / 128 < 128 ^ (9 - (i + 1)) := by
        rw [Nat.div_lt_iff_lt_mul (by norm_num)]
        calc n < 128 ^ (9 - i) := h2
          _ = 128 ^ (9 - (i + 1)) * 128 := by
            rw [← pow_succ]
            congr 1
            omega
      rw [ih (n / 128) rest (x + (n % 128 + 128) % 128 * 2 ^ s) (s + 7) (i + 1)
        hd1 hd2 (by omega)]
      have hsplit : n % 128 + 128 * (n / 128) = n := Nat.mod_add_div n 128
      have hb : (n % 128 + 128) % 128 = n % 128 := by omega
      rw [Prod.mk.injEq]
      constructor
      · rw [hb]
        have hp : (2 : ℕ) ^ (s + 7) = 2 ^ s * 128 := by
          rw [pow_add]
          norm_num
        rw [hp]
        calc x + n % 128 * 2 ^ s + n / 128 * (2 ^ s * 128)
            = x + (n % 128 + 128 * (n / 128)) * 2 ^ s := by ring
          _ = x + n * 2 ^ s := by rw [hsplit]
      · simp only [List.length_cons]
        push_cast
        ring

/-- Go `decodeUint32` inverts `encodeUint32` for 32-bit values, consuming
exactly the varint prefix. -/
theorem decodeUint32_enc (w : ℕ) (hw : w < M32) (rest : List ℕ) :
    decodeUint32 (putUvarint w ++ rest) = .ok w rest := by
  have hb1 : w < 128 ^ (w + 1) :=
    lt_of_lt_of_le (Nat.lt_pow_self (by norm_num) w)
      (Nat.pow_le_pow_right (by norm_num) (by omega))
  have hb2 : w < 128 ^ (9 - 0) := by
    have : (128 : ℕ) ^ (9 - 0) = 9223372036854775808 := by norm_num
    rw [this]
    have := hw
    simp only [M32] at this
    omega
  have hcore := uvarint_core w w rest 0 0 0 hb1 hb2 (by omega)
  have huv : uvarint (putUvarint w ++ rest) = (w, ((putUvarintF w w).length : ℤ)) := by
    rw [uvarint, show putUvarint w = putUvarintF w w from rfl, hcore]
    simp
  simp only [decodeUint32, huv]
  rw [if_neg (by simp only [M32] at hw; omega),
    if_neg (not_lt.mpr (Int.natCast_nonneg _))]
  rw [Int.toNat_natCast]
  rw [show (putUvarintF w w).length = (putUvarint w).length from rfl, List.drop_left]

theorem readU32_append (k : ℕ) (hk : k < M32) (rest : List ℕ) :
    readU32 (putU32 k ++ rest) = k := by
  have h0 : (putU32 k ++ rest).getD 0 0 = k % M32 / 16777216 :=
    List.getD_append _ _ _ _ (by simp [putU32])
  have h1 : (putU32 k ++ rest).getD 1 0 = k % M32 / 65536 % 256 :=
    List.getD_append _ _ _ _ (by simp [putU32])
  have h2 : (putU32 k ++ rest).getD 2 0 = k % M32 / 256 % 256 :=
    List.getD_append _ _ _ _ (by simp [putU32])
  have h3 : (putU32 k ++ rest).getD 3 0 = k % 256 :=
    List.getD_append _ _ _ _ (by simp [putU32])
  rw [readU32, h0, h1, h2, h3]
  simp only [M32] at hk ⊢
  omega

theorem drop4_putU32 (k : ℕ) (rest : List ℕ) : (putU32 k ++ rest).drop 4 = rest := by
  rw [show (4 : ℕ) = (putU32 k).length from rfl, List.drop_left]

theorem length4_putU32 (k : ℕ) : (putU32 k).length = 4 := rfl

/-- The means-emitting fold of `Marshal` appends one `enc32` block per
centroid. -/
theorem means_fold (enc32 : F → List ℕ) (keys : List F) :
    ∀ (n : ℕ) (init : List ℕ) (x0 : F),
    ∃ blocks : List (List ℕ),
      ((List.range n).foldl
        (fun (p : List ℕ × F) i =>
          (p.1 ++ enc32 (fsub (keys.getD i fnan) p.2), keys.getD i fnan))
        (init, x0)).1 = init ++ blocks.flatten ∧
      blocks.length = n ∧ ∀ b ∈ blocks, ∃ v, b = enc32 v := by
  intro n
  induction n with
  | zero => intro init x0; exact ⟨[], by simp, rfl, by simp⟩
  | succ m ih =>
    intro init x0
    obtain ⟨blocks, h1, h2, h3⟩ := ih init x0
    rw [List.range_succ, List.foldl_append]
    refine ⟨blocks ++ [enc32 (fsub (keys.getD m fnan)
      (((List.range m).foldl
        (fun (p : List ℕ × F) i =>
          (p.1 ++ enc32 (fsub (keys.getD i fnan) p.2), keys.getD i fnan))
        (init, x0)).2))], ?_, by simp [h2], ?_⟩
    · simp only [List.foldl_cons, List.foldl_nil, h1]
      simp [List.append_assoc]
    · intro b hb
      rcases List.mem_append.mp hb with h | h
      · exact h3 b h
      · exact ⟨_, by simpa using h⟩

/-- The means-decoding loop consumes exactly the `enc32` blocks and
produces finite means. -/
theorem meansLoop_blocks (dec32 : List ℕ → F) (hdec : ∀ b, (dec32 b).isSome = true) :
    ∀ (blocks : List (List ℕ)), (∀ b ∈ blocks, b.length = 4) →
    ∀ (tail : List ℕ) (x : ℚ),
    ∃ ms : List F,
      meansLoop dec32 blocks.length (blocks.flatten ++ tail) (some x) = .ok (ms, tail) ∧
      ms.length = blocks.length ∧ ∀ m ∈ ms, ∃ q : ℚ, m = some q := by
  intro blocks
  induction blocks with
  | nil =>
    intro _ tail x
    exact ⟨[], by simp [meansLoop], rfl, by simp⟩
  | cons b bs ih =>
    intro hlen tail x
    have hb4 : b.length = 4 := hlen b (by simp)
    obtain ⟨q, hq⟩ := Option.isSome_iff_exists.mp (hdec b)
    obtain ⟨ms, hms, hlen2, hsome⟩ := ih (fun c hc => hlen c (by simp [hc])) tail
      (Rat.add x q)
    refine ⟨some (Rat.add x q) :: ms, ?_, by simp [hlen2], ?_⟩
    · show meansLoop dec32 (bs.length + 1) ((b :: bs).flatten ++ tail) (some x) = _
      rw [meansLoop]
      rw [if_neg (by simp [List.flatten_cons, List.length_append, hb4])]
      have htake : ((b :: bs).flatten ++ tail).take 4 = b := by
        rw [List.flatten_cons, List.append_assoc, ← hb4, List.take_left]
      have hdrop : ((b :: bs).flatten ++ tail).drop 4 = bs.flatten ++ tail := by
        rw [List.flatten_cons, List.append_assoc, ← hb4, List.drop_left]
      rw [htake, hdrop, hq]
      show (match meansLoop dec32 bs.length (bs.flatten ++ tail)
          (fadd (some x) (some q)) with
        | .panic m => Res.panic m
        | .ok (ms', rest) => .ok (fadd (some x) (some q) :: ms', rest)) = _
      rw [show fadd (some x) (some q) = some (Rat.add x q) from rfl, hms]
    · intro m hm
      rcases List.mem_cons.mp hm with h | h
      · exact ⟨_, h⟩
      · exact hsome m h

/-- The weights-emitting fold of `Marshal` appends one varint per centroid. -/
theorem weights_fold (g : ℕ → ℕ) : ∀ (n : ℕ) (init : List ℕ),
    (List.range n).foldl (fun b i => encodeUint32 b (g i)) init
      = init ++ ((List.range n).map (fun i => putUvarint (g i))).flatten := by
  intro n
  induction n with
  | zero => intro init; simp
  | succ m ih =>
    intro init
    rw [List.range_succ, List.foldl_append, ih]
    simp [encodeUint32, List.append_assoc]

theorem fgt_some (a b : ℚ) : fgt (some a) (some b) = decide (b < a) := rfl

theorem swapAt_some (ks : List ℚ) (cs : List ℕ) (a b : ℕ)
    (ha : a < ks.length) (hb : b < ks.length) :
    swapAt (ks.map some) cs a b
      = (((ks.set a (ks.getD b 0)).set b (ks.getD a 0)).map some,
         (cs.set a (cs.getD b 0)).set b (cs.getD a 0)) := by
  unfold swapAt
  rw [keys_getD ks b hb, keys_getD ks a ha, List.map_set, List.map_set]

/-- One rightward bubbling pass restores sortedness when only the element
at `i-1` may be out of place upward. -/
theorem adjustRightLoop_ok (len : ℕ) :
    ∀ (fuel : ℕ) (ks : List ℚ) (cs : List ℕ) (i amount : ℕ),
    ks.length = len → cs.length = len → len ≤ i + fuel → 1 ≤ i →
    (∀ a b, a < b → b < len → a ≠ i - 1 → b ≠ i - 1 →
      ks.getD a 0 ≤ ks.getD b 0) →
    (∀ a, a < i - 1 → ks.getD a 0 ≤ ks.getD (i - 1) 0) →
    ∃ (ks' : List ℚ) (cs' : List ℕ) (amount' : ℕ),
      adjustRightLoop fuel (ks.map some) cs i amount = (ks'.map some, cs', amount') ∧
      ks'.length = len ∧ ks'.Chain' (· ≤ ·) ∧ cs'.Perm cs := by
  intro fuel
  induction fuel with
  | zero =>
    intro ks cs i amount h1 h2 h3 h4 hI1 hI2
    refine ⟨ks, cs, amount, rfl, h1, ?_, List.Perm.refl _⟩
    apply chainLe_of_adjacent
    intro a ha
    rw [h1] at ha
    by_cases hb : a + 1 = i - 1
    · rw [hb]
      exact hI2 a (by omega)
    · exact hI1 a (a + 1) (by omega) (by omega) (by omega) hb
  | succ f ih =>
    intro ks cs i amount h1 h2 h3 h4 hI1 hI2
    rw [adjustRightLoop]
    by_cases hcond : i < len ∧ ks.getD i 0 < ks.getD (i - 1) 0
    · have hity : (decide (i < (ks.map some).length)
          && fgt ((ks.map some).getD (i - 1) fnan) ((ks.map some).getD i fnan)) = true := by
        rw [List.length_map, h1, keys_getD ks _ (by omega), keys_getD ks _ (by omega),
          fgt_some]
        simp only [Bool.and_eq_true, decide_eq_true_eq]
        exact ⟨hcond.1, hcond.2⟩
      rw [if_pos hity, swapAt_some ks cs (i - 1) i (by omega) (by omega)]
      set ks2 := (ks.set (i - 1) (ks.getD i 0)).set i (ks.getD (i - 1) 0) with hks2
      set cs2 := (cs.set (i - 1) (cs.getD i 0)).set i (cs.getD (i - 1) 0) with hcs2
      have e1 : ∀ x, x ≠ i - 1 → x ≠ i → ks2.getD x 0 = ks.getD x 0 := fun x hx1 hx2 => by
        rw [hks2, getD_set_of_ne _ _ _ _ _ hx2, getD_set_of_ne _ _ _ _ _ hx1]
      have e2 : ks2.getD (i - 1) 0 = ks.getD i 0 := by
        rw [hks2, getD_set_of_ne _ _ _ _ _ (by omega),
          getD_set_eq _ _ _ _ (by omega)]
      have e3 : ks2.getD i 0 = ks.getD (i - 1) 0 := by
        rw [hks2, getD_set_eq _ _ _ _ (by rw [List.length_set]; omega)]
      obtain ⟨ks', cs', am', hrec, hl', hs', hp'⟩ := ih ks2 cs2 (i + 1) (amount + 1)
        (by rw [hks2]; simp [h1]) (by rw [hcs2]; simp [h2]) (by omega) (by omega)
        (by
          intro a b hab hb ha' hb'
          simp only [Nat.add_sub_cancel] at ha' hb'
          by_cases haX : a = i - 1
          · rw [haX, e2]
            rw [e1 b (by omega) hb']
            exact hI1 i b (by omega) hb (by omega) (by omega)
          · by_cases hbX : b = i - 1
            · rw [hbX, e2, e1 a haX (by omega)]
              exact hI1 a i (by omega) (by omega) haX (by omega)
            · rw [e1 a haX ha', e1 b hbX hb']
              exact hI1 a b hab hb haX hbX)
        (by
          intro a ha
          simp only [Nat.add_sub_cancel] at ha ⊢
          rw [e3]
          by_cases haX : a = i - 1
          · rw [haX, e2]
            exact le_of_lt hcond.2
          · rw [e1 a haX (by omega)]
            exact hI2 a (by omega))
      exact ⟨ks', cs', am', hrec, hl', hs',
        hp'.trans (set_swap_perm 0 cs (i - 1) i (by omega) (by omega))⟩
    · have hity : (decide (i < (ks.map some).length)
          && fgt ((ks.map some).getD (i - 1) fnan) ((ks.map some).getD i fnan)) ≠ true := by
        rw [List.length_map, h1]
        by_cases hil : i < len
        · rw [keys_getD ks _ (by omega), keys_getD ks _ (by omega), fgt_some]
          simp only [ne_eq, Bool.and_eq_true, decide_eq_true_eq, not_and]
          exact fun _ hc => hcond ⟨hil, hc⟩
        · simp only [ne_eq, Bool.and_eq_true, decide_eq_true_eq, not_and]
          exact fun hc => absurd hc hil
      rw [if_neg hity]
      refine ⟨ks, cs, amount, rfl, h1, ?_, List.Perm.refl _⟩
      apply chainLe_of_adjacent
      intro a ha
      rw [h1] at ha
      by_cases hb : a + 1 = i - 1
      · rw [hb]
        exact hI2 a (by omega)
      · by_cases hai : a = i - 1
        · have hil : i < len := by omega
          have hle : ¬ ks.getD i 0 < ks.getD (i - 1) 0 := fun hc => hcond ⟨hil, hc⟩
          have h5 : i - 1 + 1 = i := by omega
          rw [hai, h5]
          exact not_lt.mp hle
        · exact hI1 a (a + 1) (by omega) (by omega) hai hb

/-- One leftward bubbling pass restores sortedness when only the element
at `i+1` may be out of place downward. -/
theorem adjustLeftLoop_ok (len : ℕ) :
    ∀ (i : ℕ) (ks : List ℚ) (cs : List ℕ) (amount : ℕ),
    ks.length = len → cs.length = len → i + 1 < len →
    (∀ a b, a < b → b < len → a ≠ i + 1 → b ≠ i + 1 →
      ks.getD a 0 ≤ ks.getD b 0) →
    (∀ b, i + 1 < b → b < len → ks.getD (i + 1) 0 ≤ ks.getD b 0) →
    ∃ (ks' : List ℚ) (cs' : List ℕ) (amount' : ℕ),
      adjustLeftLoop (ks.map some) cs i amount = (ks'.map some, cs', amount') ∧
      ks'.length = len ∧ ks'.Chain' (· ≤ ·) ∧ cs'.Perm cs := by
  intro i
  induction i with
  | zero =>
    intro ks cs amount h1 h2 h3 hI1 hI2
    rw [adjustLeftLoop]
    by_cases hcond : ks.getD 1 0 < ks.getD 0 0
    · rw [if_pos (by
        rw [keys_getD ks _ (by omega), keys_getD ks _ (by omega), fgt_some]
        simpa using hcond)]
      rw [swapAt_some ks cs 0 1 (by omega) (by omega)]
      refine ⟨(ks.set 0 (ks.getD 1 0)).set 1 (ks.getD 0 0),
        (cs.set 0 (cs.getD 1 0)).set 1 (cs.getD 0 0), amount + 1, rfl,
        by simp [h1], ?_, set_swap_perm 0 cs 0 1 (by omega) (by omega)⟩
      set ks2 := (ks.set 0 (ks.getD 1 0)).set 1 (ks.getD 0 0) with hks2
      have e1 : ∀ x, x ≠ 0 → x ≠ 1 → ks2.getD x 0 = ks.getD x 0 := fun x hx1 hx2 => by
        rw [hks2, getD_set_of_ne _ _ _ _ _ hx2, getD_set_of_ne _ _ _ _ _ hx1]
      have e2 : ks2.getD 0 0 = ks.getD 1 0 := by
        rw [hks2, getD_set_of_ne _ _ _ _ _ (by omega), getD_set_eq _ _ _ _ (by omega)]
      have e3 : ks2.getD 1 0 = ks.getD 0 0 := by
        rw [hks2, getD_set_eq _ _ _ _ (by rw [List.length_set]; omega)]
      apply chainLe_of_adjacent
      intro a ha
      rw [show ks2.length = len from by rw [hks2]; simp [h1]] at ha
      match a with
      | 0 => rw [e2, e3]; exact le_of_lt hcond
      | 1 =>
        rw [e3, e1 2 (by omega) (by omega)]
        exact hI1 0 2 (by omega) (by omega) (by omega) (by omega)
      | a + 2 =>
        rw [e1 (a + 2) (by omega) (by omega), e1 (a + 3) (by omega) (by omega)]
        exact hI1 (a + 2) (a + 3) (by omega) (by omega) (by omega) (by omega)
    · rw [if_neg (by
        rw [keys_getD ks _ (by omega), keys_getD ks _ (by omega), fgt_some]
        simpa using hcond)]
      refine ⟨ks, cs, amount, rfl, h1, ?_, List.Perm.refl _⟩
      apply chainLe_of_adjacent
      intro a ha
      rw [h1] at ha
      match a with
      | 0 => exact not_lt.mp hcond
      | 1 => exact hI2 2 (by omega) (by omega)
      | a + 2 => exact hI1 (a + 2) (a + 3) (by omega) (by omega) (by omega) (by omega)
  | succ i' ih =>
    intro ks cs amount h1 h2 h3 hI1 hI2
    rw [adjustLeftLoop]
    by_cases hcond : ks.getD (i' + 2) 0 < ks.getD (i' + 1) 0
    · rw [if_pos (by
        rw [keys_getD ks _ (by omega), keys_getD ks _ (by omega), fgt_some]
        simpa using hcond)]
      rw [swapAt_some ks cs (i' + 1) (i' + 2) (by omega) (by omega)]
      set ks2 := (ks.set (i' + 1) (ks.getD (i' + 2) 0)).set (i' + 2) (ks.getD (i' + 1) 0)
        with hks2
      set cs2 := (cs.set (i' + 1) (cs.getD (i' + 2) 0)).set (i' + 2) (cs.getD (i' + 1) 0)
        with hcs2
      have e1 : ∀ x, x ≠ i' + 1 → x ≠ i' + 2 → ks2.getD x 0 = ks.getD x 0 :=
        fun x hx1 hx2 => by
          rw [hks2, getD_set_of_ne _ _ _ _ _ hx2, getD_set_of_ne _ _ _ _ _ hx1]
      have e2 : ks2.getD (i' + 1) 0 = ks.getD (i' + 2) 0 := by
        rw [hks2, getD_set_of_ne _ _ _ _ _ (by omega), getD_set_eq _ _ _ _ (by omega)]
      have e3 : ks2.getD (i' + 2) 0 = ks.getD (i' + 1) 0 := by
        rw [hks2, getD_set_eq _ _ _ _ (by rw [List.length_set]; omega)]
      obtain ⟨ks', cs', am', hrec, hl', hs', hp'⟩ := ih ks2 cs2 (amount + 1)
        (by rw [hks2]; simp [h1]) (by rw [hcs2]; simp [h2]) (by omega)
        (by
          intro a b hab hb ha' hb'
          by_cases haX : a = i' + 2
          · rw [haX, e3, e1 b (by omega) (by omega)]
            exact hI1 (i' + 1) b (by omega) hb (by omega) (by omega)
          · by_cases hbX : b = i' + 2
            · rw [hbX, e3, e1 a ha' haX]
              exact hI1 a (i' + 1) (by omega) (by omega) (by omega) (by omega)
            · rw [e1 a ha' haX, e1 b hb' hbX]
              exact hI1 a b hab hb (by omega) (by omega))
        (by
          intro b hb1 hb2
          rw [e2]
          by_cases hbX : b = i' + 2
          · rw [hbX, e3]
            exact le_of_lt hcond
          · rw [e1 b (by omega) hbX]
            exact hI2 b (by omega) hb2)
      exact ⟨ks', cs', am', hrec, hl', hs',
        hp'.trans (set_swap_perm 0 cs (i' + 1) (i' + 2) (by omega) (by omega))⟩
    · rw [if_neg (by
        rw [keys_getD ks _ (by omega), keys_getD ks _ (by omega), fgt_some]
        simpa using hcond)]
      refine ⟨ks, cs, amount, rfl, h1, ?_, List.Perm.refl _⟩
      apply chainLe_of_adjacent
      intro a ha
      rw [h1] at ha
      by_cases ha1 : a = i' + 1
      · rw [ha1]
        exact not_lt.mp hcond
      · by_cases ha2 : a = i' + 2
        · rw [ha2]
          exact hI2 (i' + 3) (by omega) (by omega)
        · exact hI1 a (a + 1) (by omega) (by omega) (by omega) (by omega)

/-- `updateAt` on a well-formed store with a finite mean keeps the keys
finite and sorted; the counts end up a permutation of the pointwise
update. -/
theorem updateAt_ok (s : Summary) (ks : List ℚ) (hk : s.keys = ks.map some)
    (hs : ks.Chain' (· ≤ ·)) (hlen : s.counts.length = ks.length)
    (index : ℕ) (hidx : index < ks.length) (v : ℚ) (w : ℕ) :
    ∃ (ks2 : List ℚ) (cs2 : List ℕ),
      (updateAt s index (some v) w).keys = ks2.map some ∧
      (updateAt s index (some v) w).counts = cs2 ∧
      ks2.Chain' (· ≤ ·) ∧ ks2.length = ks.length ∧
      cs2.Perm (s.counts.set index (add32 (s.counts.getD index 0) w)) := by
  have hkey : s.keys.getD index fnan = some (ks.getD index 0) := by
    rw [hk]
    exact keys_getD ks index hidx
  set ko := ks.getD index 0 with hko
  set oc := s.counts.getD index 0 with hoc
  set μ := Rat.add ko (Rat.div (Rat.mul (nq w) (Rat.sub v ko)) (nq (add32 oc w))) with hμ
  have hred : updateAt s index (some v) w =
      (if fgt (some μ) (some ko) then
        adjustRight ⟨s.keys.set index (some μ), s.counts.set index (add32 oc w),
          fenAdd s.fen index (sub32 (add32 oc w) oc)⟩ index
      else if flt (some μ) (some ko) then
        adjustLeft ⟨s.keys.set index (some μ), s.counts.set index (add32 oc w),
          fenAdd s.fen index (sub32 (add32 oc w) oc)⟩ index
      else ⟨s.keys.set index (some μ), s.counts.set index (add32 oc w),
          fenAdd s.fen index (sub32 (add32 oc w) oc)⟩) := by
    simp only [updateAt, hkey]
    rfl
  have hsetkeys : s.keys.set index (some μ) = (ks.set index μ).map some := by
    rw [hk, List.map_set]
  have hsetlen : (ks.set index μ).length = ks.length := by simp
  have hget_ne : ∀ x, x ≠ index → (ks.set index μ).getD x 0 = ks.getD x 0 :=
    fun x hx => getD_set_of_ne _ _ _ _ _ hx
  have hget_eq : (ks.set index μ).getD index 0 = μ := getD_set_eq _ _ _ _ hidx
  rw [hred]
  rcases lt_trichotomy ko μ with hcmp | hcmp | hcmp
  · rw [if_pos (by rw [fgt_some]; simpa using hcmp)]
    obtain ⟨ks', cs', am', hloop, hl', hs', hp'⟩ :=
      adjustRightLoop_ok ks.length ((ks.set index μ).length)
        (ks.set index μ) (s.counts.set index (add32 oc w)) (index + 1) 0
        hsetlen (by simp [hlen]) (by omega) (by omega)
        (by
          intro a b hab hb ha' hb'
          simp only [Nat.add_sub_cancel] at ha' hb'
          rw [hget_ne a ha', hget_ne b hb']
          exact chainLe_getD_le ks hs (by omega) hb)
        (by
          intro a ha
          simp only [Nat.add_sub_cancel] at ha ⊢
          rw [hget_ne a (by omega), hget_eq]
          exact le_of_lt (lt_of_le_of_lt (chainLe_getD_le ks hs (by omega) hidx) hcmp))
    refine ⟨ks', cs', ?_, ?_, hs', by omega, hp'⟩
    · show (adjustRight ⟨s.keys.set index (some μ), _, _⟩ index).keys = _
      simp only [adjustRight, hsetkeys]
      rw [show ((ks.set index μ).map some).length = (ks.set index μ).length from by simp,
        hloop]
    · show (adjustRight ⟨s.keys.set index (some μ), _, _⟩ index).counts = _
      simp only [adjustRight, hsetkeys]
      rw [show ((ks.set index μ).map some).length = (ks.set index μ).length from by simp,
        hloop]
  · rw [if_neg (by rw [fgt_some]; simp [hcmp]), if_neg (by rw [flt]; simp [hcmp])]
    refine ⟨ks.set index μ, s.counts.set index (add32 oc w), hsetkeys, rfl, ?_,
      hsetlen, List.Perm.refl _⟩
    apply chainLe_of_adjacent
    intro a ha
    rw [hsetlen] at ha
    have hval : ∀ x, x < ks.length → (ks.set index μ).getD x 0 = ks.getD x 0 := by
      intro x hx
      by_cases hxi : x = index
      · rw [hxi, hget_eq, ← hcmp]
      · exact hget_ne x hxi
    rw [hval a (by omega), hval (a + 1) (by omega)]
    exact chainLe_getD_le ks hs (by omega) (by omega)
  · rw [if_neg (by rw [fgt_some]; simp [not_lt.mpr (le_of_lt hcmp)]),
      if_pos (by rw [flt]; simpa using hcmp)]
    by_cases hi0 : index = 0
    · rw [show adjustLeft ⟨s.keys.set index (some μ), s.counts.set index (add32 oc w),
          fenAdd s.fen index (sub32 (add32 oc w) oc)⟩ index
        = ⟨s.keys.set index (some μ), s.counts.set index (add32 oc w),
          fenAdd s.fen index (sub32 (add32 oc w) oc)⟩ from by
        rw [adjustLeft, if_pos hi0]]
      refine ⟨ks.set index μ, s.counts.set index (add32 oc w), hsetkeys, rfl, ?_,
        hsetlen, List.Perm.refl _⟩
      apply chainLe_of_adjacent
      intro a ha
      rw [hsetlen] at ha
      subst hi0
      match a with
      | 0 =>
        rw [hget_eq, hget_ne 1 (by omega)]
        exact le_of_lt (lt_of_lt_of_le hcmp (chainLe_getD_le ks hs (by omega) (by omega)))
      | a + 1 =>
        rw [hget_ne (a + 1) (by omega), hget_ne (a + 2) (by omega)]
        exact chainLe_getD_le ks hs (by omega) (by omega)
    · rw [show adjustLeft ⟨s.keys.set index (some μ), s.counts.set index (add32 oc w),
          fenAdd s.fen index (sub32 (add32 oc w) oc)⟩ index
        = (let r := adjustLeftLoop (s.keys.set index (some μ))
            (s.counts.set index (add32 oc w)) (index - 1) 0
           (⟨r.1, r.2.1, (List.range r.2.2).foldl
             (fun f k => fenSet f (index - k - 1) (r.2.1.getD (index - k - 1) 0))
             (fenAdd s.fen index (sub32 (add32 oc w) oc))⟩ : Summary)) from by
        rw [adjustLeft, if_neg hi0]]
      obtain ⟨ks', cs', am', hloop, hl', hs', hp'⟩ :=
        adjustLeftLoop_ok ks.length (index - 1)
          (ks.set index μ) (s.counts.set index (add32 oc w)) 0
          hsetlen (by simp [hlen]) (by omega)
          (by
            intro a b hab hb ha' hb'
            rw [show index - 1 + 1 = index from by omega] at ha' hb'
            rw [hget_ne a ha', hget_ne b hb']
            exact chainLe_getD_le ks hs (by omega) hb)
          (by
            intro b hb1 hb2
            rw [show index - 1 + 1 = index from by omega] at hb1 ⊢
            rw [hget_eq, hget_ne b (by omega)]
            exact le_of_lt (lt_of_lt_of_le hcmp (chainLe_getD_le ks hs (by omega) hb2)))
      rw [hsetkeys]
      refine ⟨ks', cs', ?_, ?_, hs', by omega, hp'⟩
      · show (let r := adjustLeftLoop ((ks.set index μ).map some) _ (index - 1) 0
            (⟨r.1, r.2.1, _⟩ : Summary)).keys = _
        rw [hloop]
      · show (let r := adjustLeftLoop ((ks.set index μ).map some) _ (index - 1) 0
            (⟨r.1, r.2.1, _⟩ : Summary)).counts = _
        rw [hloop]

theorem set_append_cons {α : Type} (A : List α) (B : List α) (e y : α) :
    (A ++ e :: B).set A.length y = A ++ y :: B := by
  induction A with
  | nil => simp
  | cons a A ih => simp [ih]

/-- The Go `append`+`copy` shift followed by the overwrite at `idx` is a
plain insertion. -/
theorem shiftIns_set {α : Type} (l : List α) (idx : ℕ) (z y : α) (h : idx ≤ l.length) :
    (shiftIns l idx z).set idx y = l.take idx ++ y :: l.drop idx := by
  have hchar : ∃ e, shiftIns l idx z = l.take idx ++ e :: l.drop idx := by
    rcases lt_or_eq_of_le h with h1 | h1
    · refine ⟨l[idx], ?_⟩
      simp only [shiftIns]
      rw [List.take_append_of_le_length (by omega), List.take_succ,
        List.drop_append_of_le_length (by omega),
        List.take_append_of_le_length (by rw [List.length_drop]),
        show l.length - idx = (l.drop idx).length from by rw [List.length_drop],
        List.take_length, List.getElem?_eq_getElem h1]
      rw [show (some l[idx]).toList = [l[idx]] from rfl, List.append_assoc]
      rfl
    · subst h1
      refine ⟨z, ?_⟩
      simp only [shiftIns]
      rw [Nat.sub_self, List.take_zero, List.append_nil,
        List.take_of_length_le (by simp), List.take_length, List.drop_length]
  obtain ⟨e, he⟩ := hchar
  have hlen2 : (l.take idx).length = idx := by rw [List.length_take]; omega
  rw [he]
  calc (l.take idx ++ e :: l.drop idx).set idx y
      = (l.take idx ++ e :: l.drop idx).set (l.take idx).length y := by rw [hlen2]
    _ = l.take idx ++ y :: l.drop idx := set_append_cons _ _ _ _

theorem getD_ins (ks : List ℚ) (idx : ℕ) (v : ℚ) (hidx : idx ≤ ks.length) (x : ℕ) :
    (ks.take idx ++ v :: ks.drop idx).getD x 0
      = if x < idx then ks.getD x 0 else if x = idx then v else ks.getD (x - 1) 0 := by
  have hlt : (ks.take idx).length = idx := by rw [List.length_take]; omega
  rw [List.getD_eq_getElem?_getD, List.getElem?_append]
  rw [hlt]
  by_cases h1 : x < idx
  · rw [if_pos h1, if_pos h1, List.getElem?_take, if_pos h1,
      ← List.getD_eq_getElem?_getD]
  · rw [if_neg h1, if_neg h1]
    by_cases h2 : x = idx
    · rw [if_pos h2, h2, Nat.sub_self]
      simp
    · rw [if_neg h2]
      have hx : x - idx = (x - idx - 1) + 1 := by omega
      rw [hx, List.getElem?_cons_succ, List.getElem?_drop,
        show idx + (x - idx - 1) = x - 1 from by omega,
        ← List.getD_eq_getElem?_getD]

/-- Inserting at the binary-search position keeps the store sorted. -/
theorem ins_sorted (ks : List ℚ) (hs : ks.Chain' (· ≤ ·)) (idx : ℕ) (v : ℚ)
    (hidx : idx ≤ ks.length)
    (hlo : ∀ k, k < idx → ks.getD k 0 < v)
    (hhi : ∀ k, idx ≤ k → k < ks.length → v ≤ ks.getD k 0) :
    (ks.take idx ++ v :: ks.drop idx).Chain' (· ≤ ·) := by
  apply chainLe_of_adjacent
  intro a ha
  have hlen : (ks.take idx ++ v :: ks.drop idx).length = ks.length + 1 := by
    simp [List.length_take, List.length_drop]
    omega
  rw [hlen] at ha
  rw [getD_ins ks idx v hidx a, getD_ins ks idx v hidx (a + 1)]
  by_cases c1 : a + 1 < idx
  · rw [if_pos (by omega), if_pos c1]
    exact chainLe_getD_le ks hs (by omega) (by omega)
  · by_cases c2 : a + 1 = idx
    · rw [if_pos (by omega), if_neg c1, if_pos c2]
      exact le_of_lt (hlo a (by omega))
    · rw [if_neg (by omega), if_neg c1, if_neg c2]
      by_cases c3 : a = idx
      · rw [if_pos c3]
        have hsub : a + 1 - 1 = a := by omega
        rw [hsub]
        exact hhi a (by omega) (by omega)
      · rw [if_neg c3]
        have hsub : a + 1 - 1 = a := by omega
        rw [hsub]
        exact chainLe_getD_le ks hs (by omega) (by omega)

/-- `summary.Add` with a finite key and positive weight succeeds and
keeps the store well-formed, adding exactly `w` to the stored mass. -/
theorem summaryAdd_ok (s : Summary) (ks : List ℚ) (hk : s.keys = ks.map some)
    (hs : ks.Chain' (· ≤ ·)) (hlen : s.counts.length = ks.length)
    (hpos : ∀ c ∈ s.counts, 1 ≤ c)
    (v : ℚ) (w : ℕ) (hw : 1 ≤ w) (hmass : s.counts.sum + w < M32) :
    ∃ (s2 : Summary) (ks2 : List ℚ),
      summaryAdd s (some v) w = .ok s2 ∧
      s2.keys = ks2.map some ∧ ks2.Chain' (· ≤ ·) ∧
      s2.counts.length = ks2.length ∧
      ks.length ≤ ks2.length ∧ ks2.length ≤ ks.length + 1 ∧
      s2.counts.sum = s.counts.sum + w ∧ (∀ c ∈ s2.counts, 1 ≤ c) := by
  obtain ⟨hb1, hb2, hb3⟩ := sFindIndexW ks hs v
  have hkl : s.keys.length = ks.length := by rw [hk, List.length_map]
  have hidxeq : sFindIndex s.keys (some v) = sFindIndex (ks.map some) (some v) := by
    rw [hk]
  rw [summaryAdd]
  rw [if_neg (by rw [show fIsNaN (some v) = false from rfl]; simp),
    if_neg (by omega)]
  by_cases hmerge : meanAtIndexIs s.keys (sFindIndex s.keys (some v)) (some v) = true
  · have hidx2 : sFindIndex s.keys (some v) < ks.length ∧
        ks.getD (sFindIndex s.keys (some v)) 0 = v := by
      rw [meanAtIndexIs, Bool.and_eq_true, decide_eq_true_eq] at hmerge
      obtain ⟨hm1, hm2⟩ := hmerge
      rw [hkl] at hm1
      refine ⟨hm1, ?_⟩
      rw [hk] at hm2
      rw [keys_getD ks _ (hidxeq ▸ hm1)] at hm2
      rw [show feq (some (ks.getD (sFindIndex (ks.map some) (some v)) 0)) (some v)
          = decide (ks.getD (sFindIndex (ks.map some) (some v)) 0 = v) from rfl,
        decide_eq_true_eq] at hm2
      rw [hidxeq]
      exact hm2
    rw [if_pos hmerge]
    obtain ⟨ks2, cs2, hK, hC, hS2, hL2, hP2⟩ :=
      updateAt_ok s ks hk hs hlen (sFindIndex s.keys (some v)) hidx2.1 v w
    set idx := sFindIndex s.keys (some v)
    set oc := s.counts.getD idx 0 with hoc
    have hocmem : oc ∈ s.counts := by
      rw [hoc, List.getD_eq_getElem s.counts 0 (by omega : idx < s.counts.length)]
      exact List.getElem_mem _
    have hocle : oc ≤ s.counts.sum :=
      List.single_le_sum (fun x _ => Nat.zero_le x) _ hocmem
    have hadd : add32 oc w = oc + w := by
      rw [add32]
      exact Nat.mod_eq_of_lt (by omega)
    have hsum := sum_set_nat s.counts idx (add32 oc w) (by omega)
    refine ⟨updateAt s idx (some v) w, ks2, rfl, hK, hS2, ?_, by omega, by omega, ?_, ?_⟩
    · rw [hC, hP2.length_eq, List.length_set, hlen, hL2]
    · rw [hC, hP2.sum_eq]
      omega
    · intro c hc
      rw [hC] at hc
      rcases List.mem_or_eq_of_mem_set (hP2.mem_iff.mp hc) with h | h
      · exact hpos c h
      · omega
  · rw [if_neg hmerge]
    have hkeyset : (shiftIns s.keys (sFindIndex s.keys (some v)) (some 0)).set
        (sFindIndex s.keys (some v)) (some v)
        = (ks.take (sFindIndex s.keys (some v)) ++ v ::
            ks.drop (sFindIndex s.keys (some v))).map some := by
      rw [shiftIns_set _ _ _ _ (by rw [hkl]; rw [hidxeq]; exact hb1), hk,
        List.map_append, List.map_cons, List.map_take, List.map_drop]
    have hcntset : (shiftIns s.counts (sFindIndex s.keys (some v)) 0).set
        (sFindIndex s.keys (some v)) w
        = s.counts.take (sFindIndex s.keys (some v)) ++ w ::
            s.counts.drop (sFindIndex s.keys (some v)) := by
      rw [shiftIns_set _ _ _ _ (by rw [hlen]; rw [hidxeq]; exact hb1)]
    set idx := sFindIndex s.keys (some v)
    refine ⟨_, ks.take idx ++ v :: ks.drop idx, rfl, ?_, ?_, ?_, ?_, ?_, ?_, ?_⟩
    · exact hkeyset
    · exact ins_sorted ks hs idx v (hidxeq ▸ hb1) (fun k hkk => hb2 k (hidxeq ▸ hkk))
        (fun k hk1 hk2 => hb3 k (hidxeq ▸ hk1) hk2)
    · show ((shiftIns s.counts idx 0).set idx w).length = _
      rw [hcntset]
      simp only [List.length_append, List.length_cons, List.length_take,
        List.length_drop, List.length_drop]
      have : idx ≤ ks.length := hidxeq ▸ hb1
      omega
    · show ks.length ≤ (ks.take idx ++ v :: ks.drop idx).length
      simp only [List.length_append, List.length_cons, List.length_take,
        List.length_drop]
      omega
    · show (ks.take idx ++ v :: ks.drop idx).length ≤ ks.length + 1
      simp only [List.length_append, List.length_cons, List.length_take,
        List.length_drop]
      omega
    · show ((shiftIns s.counts idx 0).set idx w).sum = _
      rw [hcntset, List.sum_append, List.sum_cons]
      have := List.sum_take_add_sum_drop s.counts idx
      omega
    · intro c hc
      rw [show ((⟨(shiftIns s.keys idx (some 0)).set idx (some v),
          (shiftIns s.counts idx 0).set idx w, _⟩ : Summary)).counts
        = (shiftIns s.counts idx 0).set idx w from rfl, hcntset] at hc
      rcases List.mem_append.mp hc with h | h
      · exact hpos c ((List.take_sublist _ _).mem h)
      · rcases List.mem_cons.mp h with h | h
        · omega
        · exact hpos c ((List.drop_sublist _ _).mem h)

theorem map_eraseIdx_some (ks : List ℚ) (i : ℕ) :
    (ks.map some).eraseIdx i = (ks.eraseIdx i).map some := by
  induction ks generalizing i with
  | nil => simp
  | cons k t ih =>
    cases i with
    | zero => simp
    | succ j => simp [List.eraseIdx_cons_succ, ih]

theorem getD_mem_nat (l : List ℕ) (i : ℕ) (h : i < l.length) : l.getD i 0 ∈ l := by
  rw [List.getD_eq_getElem l 0 h]
  exact List.getElem_mem _

theorem chain_eraseIdx (ks : List ℚ) (hs : ks.Chain' (· ≤ ·)) (i : ℕ) :
    (ks.eraseIdx i).Chain' (· ≤ ·) := by
  rw [List.chain'_iff_pairwise] at hs ⊢
  exact hs.sublist (List.eraseIdx_sublist ks i)

/-- Re-adding a centroid at its own mean only bumps the count. -/
theorem centroidUpdate_same_mean (v : ℚ) (cnt : ℕ) (ix : ℤ) (w : ℕ) :
    centroidUpdate ⟨some v, cnt, ix⟩ (some v) w = ⟨some v, add32 cnt w, ix⟩ := by
  simp only [centroidUpdate]
  have : Rat.add v (Rat.div (Rat.mul (nq w) (Rat.sub v v)) (nq (add32 cnt w))) = v := by
    rw [ratSub_eq, sub_self, ratMul_eq, mul_zero, ratDiv_eq, zero_div, ratAdd_eq,
      add_zero]
  show Centroid.mk (some (Rat.add v (Rat.div (Rat.mul (nq w) (Rat.sub v v))
      (nq (add32 cnt w))))) (add32 cnt w) ix = _
  rw [this]

/-- `sRemove` of a present key: the removed centroid and the erased store. -/
theorem sRemove_found (s : Summary) (v : ℚ)
    (hfound : meanAtIndexIs s.keys (sFindIndex s.keys (some v)) (some v) = true) :
    ∃ fenX, sRemove s (some v)
      = (⟨s.keys.getD (sFindIndex s.keys (some v)) fnan,
          s.counts.getD (sFindIndex s.keys (some v)) 0,
          (sFindIndex s.keys (some v) : ℤ)⟩,
         ⟨s.keys.eraseIdx (sFindIndex s.keys (some v)),
          s.counts.eraseIdx (sFindIndex s.keys (some v)), fenX⟩) := by
  refine ⟨(List.range ((s.keys.eraseIdx (sFindIndex s.keys (some v))).length
      - sFindIndex s.keys (some v))).foldl
    (fun f k => fenSet f (sFindIndex s.keys (some v) + k)
      ((s.counts.eraseIdx (sFindIndex s.keys (some v))).getD
        (sFindIndex s.keys (some v) + k) 0)) s.fen, ?_⟩
  simp only [sRemove]
  rw [if_pos hfound]

/-- `addCentroid` with a finite mean and positive in-range weight never
panics, keeps the store well-formed and adds exactly `w` to the mass. -/
theorem addCentroid_ok (t : TDigest) (ks : List ℚ)
    (hk : t.summary.keys = ks.map some) (hs : ks.Chain' (· ≤ ·))
    (hlen : t.summary.counts.length = ks.length)
    (hpos : ∀ c ∈ t.summary.counts, 1 ≤ c)
    (v : ℚ) (w : ℕ) (hw : 1 ≤ w)
    (hmass : t.summary.counts.sum + w < M32) :
    ∃ (ks2 : List ℚ),
      (addCentroid t (some v) w).summary.keys = ks2.map some ∧
      ks2.Chain' (· ≤ ·) ∧
      (addCentroid t (some v) w).summary.counts.length = ks2.length ∧
      ks2.length ≤ ks.length + 1 ∧
      (addCentroid t (some v) w).summary.counts.sum = t.summary.counts.sum + w ∧
      (∀ c ∈ (addCentroid t (some v) w).summary.counts, 1 ≤ c) ∧
      (addCentroid t (some v) w).compression = t.compression ∧
      (addCentroid t (some v) w).count = t.count := by
  have hkl : t.summary.keys.length = ks.length := by rw [hk, List.length_map]
  by_cases hfound : meanAtIndexIs t.summary.keys
      (sFindIndex t.summary.keys (some v)) (some v) = true
  · have hparts := hfound
    rw [meanAtIndexIs, Bool.and_eq_true, decide_eq_true_eq] at hparts
    obtain ⟨hm1, hm2⟩ := hparts
    rw [hkl] at hm1
    have hkey : t.summary.keys.getD (sFindIndex t.summary.keys (some v)) fnan
        = some (ks.getD (sFindIndex t.summary.keys (some v)) 0) := by
      rw [hk]
      have hm1' : sFindIndex (ks.map some) (some v) < ks.length := by
        rw [← hk]
        exact hm1
      exact keys_getD ks (sFindIndex (ks.map some) (some v)) hm1'
    have hv : ks.getD (sFindIndex t.summary.keys (some v)) 0 = v := by
      rw [hkey] at hm2
      rw [show feq (some (ks.getD (sFindIndex t.summary.keys (some v)) 0)) (some v)
          = decide (ks.getD (sFindIndex t.summary.keys (some v)) 0 = v) from rfl,
        decide_eq_true_eq] at hm2
      exact hm2
    set idx := sFindIndex t.summary.keys (some v) with hidxd
    set cnt := t.summary.counts.getD idx 0 with hcntd
    have hcnt1 : 1 ≤ cnt := hpos _ (getD_mem_nat _ _ (by omega))
    have hcntle : cnt ≤ t.summary.counts.sum :=
      List.single_le_sum (fun x _ => Nat.zero_le x) _
        (getD_mem_nat _ _ (by omega))
    have hadd : add32 cnt w = cnt + w := by
      rw [add32]
      exact Nat.mod_eq_of_lt (by omega)
    have hcond : (decide (idx < sLen t.summary)
        && feq (t.summary.keys.getD idx fnan) (some v)) = true := hfound
    have hsfind : sFind t.summary (some v) = ⟨some v, cnt, (idx : ℤ)⟩ := by
      simp only [sFind]
      rw [if_pos hcond]
    have hvalid : (⟨some v, cnt, (idx : ℤ)⟩ : Centroid).isValid = true := by
      simp only [Centroid.isValid, fIsNaN, Bool.not_false, Bool.true_and,
        decide_eq_true_eq]
      omega
    obtain ⟨fenX, hrem⟩ := sRemove_found t.summary v hfound
    obtain ⟨s2, ks2, hok, hK2, hS2, hL2, _, hU2, hM2, hP2⟩ :=
      summaryAdd_ok ⟨t.summary.keys.eraseIdx idx, t.summary.counts.eraseIdx idx, fenX⟩
        (ks.eraseIdx idx)
        (by
          show t.summary.keys.eraseIdx idx = _
          rw [hk, map_eraseIdx_some])
        (chain_eraseIdx ks hs idx)
        (by
          show (t.summary.counts.eraseIdx idx).length = (ks.eraseIdx idx).length
          rw [List.length_eraseIdx, List.length_eraseIdx, hlen])
        (fun c hc => hpos c ((List.eraseIdx_sublist _ _).mem hc))
        v (add32 cnt w) (by omega)
        (by
          have := sum_eraseIdx_nat t.summary.counts idx (by omega)
          show (t.summary.counts.eraseIdx idx).sum + add32 cnt w < M32
          omega)
    have hM2' : s2.counts.sum = (t.summary.counts.eraseIdx idx).sum + add32 cnt w := hM2
    have hred : addCentroid t (some v) w = { t with summary := s2 } := by
      simp only [addCentroid, hsfind]
      rw [if_pos hvalid]
      have hfst : (sRemove t.summary (some v)).1
          = ⟨t.summary.keys.getD idx fnan, cnt, (idx : ℤ)⟩ := by rw [hrem]
      have hsnd : (sRemove t.summary (some v)).2
          = ⟨t.summary.keys.eraseIdx idx, t.summary.counts.eraseIdx idx, fenX⟩ := by
        rw [hrem]
      rw [hfst, hsnd, hkey, hv, centroidUpdate_same_mean]
      rw [show (⟨some v, add32 cnt w, (idx : ℤ)⟩ : Centroid).mean = some v from rfl,
        show (⟨some v, add32 cnt w, (idx : ℤ)⟩ : Centroid).count = add32 cnt w from rfl]
      rw [hok]
    rw [hred]
    have hsum1 := sum_eraseIdx_nat t.summary.counts idx (by omega)
    have hle1 : (ks.eraseIdx idx).length = ks.length - 1 := by
      rw [List.length_eraseIdx, if_pos (by omega)]
    refine ⟨ks2, hK2, hS2, hL2, by omega, ?_, hP2, rfl, rfl⟩
    show s2.counts.sum = _
    rw [hM2']
    omega
  · have hcond : ¬ (decide (sFindIndex t.summary.keys (some v) < sLen t.summary)
        && feq (t.summary.keys.getD (sFindIndex t.summary.keys (some v)) fnan)
          (some v)) = true := hfound
    have hsfind : sFind t.summary (some v) = invalidCentroid := by
      simp only [sFind]
      rw [if_neg hcond]
    obtain ⟨s2, ks2, hok, hK2, hS2, hL2, _, hU2, hM2, hP2⟩ :=
      summaryAdd_ok t.summary ks hk hs hlen hpos v w hw hmass
    have hred : addCentroid t (some v) w = { t with summary := s2 } := by
      simp only [addCentroid, hsfind]
      rw [if_neg (by rw [show invalidCentroid.isValid = false from rfl]; simp)]
      show (match summaryAdd t.summary (some v) w with
        | .ok s2 => { t with summary := s2 }
        | .error _ => t) = _
      rw [hok]
    rw [hred]
    exact ⟨ks2, hK2, hS2, hL2, by omega, hM2, hP2, rfl, rfl⟩

theorem sAt_valid (s : Summary) (ks : List ℚ) (hk : s.keys = ks.map some)
    (hlen : s.counts.length = ks.length) (hpos : ∀ c ∈ s.counts, 1 ≤ c)
    (n : ℕ) (hn : n < ks.length) : (sAt s (n : ℤ)).isValid = true := by
  rw [sAt_in_range s ks hk n hn]
  simp only [Centroid.isValid, fIsNaN, Bool.not_false, Bool.true_and,
    decide_eq_true_eq]
  exact hpos _ (getD_mem_nat _ _ (by omega))

theorem invalid_not_valid : invalidCentroid.isValid = false := rfl

/-- `findNearestCentroids` on a nonempty well-formed store with a finite
probe returns a nonempty list of stored centroids (never the panic). -/
theorem findNearestCentroids_ok (s : Summary) (ks : List ℚ)
    (hk : s.keys = ks.map some) (hs : ks.Chain' (· ≤ ·))
    (hlen : s.counts.length = ks.length) (hpos : ∀ c ∈ s.counts, 1 ≤ c)
    (hne : 0 < ks.length) (v : ℚ) :
    ∃ cands : List Centroid,
      findNearestCentroids s (some v) = .ok cands ∧ cands ≠ [] ∧
      ∀ c ∈ cands, ∃ p, p < ks.length ∧ c.mean = some (ks.getD p 0)
        ∧ c.count = s.counts.getD p 0 := by
  have hkl : s.keys.length = ks.length := by rw [hk, List.length_map]
  have hsl : sLen s = ks.length := by rw [sLen, hkl]
  have hidxeq : sFindIndex s.keys (some v) = sFindIndex (ks.map some) (some v) := by
    rw [hk]
  obtain ⟨hb1, hb2, hb3⟩ := sFindIndexW ks hs v
  set idx := sFindIndex s.keys (some v) with hidxd
  have hmax : sMax s = sAt s ((ks.length - 1 : ℕ) : ℤ) := by
    rw [sMax, hkl, show (ks.length : ℤ) - 1 = ((ks.length - 1 : ℕ) : ℤ) from by
      push_cast [hne]; omega]
  have hmin : sMin s = sAt s ((0 : ℕ) : ℤ) := rfl
  by_cases hcase1 : idx = sLen s
  · have hCF : ceilingAndFloor s (some v) = (invalidCentroid, sMax s) := by
      simp only [ceilingAndFloor]
      rw [if_pos hcase1]
    rw [findNearestCentroids, hCF]
    dsimp only
    have hfv : (sMax s).isValid = true := by
      rw [hmax]
      exact sAt_valid s ks hk hlen hpos _ (by omega)
    rw [show (!invalidCentroid.isValid && !(sMax s).isValid) = false from by
      rw [hfv, invalid_not_valid]; rfl]
    rw [if_neg (by simp), if_pos (by rw [invalid_not_valid]; rfl)]
    refine ⟨[sMax s], rfl, by simp, ?_⟩
    intro c hc
    rw [List.mem_singleton] at hc
    subst hc
    rw [hmax, sAt_in_range s ks hk _ (by omega)]
    exact ⟨ks.length - 1, by omega, rfl, rfl⟩
  · have hidxlt : idx < ks.length := by
      rw [hsl] at hcase1
      omega
    have hitem : sAt s (idx : ℤ) = ⟨some (ks.getD idx 0), s.counts.getD idx 0, (idx : ℤ)⟩ :=
      sAt_in_range s ks hk idx hidxlt
    have hitemv : (sAt s (idx : ℤ)).isValid = true :=
      sAt_valid s ks hk hlen hpos idx hidxlt
    by_cases hcase2 : (feq (some v) (sAt s (idx : ℤ)).mean) = true
    · have hCF : ceilingAndFloor s (some v) = (sAt s (idx : ℤ), sAt s (idx : ℤ)) := by
        simp only [ceilingAndFloor]
        rw [if_neg hcase1, if_pos (by rw [hitemv, hcase2]; rfl)]
      rw [findNearestCentroids, hCF]
      dsimp only
      rw [show (!(sAt s (idx : ℤ)).isValid && !(sAt s (idx : ℤ)).isValid) = false from by
        rw [hitemv]; rfl]
      rw [if_neg (by simp), if_neg (by rw [hitemv]; simp), if_neg (by rw [hitemv]; simp)]
      have habs : flt (fabs (fsub (sAt s (idx : ℤ)).mean (some v)))
          (fabs (fsub (sAt s (idx : ℤ)).mean (some v))) = false := by
        rw [hitem]
        show flt (fabs (some (Rat.sub (ks.getD idx 0) v)))
          (fabs (some (Rat.sub (ks.getD idx 0) v))) = false
        rw [show fabs (some (Rat.sub (ks.getD idx 0) v))
            = some (if decide (Rat.sub (ks.getD idx 0) v < 0)
              then Rat.neg (Rat.sub (ks.getD idx 0) v)
              else Rat.sub (ks.getD idx 0) v) from rfl]
        rw [flt]
        simp
      rw [if_neg (by rw [habs]; simp)]
      have hfeqself : feq (sAt s (idx : ℤ)).mean (sAt s (idx : ℤ)).mean = true := by
        rw [hitem]
        show feq (some (ks.getD idx 0)) (some (ks.getD idx 0)) = true
        rw [feq]
        simp
      rw [if_neg (by rw [hfeqself]; simp)]
      refine ⟨[sAt s (idx : ℤ)], rfl, by simp, ?_⟩
      intro c hc
      rw [List.mem_singleton] at hc
      subst hc
      rw [hitem]
      exact ⟨idx, hidxlt, rfl, rfl⟩
    · have hfeqf : feq (some v) (sAt s (idx : ℤ)).mean = false := by
        cases hE : feq (some v) (sAt s (idx : ℤ)).mean
        · rfl
        · exact absurd hE hcase2
      by_cases hcase3 : idx = 0
      · have hCF : ceilingAndFloor s (some v) = (sMin s, invalidCentroid) := by
          simp only [ceilingAndFloor]
          rw [if_neg hcase1, if_neg (by rw [hitemv, hfeqf]; simp), if_pos hcase3]
        have hminv : (sMin s).isValid = true := by
          rw [hmin]
          exact sAt_valid s ks hk hlen hpos 0 (by omega)
        rw [findNearestCentroids, hCF]
        dsimp only
        rw [show (!(sMin s).isValid && !invalidCentroid.isValid) = false from by
          rw [hminv]; rfl]
        rw [if_neg (by simp), if_neg (by rw [hminv]; simp),
          if_pos (by rw [invalid_not_valid]; rfl)]
        refine ⟨[sMin s], rfl, by simp, ?_⟩
        intro c hc
        rw [List.mem_singleton] at hc
        subst hc
        rw [hmin, sAt_in_range s ks hk 0 (by omega)]
        exact ⟨0, by omega, rfl, rfl⟩
      · have hprev : sAt s ((idx : ℤ) - 1) = sAt s ((idx - 1 : ℕ) : ℤ) := by
          rw [show (idx : ℤ) - 1 = ((idx - 1 : ℕ) : ℤ) from by push_cast [hcase3]; omega]
        have hprevv : (sAt s ((idx : ℤ) - 1)).isValid = true := by
          rw [hprev]
          exact sAt_valid s ks hk hlen hpos _ (by omega)
        have hCF : ceilingAndFloor s (some v) = (sAt s (idx : ℤ), sAt s ((idx : ℤ) - 1)) := by
          simp only [ceilingAndFloor]
          rw [if_neg hcase1, if_neg (by rw [hitemv, hfeqf]; simp), if_neg hcase3]
        rw [findNearestCentroids, hCF]
        dsimp only
        rw [show (!(sAt s (idx : ℤ)).isValid && !(sAt s ((idx : ℤ) - 1)).isValid) = false
          from by rw [hitemv]; rfl]
        rw [if_neg (by simp), if_neg (by rw [hitemv]; simp),
          if_neg (by rw [hprevv]; simp)]
        have hmemC : ∀ c ∈ [sAt s (idx : ℤ)], ∃ p, p < ks.length ∧
            c.mean = some (ks.getD p 0) ∧ c.count = s.counts.getD p 0 := by
          intro c hc
          rw [List.mem_singleton] at hc
          subst hc
          rw [hitem]
          exact ⟨idx, hidxlt, rfl, rfl⟩
        have hmemF : ∀ c ∈ [sAt s ((idx : ℤ) - 1)], ∃ p, p < ks.length ∧
            c.mean = some (ks.getD p 0) ∧ c.count = s.counts.getD p 0 := by
          intro c hc
          rw [List.mem_singleton] at hc
          subst hc
          rw [hprev, sAt_in_range s ks hk _ (by omega)]
          exact ⟨idx - 1, by omega, rfl, rfl⟩
        by_cases hb4 : flt (fabs (fsub (sAt s ((idx : ℤ) - 1)).mean (some v)))
            (fabs (fsub (sAt s (idx : ℤ)).mean (some v))) = true
        · rw [if_pos hb4]
          exact ⟨[sAt s ((idx : ℤ) - 1)], rfl, by simp, hmemF⟩
        · rw [if_neg hb4]
          by_cases hb5 : (feq (fabs (fsub (sAt s ((idx : ℤ) - 1)).mean (some v)))
              (fabs (fsub (sAt s (idx : ℤ)).mean (some v)))
              && !feq (sAt s ((idx : ℤ) - 1)).mean (sAt s (idx : ℤ)).mean) = true
          · rw [if_pos hb5]
            refine ⟨[sAt s ((idx : ℤ) - 1), sAt s (idx : ℤ)], rfl, by simp, ?_⟩
            intro c hc
            rcases List.mem_cons.mp hc with h | h
            · exact hmemF c (by simp [h])
            · exact hmemC c h
          · rw [if_neg hb5]
            exact ⟨[sAt s (idx : ℤ)], rfl, by simp, hmemC⟩

theorem sub32_self (n : ℕ) (h : n < M32) : sub32 n n = 0 := by
  rw [sub32, Nat.mod_eq_of_lt h]
  simp only [M32] at *
  omega

theorem fToUint32_nq (n : ℕ) (h : n < M32) : fToUint32 (some (nq n)) = n := by
  rw [fToUint32, nq_eq]
  rw [show ((n : ℚ)).floor = (n : ℤ) from by
    rw [show ((n : ℚ)).floor = ⌊(n : ℚ)⌋ from rfl, Int.floor_natCast],
    Int.toNat_natCast]
  exact Nat.mod_eq_of_lt h

theorem fmin_right (a b : ℚ) (h : b ≤ a) : fmin (some a) (some b) = some b := by
  rw [fmin]
  rw [if_neg (by simpa using not_lt.mpr h)]

theorem computeCQ_keys (t : TDigest) (c : Centroid) :
    ((computeCentroidQuantile t c).1).summary.keys = t.summary.keys ∧
    ((computeCentroidQuantile t c).1).summary.counts = t.summary.counts ∧
    ((computeCentroidQuantile t c).1).compression = t.compression ∧
    ((computeCentroidQuantile t c).1).count = t.count :=
  ⟨rfl, rfl, rfl, rfl⟩

theorem computeCQ_some (t : TDigest) (c : Centroid) :
    ∃ q : ℚ, (computeCentroidQuantile t c).2 = some q :=
  ⟨_, rfl⟩

theorem threshold_some (t : TDigest) (q : ℚ) :
    ∃ th : ℚ, threshold t (some q) = some th :=
  ⟨_, rfl⟩

/-- One unfolding of the candidates loop of `Add` under the entry guard. -/
theorem addLoop_step (f : ℕ) (t : TDigest) (value : F) (cands : List Centroid)
    (count : ℕ) (rng : Rng) (h : 0 < cands.length ∧ 0 < count)
    (j : ℕ) (hj : j = rng.g rng.k % cands.length)
    (chosen : Centroid) (hch : chosen = cands.getD j invalidCentroid)
    (t1 : TDigest) (ht1 : t1 = (computeCentroidQuantile t chosen).1)
    (q : F) (hq : q = (computeCentroidQuantile t chosen).2) :
    addLoop (f + 1) t value cands count rng =
      if fgt (uf (add32 chosen.count count)) (threshold t1 q) then
        addLoop f t1 value (cands.eraseIdx j) count ⟨rng.g, rng.k + 1⟩
      else
        match updateCentroid t1 chosen value
            (fToUint32 (fmin (fsub (threshold t1 q) (uf chosen.count)) (uf count))) with
        | .panic m => .panic m
        | .ok t' => addLoop f t' value (cands.eraseIdx j)
            (sub32 count (fToUint32 (fmin (fsub (threshold t1 q) (uf chosen.count))
              (uf count))))
            ⟨rng.g, rng.k + 1⟩ := by
  subst hj
  subst hch
  subst ht1
  subst hq
  rw [addLoop, if_pos h]
  rfl

/-- The candidates loop never panics on a well-formed store when every
candidate is a stored centroid; it conserves digest mass plus pending
weight and leaves the digest fields intact. -/
theorem addLoop_ok :
    ∀ (fuel : ℕ) (t : TDigest) (v : ℚ) (cands : List Centroid) (count : ℕ) (rng : Rng)
      (ks : List ℚ),
    t.summary.keys = ks.map some → ks.Chain' (· ≤ ·) →
    t.summary.counts.length = ks.length → (∀ c ∈ t.summary.counts, 1 ≤ c) →
    t.summary.counts.sum + count < M32 →
    (0 < count → cands.length ≤ fuel ∧
      ∀ c ∈ cands, ∃ p, p < ks.length ∧ c.mean = some (ks.getD p 0) ∧
        c.count = t.summary.counts.getD p 0) →
    ∃ (t' : TDigest) (count' : ℕ) (rng' : Rng) (ks' : List ℚ),
      addLoop fuel t (some v) cands count rng = .ok (t', count', rng') ∧
      t'.summary.keys = ks'.map some ∧ ks'.Chain' (· ≤ ·) ∧
      t'.summary.counts.length = ks'.length ∧ ks'.length = ks.length ∧
      (∀ c ∈ t'.summary.counts, 1 ≤ c) ∧
      t'.summary.counts.sum + count' = t.summary.counts.sum + count ∧
      count' ≤ count ∧
      t'.compression = t.compression ∧ t'.count = t.count := by
  intro fuel
  induction fuel with
  | zero =>
    intro t v cands count rng ks hk hs hlen hpos hmass hcands
    exact ⟨t, count, rng, ks, rfl, hk, hs, hlen, rfl, hpos, rfl, le_refl _, rfl, rfl⟩
  | succ f ih =>
    intro t v cands count rng ks hk hs hlen hpos hmass hcands
    by_cases hgo : 0 < cands.length ∧ 0 < count
    · obtain ⟨hcl, hcp⟩ := hgo
      obtain ⟨hclf, hcand⟩ := hcands hcp
      have hjlt : rng.g rng.k % cands.length < cands.length := Nat.mod_lt _ hcl
      set j := rng.g rng.k % cands.length with hj
      set chosen := cands.getD j invalidCentroid with hch
      have hchmem : chosen ∈ cands := by
        rw [hch, List.getD_eq_getElem cands invalidCentroid hjlt]
        exact List.getElem_mem _
      obtain ⟨p, hp, hmean, hcount⟩ := hcand chosen hchmem
      set t1 := (computeCentroidQuantile t chosen).1 with ht1
      obtain ⟨hk1, hc1, hcomp1, hcnt1⟩ := computeCQ_keys t chosen
      obtain ⟨qq, hqq⟩ := computeCQ_some t chosen
      obtain ⟨th, hth⟩ := threshold_some t1 qq
      have hthr : threshold t1 (computeCentroidQuantile t chosen).2 = some th := by
        rw [hqq]
        exact hth
      rw [addLoop_step f t (some v) cands count rng ⟨hcl, hcp⟩ j hj chosen hch
        t1 ht1 (computeCentroidQuantile t chosen).2 rfl]
      have hccle : chosen.count ≤ t.summary.counts.sum := by
        rw [hcount]
        exact List.single_le_sum (fun x _ => Nat.zero_le x) _
          (getD_mem_nat _ _ (by omega))
      have hadd : add32 chosen.count count = chosen.count + count := by
        rw [add32]
        exact Nat.mod_eq_of_lt (by omega)
      have hguard : fgt (uf (add32 chosen.count count))
          (threshold t1 (computeCentroidQuantile t chosen).2)
          = decide (th < nq (add32 chosen.count count)) := by
        rw [hthr]
        rfl
      by_cases hcmp : th < nq (add32 chosen.count count)
      · rw [if_pos (by rw [hguard]; simpa using hcmp)]
        obtain ⟨t', count', rng', ks', hres, hK, hS, hL, hLe, hP, hM, hCle, hCo, hCn⟩ :=
          ih t1 v (cands.eraseIdx j) count ⟨rng.g, rng.k + 1⟩ ks
            (by rw [hk1, hk]) hs (by rw [hc1, hlen]) (by rw [hc1]; exact hpos)
            (by rw [hc1]; exact hmass)
            (fun hcp2 => ⟨by
                have := List.length_eraseIdx cands j
                rw [this, if_pos hjlt]
                omega,
              fun c hc => by
                obtain ⟨p2, hp2, hm2, hc2⟩ := hcand c ((List.eraseIdx_sublist _ _).mem hc)
                exact ⟨p2, hp2, hm2, by rw [hc1]; exact hc2⟩⟩)
        exact ⟨t', count', rng', ks', hres, hK, hS, hL, hLe, hP,
          by rw [hc1] at hM; exact hM, hCle, by rw [hCo, hcomp1], by rw [hCn, hcnt1]⟩
      · rw [if_neg (by rw [hguard]; simpa using hcmp)]
        -- the chosen candidate absorbs the whole pending weight
        have hnqsplit : nq (chosen.count + count) = nq chosen.count + nq count := by
          rw [nq_eq, nq_eq, nq_eq]
          push_cast
          ring
        have hgle : nq chosen.count + nq count ≤ th := by
          rw [← hnqsplit, ← hadd]
          exact not_lt.mp hcmp
        have hdelta : fmin (fsub (threshold t1 (computeCentroidQuantile t chosen).2)
            (uf chosen.count)) (uf count) = some (nq count) := by
          rw [hthr, show uf chosen.count = some (nq chosen.count) from rfl,
            show uf count = some (nq count) from rfl, fsub_some]
          exact fmin_right _ _ (by linarith)
        have hcountM : count < M32 := by omega
        have hfto : fToUint32 (fmin (fsub (threshold t1 (computeCentroidQuantile t chosen).2)
            (uf chosen.count)) (uf count)) = count := by
          rw [hdelta]
          exact fToUint32_nq count hcountM
        rw [hfto]
        -- updateCentroid finds the chosen mean
        obtain ⟨hixlt, hixeq⟩ := sFindIndexW_present ks hs p hp
        have hidxT : sFindIndex t1.summary.keys chosen.mean
            = sFindIndex (ks.map some) (some (ks.getD p 0)) := by
          rw [hk1, hk, hmean]
        have hmai : meanAtIndexIs t1.summary.keys
            (sFindIndex t1.summary.keys chosen.mean) chosen.mean = true := by
          rw [meanAtIndexIs, Bool.and_eq_true, decide_eq_true_eq]
          constructor
          · rw [hidxT, hk1, hk, List.length_map]
            exact hixlt
          · rw [hidxT, hk1, hk, hmean, keys_getD ks _ hixlt]
            rw [show feq (some (ks.getD (sFindIndex (ks.map some)
                (some (ks.getD p 0))) 0)) (some (ks.getD p 0))
              = decide (ks.getD (sFindIndex (ks.map some) (some (ks.getD p 0))) 0
                = ks.getD p 0) from rfl, decide_eq_true_eq]
            exact hixeq
        have hupd : updateCentroid t1 chosen (some v) count
            = .ok { t1 with summary := (updateAt t1.summary
                (sFindIndex t1.summary.keys chosen.mean) (some v) count) } := by
          rw [updateCentroid]
          rw [if_neg (by rw [hmai]; simp)]
        rw [hupd]
        -- the store after the update
        have hixlt' : sFindIndex t1.summary.keys chosen.mean < ks.length := by
          rw [hidxT]
          exact hixlt
        set idx := sFindIndex t1.summary.keys chosen.mean with hidxd
        obtain ⟨ks2, cs2, hK2, hC2, hS2, hL2, hP2⟩ :=
          updateAt_ok t1.summary ks (by rw [hk1, hk]) hs (by rw [hc1, hlen])
            idx hixlt' v count
        have hocle : t1.summary.counts.getD idx 0 ≤ t.summary.counts.sum := by
          rw [hc1]
          exact List.single_le_sum (fun x _ => Nat.zero_le x) _
            (getD_mem_nat _ _ (by omega))
        have hadd2 : add32 (t1.summary.counts.getD idx 0) count
            = t1.summary.counts.getD idx 0 + count := by
          rw [add32]
          exact Nat.mod_eq_of_lt (by omega)
        have hset := sum_set_nat t1.summary.counts idx
          (add32 (t1.summary.counts.getD idx 0) count) (by rw [hc1]; omega)
        rw [hc1] at hset hadd2 hocle
        have hsum2 : cs2.sum = t.summary.counts.sum + count := by
          rw [hP2.sum_eq, hc1]
          omega
        have hpos2 : ∀ c ∈ cs2, 1 ≤ c := by
          intro c hc
          rcases List.mem_or_eq_of_mem_set (hP2.mem_iff.mp hc) with h | h
          · rw [hc1] at h
            exact hpos c h
          · rw [hc1] at h
            rw [h, hadd2]
            omega
        have hsub : sub32 count count = 0 := sub32_self count hcountM
        rw [hsub]
        obtain ⟨t', count', rng', ks', hres, hK, hS, hL, hLe, hP, hM, hCle, hCo, hCn⟩ :=
          ih { t1 with summary := (updateAt t1.summary idx (some v) count) }
            v (cands.eraseIdx j) 0 ⟨rng.g, rng.k + 1⟩ ks2
            hK2 hS2
            (by rw [hC2, hP2.length_eq, List.length_set, hc1, hlen, hL2])
            (by rw [hC2]; exact hpos2)
            (by rw [hC2]; rw [hsum2]; omega)
            (fun hcp2 => absurd hcp2 (by omega))
        refine ⟨t', count', rng', ks', hres, hK, hS, hL, by omega, hP, ?_, by omega,
          by rw [hCo, hcomp1], by rw [hCn, hcnt1]⟩
        rw [hC2, hsum2] at hM
        omega
    · rw [addLoop, if_neg hgo]
      exact ⟨t, count, rng, ks, rfl, hk, hs, hlen, rfl, hpos, rfl, le_refl _, rfl, rfl⟩

theorem nq_le_nq {a b : ℕ} (h : a ≤ b) : nq a ≤ nq b := by
  rw [nq_eq, nq_eq]
  exact_mod_cast h

/-- One unfolding of the engine on an `Add` request with positive weight. -/
theorem engine_add_step (fuel : ℕ) (t : TDigest) (value : F) (w' : ℕ) (rng : Rng) :
    engine (fuel + 1) (.add t value (w' + 1) rng) =
      if sLen t.summary = 0 then
        .ok (addCentroid { t with count := add32 t.count (w' + 1) } value (w' + 1)) rng
      else
        match findNearestCentroids t.summary value with
        | .panic m => .panic m
        | .ok candidates =>
          match addLoop candidates.length { t with count := add32 t.count (w' + 1) }
              value candidates (w' + 1) rng with
          | .panic m => .panic m
          | .ok (t2, count2, rng2) =>
            if fgt (uf (sLen (if 0 < count2 then addCentroid t2 value count2
                else t2).summary))
                (some (Rat.mul 20 (if 0 < count2 then addCentroid t2 value count2
                  else t2).compression)) then
              engine fuel (.compress (if 0 < count2 then addCentroid t2 value count2
                else t2) rng2)
            else .ok (if 0 < count2 then addCentroid t2 value count2 else t2) rng2 := by
  rfl

/-- `Add` with a finite value, positive in-range weight and enough head
room below the compression limit succeeds, bumps the total count by the
weight and keeps the store well-formed. -/
theorem tAdd_ok (fuel : ℕ) (t : TDigest) (v : ℚ) (w : ℕ) (rng : Rng) (ks : List ℚ)
    (hk : t.summary.keys = ks.map some) (hs : ks.Chain' (· ≤ ·))
    (hlen : t.summary.counts.length = ks.length)
    (hpos : ∀ c ∈ t.summary.counts, 1 ≤ c)
    (hw : 1 ≤ w)
    (hmass : t.summary.counts.sum + w < M32)
    (hbound : nq (ks.length + 1) ≤ Rat.mul 20 t.compression) :
    ∃ (t' : TDigest) (rng' : Rng) (ks' : List ℚ),
      tAdd (fuel + 1) t (some v) w rng = .ok t' rng' ∧
      t'.summary.keys = ks'.map some ∧ ks'.Chain' (· ≤ ·) ∧
      t'.summary.counts.length = ks'.length ∧ ks'.length ≤ ks.length + 1 ∧
      (∀ c ∈ t'.summary.counts, 1 ≤ c) ∧
      t'.summary.counts.sum = t.summary.counts.sum + w ∧
      t'.compression = t.compression ∧
      t'.count = add32 t.count w := by
  obtain ⟨w', rfl⟩ : ∃ w', w = w' + 1 := ⟨w - 1, by omega⟩
  rw [tAdd, engine_add_step fuel t (some v) w' rng]
  by_cases hempty : sLen t.summary = 0
  · rw [if_pos hempty]
    obtain ⟨ks2, hK, hS2, hL2, hB2, hM2, hP2, hCo2, hCn2⟩ :=
      addCentroid_ok { t with count := add32 t.count (w' + 1) } ks hk hs hlen hpos
        v (w' + 1) (by omega) hmass
    exact ⟨addCentroid { t with count := add32 t.count (w' + 1) } (some v) (w' + 1),
      rng, ks2, rfl, hK, hS2, hL2, hB2, hP2, hM2, hCo2, hCn2⟩
  · rw [if_neg hempty]
    have hne : 0 < ks.length := by
      rw [sLen, hk, List.length_map] at hempty
      omega
    obtain ⟨cands, hfnc, hcne, hcprop⟩ :=
      findNearestCentroids_ok t.summary ks hk hs hlen hpos hne v
    rw [hfnc]
    dsimp only
    obtain ⟨t2, count2, rng2, ks2, hres, hK, hS, hL, hLeq, hP, hM, hCle, hCo, hCn⟩ :=
      addLoop_ok cands.length { t with count := add32 t.count (w' + 1) } v cands
        (w' + 1) rng ks hk hs hlen hpos hmass
        (fun _ => ⟨le_refl _, hcprop⟩)
    rw [hres]
    dsimp only
    have hM' : t2.summary.counts.sum + count2 = t.summary.counts.sum + (w' + 1) := hM
    have hCo' : t2.compression = t.compression := hCo
    have hCn' : t2.count = add32 t.count (w' + 1) := hCn
    by_cases hc2 : 0 < count2
    · rw [if_pos hc2]
      obtain ⟨ks3, hK3, hS3, hL3, hB3, hM3, hP3, hCo3, hCn3⟩ :=
        addCentroid_ok t2 ks2 hK hS hL hP v count2 (by omega) (by omega)
      have hguard : fgt (uf (sLen (addCentroid t2 (some v) count2).summary))
          (some (Rat.mul 20 (addCentroid t2 (some v) count2).compression)) = false := by
        have hsl : sLen (addCentroid t2 (some v) count2).summary = ks3.length := by
          rw [sLen, hK3, List.length_map]
        rw [show fgt (uf (sLen (addCentroid t2 (some v) count2).summary))
            (some (Rat.mul 20 (addCentroid t2 (some v) count2).compression))
          = decide ((Rat.mul 20 (addCentroid t2 (some v) count2).compression)
            < nq (sLen (addCentroid t2 (some v) count2).summary)) from rfl]
        rw [hsl, hCo3, hCo']
        simp only [decide_eq_false_iff_not, not_lt]
        calc nq ks3.length ≤ nq (ks.length + 1) := nq_le_nq (by omega)
          _ ≤ Rat.mul 20 t.compression := hbound
      rw [if_neg (by rw [hguard]; simp)]
      refine ⟨addCentroid t2 (some v) count2, rng2, ks3, rfl, hK3, hS3, hL3,
        by omega, hP3, by omega, by rw [hCo3, hCo'], by rw [hCn3, hCn']⟩
    · rw [if_neg hc2]
      have hguard : fgt (uf (sLen t2.summary))
          (some (Rat.mul 20 t2.compression)) = false := by
        have hsl : sLen t2.summary = ks2.length := by
          rw [sLen, hK, List.length_map]
        rw [show fgt (uf (sLen t2.summary)) (some (Rat.mul 20 t2.compression))
          = decide ((Rat.mul 20 t2.compression) < nq (sLen t2.summary)) from rfl]
        rw [hsl, hCo']
        simp only [decide_eq_false_iff_not, not_lt]
        calc nq ks2.length ≤ nq (ks.length + 1) := nq_le_nq (by omega)
          _ ≤ Rat.mul 20 t.compression := hbound
      rw [if_neg (by rw [hguard]; simp)]
      exact ⟨t2, rng2, ks2, rfl, hK, hS, hL, by omega, hP, by omega,
        by rw [hCo'], by rw [hCn']⟩

/-- Replaying the decoded means against the varint weight stream: every
step decodes one varint and re-Adds one centroid; the total count comes
out as the wrapped sum of the weights. -/
theorem weightsLoop_ok :
    ∀ (ms : List F) (ws : List ℕ) (t : TDigest) (rng : Rng) (fuel : ℕ) (ks : List ℚ)
      (N : ℕ),
    ms.length = ws.length →
    (∀ m ∈ ms, ∃ q : ℚ, m = some q) →
    (∀ x ∈ ws, 1 ≤ x) →
    t.summary.keys = ks.map some → ks.Chain' (· ≤ ·) →
    t.summary.counts.length = ks.length → (∀ c ∈ t.summary.counts, 1 ≤ c) →
    t.summary.counts.sum + ws.sum < M32 →
    t.count < M32 →
    ks.length + ms.length ≤ N →
    nq N ≤ Rat.mul 20 t.compression →
    ∃ (t' : TDigest) (rng' : Rng),
      weightsLoop (fuel + 1) t ms ((ws.map putUvarint).flatten) rng = .ok t' rng' ∧
      t'.compression = t.compression ∧
      t'.count = (t.count + ws.sum) % M32 := by
  intro ms
  induction ms with
  | nil =>
    intro ws t rng fuel ks N hlen12 hsome hwpos hk hs hlen hpos hmass hcnt hN hNb
    have hws : ws = [] := by
      rw [List.length_nil] at hlen12
      exact List.length_eq_zero.mp hlen12.symm
    subst hws
    refine ⟨t, rng, rfl, rfl, ?_⟩
    simp only [List.sum_nil, Nat.add_zero]
    exact (Nat.mod_eq_of_lt hcnt).symm
  | cons m ms' ih =>
    intro ws t rng fuel ks N hlen12 hsome hwpos hk hs hlen hpos hmass hcnt hN hNb
    rcases ws with _ | ⟨w, ws'⟩
    · simp at hlen12
    · have hwle : w ≤ (w :: ws').sum := by
        simp only [List.sum_cons]
        omega
      have hwM : w < M32 := by
        have := hmass
        simp only [List.sum_cons] at this
        omega
      have hflat : (((w :: ws').map putUvarint).flatten)
          = putUvarint w ++ ((ws'.map putUvarint).flatten) := by
        simp [List.map_cons, List.flatten_cons]
      rw [weightsLoop, hflat, decodeUint32_enc w hwM _]
      dsimp only
      obtain ⟨q, hq⟩ := hsome m (by simp)
      obtain ⟨t1, rng1, ks1, hres, hK1, hS1, hL1, hB1, hP1, hM1, hCo1, hCn1⟩ :=
        tAdd_ok fuel t q w rng ks hk hs hlen hpos
          (hwpos w (by simp))
          (by simp only [List.sum_cons] at hmass; omega)
          (calc nq (ks.length + 1) ≤ nq N := nq_le_nq (by
              simp only [List.length_cons] at hN
              omega)
            _ ≤ Rat.mul 20 t.compression := hNb)
      rw [hq, hres]
      dsimp only
      obtain ⟨t', rng', hres2, hCo2, hCn2⟩ :=
        ih ws' t1 rng1 fuel ks1 N
          (by simpa using hlen12)
          (fun x hx => hsome x (by simp [hx]))
          (fun x hx => hwpos x (by simp [hx]))
          hK1 hS1 hL1 hP1
          (by
            rw [hM1]
            simp only [List.sum_cons] at hmass
            omega)
          (by rw [hCn1, add32]; exact Nat.mod_lt _ M32_pos)
          (by
            simp only [List.length_cons] at hN
            omega)
          (by rw [hCo1]; exact hNb)
      refine ⟨t', rng', hres2, by rw [hCo2, hCo1], ?_⟩
      rw [hCn2, hCn1, add32]
      simp only [List.sum_cons, M32]
      omega

/-- Unfolding of `FromBytes` with the buffer positions spelled out. -/
theorem fromBytes_step (dec64 : List ℕ → ℚ) (dec32 : List ℕ → F) (fuel : ℕ)
    (buf : List ℕ) (rng : Rng) :
    fromBytes dec64 dec32 fuel buf rng =
      if buf.length < 4 then .panic "index out of range"
      else if readU32 buf ≠ 2 then .error "Unsupported encoding version"
      else if (buf.drop 4).length < 8 then .panic "index out of range"
      else if ((buf.drop 4).drop 8).length < 4 then .panic "index out of range"
      else if 2147483648 ≤ readU32 ((buf.drop 4).drop 8)
          ∨ 4194304 < readU32 ((buf.drop 4).drop 8) then
        .error "bad number of centroids in serialization"
      else
        match meansLoop dec32 (readU32 ((buf.drop 4).drop 8))
            (((buf.drop 4).drop 8).drop 4) (some 0) with
        | .panic m => .panic m
        | .ok (means, rest) =>
          weightsLoop fuel (newT (dec64 ((buf.drop 4).take 8))) means rest rng := by
  rfl

/-- The byte layout of `Marshal`: header, compression, centroid count,
`4`-byte mean deltas, varint weights. -/
theorem marshal_layout (enc64 : ℚ → List ℕ) (enc32 : F → List ℕ) (t : TDigest)
    (hlen : t.summary.counts.length = sLen t.summary) :
    ∃ blocks : List (List ℕ),
      marshal enc64 enc32 t []
        = putU32 2 ++ (enc64 t.compression ++ (putU32 (sLen t.summary)
          ++ (blocks.flatten ++ ((t.summary.counts.map putUvarint).flatten))))
      ∧ blocks.length = sLen t.summary ∧ (∀ b ∈ blocks, ∃ v, b = enc32 v) := by
  obtain ⟨blocks, hB, hBl, hBv⟩ := means_fold enc32 t.summary.keys (sLen t.summary)
    (putU32 2 ++ enc64 t.compression ++ putU32 (sLen t.summary)) (some 0)
  refine ⟨blocks, ?_, hBl, hBv⟩
  simp only [marshal, List.nil_append]
  rw [hB]
  rw [weights_fold (fun i => t.summary.counts.getD i 0) (sLen t.summary) _]
  have hws : (List.range (sLen t.summary)).map
      (fun i => putUvarint (t.summary.counts.getD i 0))
      = t.summary.counts.map putUvarint := by
    conv_rhs => rw [← getD_range_map t.summary.counts]
    rw [List.map_map, hlen]
    rfl
  rw [hws]
  simp [List.append_assoc]

/-- C5 (amended): `FromBytes (Marshal t)` succeeds and reproduces the
compression and the total count for every well-formed digest state —
counts aligned with the keys, all positive, total stored weight below
2^32 and equal to the count field, and at most min(2^22, 20*compression)
centroids — for any mean codec of the right widths whose 64-bit decoder
inverts the encoder at the stored compression. -/
theorem c5_roundtrip_preserves
    (t : TDigest) (rng : Rng) (fuel : ℕ)
    (enc64 : ℚ → List ℕ) (enc32 : F → List ℕ)
    (dec64 : List ℕ → ℚ) (dec32 : List ℕ → F)
    (hlen : t.summary.counts.length = sLen t.summary)
    (hpos : ∀ c ∈ t.summary.counts, 1 ≤ c)
    (hmass : t.summary.counts.sum < M32)
    (hcount : t.count = t.summary.counts.sum)
    (hn22 : sLen t.summary ≤ 4194304)
    (hcomp : nq (sLen t.summary) ≤ Rat.mul 20 t.compression)
    (henc64 : (enc64 t.compression).length = 8)
    (henc32 : ∀ x, (enc32 x).length = 4)
    (hdec64 : dec64 (enc64 t.compression) = t.compression)
    (hdec32 : ∀ b, (dec32 b).isSome = true) :
    ∃ (t' : TDigest) (rng' : Rng),
      fromBytes dec64 dec32 (fuel + 1) (marshal enc64 enc32 t []) rng = .ok t' rng' ∧
      t'.compression = t.compression ∧
      t'.count = t.count := by
  obtain ⟨blocks, hM, hBl, hBv⟩ := marshal_layout enc64 enc32 t hlen
  set n := sLen t.summary with hn
  set wflat := (t.summary.counts.map putUvarint).flatten with hwf
  rw [hM, fromBytes_step]
  set R1 := enc64 t.compression ++ (putU32 n ++ (blocks.flatten ++ wflat)) with hR1
  have htake8 : R1.take 8 = enc64 t.compression := by
    rw [hR1, ← henc64, List.take_left]
  have hdrop8 : R1.drop 8 = putU32 n ++ (blocks.flatten ++ wflat) := by
    rw [hR1, ← henc64, List.drop_left]
  have hreadn : readU32 (putU32 n ++ (blocks.flatten ++ wflat)) = n :=
    readU32_append n (by simp only [M32]; omega) _
  rw [readU32_append 2 (by norm_num [M32]) R1, drop4_putU32 2 R1, htake8, hdrop8,
    hdec64, hreadn, drop4_putU32 n (blocks.flatten ++ wflat)]
  have hlen1 : (putU32 2 ++ R1).length = 4 + R1.length := by
    rw [List.length_append, length4_putU32]
  have hR1len : R1.length = 8 + (putU32 n ++ (blocks.flatten ++ wflat)).length := by
    rw [hR1, List.length_append, henc64]
  have hlen2 : (putU32 n ++ (blocks.flatten ++ wflat)).length
      = 4 + (blocks.flatten ++ wflat).length := by
    rw [List.length_append, length4_putU32]
  rw [if_neg (by rw [hlen1]; omega),
    if_neg (by omega),
    if_neg (by rw [hR1len]; omega),
    if_neg (by rw [hlen2]; omega),
    if_neg (by
      push_neg
      constructor <;> omega)]
  have hblen : ∀ b ∈ blocks, b.length = 4 := fun b hb => by
    obtain ⟨v, rfl⟩ := hBv b hb
    exact henc32 v
  obtain ⟨ms, hms, hmsl, hmssome⟩ := meansLoop_blocks dec32 hdec32 blocks hblen wflat 0
  rw [← hBl, hms]
  dsimp only
  obtain ⟨t', rng', hwl, hco, hcn⟩ :=
    weightsLoop_ok ms t.summary.counts (newT t.compression) rng fuel [] n
      (by rw [hmsl, hBl]; exact hlen.symm)
      hmssome
      hpos
      rfl
      List.chain'_nil
      rfl
      (by intro c hc; simp [newT, newSummary] at hc)
      (by
        show (0 : ℕ) + t.summary.counts.sum < M32
        omega)
      (by norm_num [newT, M32])
      (by
        show ([] : List ℚ).length + ms.length ≤ n
        rw [hmsl, hBl]
        simp)
      (by
        show nq n ≤ Rat.mul 20 t.compression
        exact hcomp)
  rw [hwl]
  refine ⟨t', rng', rfl, by rw [hco]; rfl, ?_⟩
  rw [hcn]
  rw [show (newT t.compression).count = 0 from rfl, Nat.zero_add,
    Nat.mod_eq_of_lt hmass, hcount]

/-- Concrete instance of the round-trip: a one-centroid digest with
compression 1 and count 1, under the trivial test codecs, deserializes
to the same compression and count. -/
theorem c5_roundtrip_preserves_witness :
    ∃ (t' : TDigest) (rng' : Rng),
      fromBytes dec64c dec32c 1 (marshal enc64c enc32c
        (⟨⟨[some 0], [1], ⟨[]⟩⟩, 1, 1⟩ : TDigest) []) rng0 = .ok t' rng' ∧
      t'.compression = (1 : ℚ) ∧ t'.count = 1 :=
  c5_roundtrip_preserves (⟨⟨[some 0], [1], ⟨[]⟩⟩, 1, 1⟩ : TDigest) rng0 0
    enc64c enc32c dec64c dec32c
    rfl (by decide) (by decide) rfl (by decide)
    (of_decide_eq_true (by with_unfolding_all rfl))
    rfl (fun _ => rfl) rfl (fun _ => rfl)

end TD
